import Mathlib

/-!
A shallow embedding of the `skippy` concurrent skip list, specialised to the
sequential (single-threaded, quiescent) executions that the specification's
laws quantify over.  Pointers are modelled as `Option Nat` addresses into an
explicit heap, the packed `height_and_removed` word of a node is a `Nat`
holding the 32-bit word, and every CAS succeeds or fails against the current
cell exactly as the hardware CAS would in the absence of interference.
Loops of the source become fuel-indexed recursions returning `Option`;
`none` covers fuel exhaustion and the source's `panic!`/`expect` aborts.

The embedding follows `src/internal/sync/mod.rs` (the insert/remove variant
the specification standardises on), `src/internal/utils/node.rs` and
`src/internal/utils/mod.rs`.  The `MaybeTagged` cell type and the
`try_add_ref`/`try_sub_ref` helpers are referenced by that code but their
definitions are not part of the sources; they are modelled from the spec
where marked.
-/

namespace Skippy

/-- `HEIGHT_BITS` from `src/internal/utils/mod.rs`. -/
def HEIGHT_BITS : Nat := 5

/-- `HEIGHT = 1 << HEIGHT_BITS` from `src/internal/utils/mod.rs` (= 32). -/
def HEIGHT : Nat := 1 <<< HEIGHT_BITS

/-- `REMOVED_MASK = 1u32 << 31` from `src/internal/utils/node.rs`. -/
def REMOVED_MASK : Nat := 1 <<< 31

/-- `BUILD_MASK = 1u32 << 30` from `src/internal/utils/node.rs`. -/
def BUILD_MASK : Nat := 1 <<< 30

/-- Node addresses in the modelled heap. -/
abbrev Addr := Nat

/-- Modelled from the spec: `MaybeTagged<Node>` (§4.1 Tagged atomic pointer,
`src/internal/sync/tagged.rs` is not among the sources).  A pointer-sized
cell holding a node address (`none` = null) plus a small integer tag. -/
structure TPtr where
  ptr : Option Addr := none
  tag : Nat := 0
deriving Repr, DecidableEq

/-- The all-zero cell: null pointer, tag 0. -/
def TPtr.null : TPtr := {}

/-- Modelled from the spec: `load_ptr` returns the address with the tag
masked off. -/
def TPtr.loadPtr (c : TPtr) : Option Addr := c.ptr

/-- Modelled from the spec: `load_tag`. -/
def TPtr.loadTag (c : TPtr) : Nat := c.tag

/-- Modelled from the spec: `load_decomposed`. -/
def TPtr.loadDecomposed (c : TPtr) : Option Addr × Nat := (c.ptr, c.tag)

/-- Modelled from the spec: `store_ptr(addr)` stores `(addr, 0)`. -/
def TPtr.storePtr (_c : TPtr) (p : Option Addr) : TPtr := ⟨p, 0⟩

/-- Modelled from the spec: `compare_exchange(expected, new)` succeeds only
if the current value is `(expected, 0)` and then writes `(new, 0)`; on
failure it returns the observed `(addr, tag)`.  The returned cell is the
cell's value after the operation. -/
def TPtr.compareExchange (c : TPtr) (expected new : Option Addr) :
    TPtr × Except (Option Addr × Nat) (Option Addr) :=
  if c.ptr = expected ∧ c.tag = 0 then (⟨new, 0⟩, .ok c.ptr)
  else (c, .error (c.ptr, c.tag))

/-- Modelled from the spec: `compare_exchange_tag(expected_tag, new_tag)`
changes the tag keeping the address; on failure it reports the observed
tag (the binding `o_tag` at the `tag_levels` call site). -/
def TPtr.compareExchangeTag (c : TPtr) (expectedTag newTag : Nat) :
    TPtr × Except Nat Unit :=
  if c.tag = expectedTag then (⟨c.ptr, newTag⟩, .ok ())
  else (c, .error c.tag)

/-- Modelled from the spec: `compare_exchange_with_tag` is the full
`(addr, tag)` CAS. -/
def TPtr.compareExchangeWithTag (c : TPtr) (ep : Option Addr) (et : Nat)
    (np : Option Addr) (nt : Nat) : TPtr × Except (Option Addr × Nat) Unit :=
  if c.ptr = ep ∧ c.tag = et then (⟨np, nt⟩, .ok ())
  else (c, .error (c.ptr, c.tag))

/-- `Node` from `src/internal/utils/node.rs`: key, value, the packed
`height_and_removed` 32-bit word `har`, the `refs` counter and the tower
of tagged pointers (`levels`, one cell per level up to the height). -/
structure Node (K V : Type) where
  key : K
  val : V
  har : Nat
  refs : Nat
  levels : List TPtr
deriving Repr, DecidableEq

/-- `Node::height`: the packed word with the removed and build bits masked
off (`w & !REMOVED_MASK & !BUILD_MASK`, i.e. the low 30 bits). -/
def harHeight (w : Nat) : Nat := w &&& (2 ^ 30 - 1)

/-- `Node::removed`: `leading_zeros() == 0` on the 32-bit word, i.e. bit 31
is set (all words of the model stay below `2^32`). -/
def harRemoved (w : Nat) : Bool := w.testBit 31

/-- `Node::height`. -/
def Node.height (n : Node K V) : Nat := harHeight n.har

/-- `Node::removed`. -/
def Node.removed (n : Node K V) : Bool := harRemoved n.har

/-- `Node::refs`. -/
def Node.refsCount (n : Node K V) : Nat := n.refs

/-- `Node::set_har_with`: compute `f` of the current word; if nothing
changed report `Err`, otherwise CAS the new word in (sequentially the CAS
succeeds and `Ok` carries the previous word). -/
def setHarWith (w : Nat) (f : Nat → Nat) : Nat × Except Unit Nat :=
  let nw := f w
  if nw = w then (w, .error ()) else (nw, .ok w)

/-- `Node::set_removed`: `set_har_with(|old| old | REMOVED_MASK)`. -/
def Node.setRemoved (n : Node K V) : Node K V × Except Unit Nat :=
  let r := setHarWith n.har (fun old => old ||| REMOVED_MASK)
  ({ n with har := r.1 }, r.2)

/-- `Node::set_height`: assert the new height is not above the current one,
then store the word keeping the removed/build bits (sequentially the first
CAS succeeds).  `none` models the assertion failure. -/
def Node.setHeight (n : Node K V) (height : Nat) : Option (Node K V) :=
  if n.height < height then none
  else some { n with har := (n.har &&& (REMOVED_MASK ||| BUILD_MASK)) ||| height }

/-- `Node::add_ref`: `fetch_add(1)` on the 32-bit refs counter, returning
the previous value. -/
def Node.addRef (n : Node K V) : Node K V × Nat :=
  ({ n with refs := (n.refs + 1) % 2 ^ 32 }, n.refs)

/-- `Node::sub_ref`: `fetch_sub(1)` on the 32-bit refs counter (wrapping),
returning the previous value. -/
def Node.subRef (n : Node K V) : Node K V × Nat :=
  ({ n with refs := (n.refs + (2 ^ 32 - 1)) % 2 ^ 32 }, n.refs)

/-- Modelled from the spec: `try_add_ref` (referenced by
`src/internal/sync/mod.rs` but not defined in `node.rs`) fails when the
count is already 0, to avoid resurrecting a node that has hit zero. -/
def Node.tryAddRef (n : Node K V) : Node K V × Except Unit Nat :=
  if n.refs = 0 then (n, .error ())
  else ({ n with refs := n.refs + 1 }, .ok (n.refs + 1))

/-- Modelled from the spec: `try_sub_ref` (referenced by
`src/internal/sync/mod.rs` but not defined in `node.rs`) fails instead of
underflowing at count 0 and otherwise returns the decremented count (the
call site retires the node when the result is 0). -/
def Node.trySubRef (n : Node K V) : Node K V × Except Unit Nat :=
  if n.refs = 0 then (n, .error ())
  else ({ n with refs := n.refs - 1 }, .ok (n.refs - 1))

/-- Read the tower cell at `level` (as `levels[level]`). -/
def Node.level (n : Node K V) (i : Nat) : TPtr := n.levels.getD i TPtr.null

/-- Write the tower cell at `level`. -/
def Node.setLevel (n : Node K V) (i : Nat) (c : TPtr) : Node K V :=
  { n with levels := n.levels.set i c }

/-- `Node::tag_levels`, the loop from level `l - 1` down to 0: CAS each
cell's tag from 0 to `tag`, stopping at the first failure with the observed
tag. -/
def Node.tagLevelsFrom (n : Node K V) (tag : Nat) : Nat → Node K V × Except Nat Unit
  | 0 => (n, .ok ())
  | l + 1 =>
    let c := n.level l
    match c.compareExchangeTag 0 tag with
    | (c', .ok ()) => (n.setLevel l c').tagLevelsFrom tag l
    | (_, .error o) => (n, .error o)

/-- `Node::tag_levels(tag)`: run the downward loop over all `height()`
levels; on success return `height() - 1`. -/
def Node.tagLevels (n : Node K V) (tag : Nat) : Node K V × Except Nat Nat :=
  let r := n.tagLevelsFrom tag n.height
  (r.1, r.2.map fun _ => r.1.height - 1)

/-- `Node::try_remove_and_tag`: `set_removed()?`, read out the key/value
pair, then `tag_levels(1)` (its error collapsed to `()`). -/
def Node.tryRemoveAndTag (n : Node K V) : Node K V × Except Unit (K × V) :=
  match n.setRemoved with
  | (n₁, .error ()) => (n₁, .error ())
  | (n₁, .ok _) =>
    match n₁.tagLevels 1 with
    | (n₂, .ok _) => (n₂, .ok (n₂.key, n₂.val))
    | (n₂, .error _) => (n₂, .error ())

/-- `Node::new` over `Node::alloc`: one allocation sized for `height`
slots; `alloc` writes `height_and_removed := height` and zeroes the
`height` tower cells, then `new` writes the key and the value.  The `refs`
word is NOT written by the source, so the model takes the allocator's
fresh-memory content at that word as the argument `uninitRefs`.  `none`
models the `assert!(height <= HEIGHT && height > 0)` failure in
`Levels::get_size`. -/
def Node.new (k : K) (v : V) (height : Nat) (uninitRefs : Nat) : Option (Node K V) :=
  if height ≤ HEIGHT ∧ 0 < height then
    some { key := k, val := v, har := height, refs := uninitRefs,
           levels := List.replicate height TPtr.null }
  else none

/-- The list state from the `skiplist_basics!` macro in
`src/internal/utils/mod.rs`: the `Head` sentinel's tower of `HEIGHT` cells
(its key/value are never read), the heap of allocated nodes, and
`ListState { len, max_height, seed }`.  `nextAddr` is the allocator's next
fresh address; retired nodes stay in the heap, modelling deferred
reclamation (the hazard-pointer domain frees them only after all guards
drop, which keeps the entries returned to callers readable).  The `len`
counter is a plain `Nat`: on 64-bit hardware the live-node count cannot
wrap the `AtomicUsize`, and the unlink protocol is proved to never
decrement it below zero. -/
structure SkipList (K V : Type) where
  headLevels : List TPtr
  heap : Addr → Option (Node K V)
  len : Nat
  maxHeight : Nat
  seed : Nat
  nextAddr : Addr

/-- `SkipList::new`: empty head tower of `HEIGHT` null cells,
`len = 0`, `max_height = 1`, and a caller-chosen random seed. -/
def SkipList.new (K V : Type) (seed : Nat) : SkipList K V :=
  { headLevels := List.replicate HEIGHT TPtr.null
    heap := fun _ => none
    len := 0
    maxHeight := 1
    seed := seed
    nextAddr := 0 }

/-- `len()`: relaxed load of the counter. -/
def SkipList.length (s : SkipList K V) : Nat := s.len

/-- `is_empty()`: `len < 1`. -/
def SkipList.isEmpty (s : SkipList K V) : Bool := s.len < 1

/-- The head's cell at a level (`head.levels[i]`). -/
def SkipList.headLevel (s : SkipList K V) (i : Nat) : TPtr :=
  s.headLevels.getD i TPtr.null

/-- One step of the 64-bit xorshift in `gen_height`:
`seed ^= seed << 13; seed ^= seed >> 17; seed ^= seed << 5` on `usize`. -/
def xorshift64 (seed : Nat) : Nat :=
  let s₁ := (seed ^^^ (seed <<< 13)) % 2 ^ 64
  let s₂ := s₁ ^^^ (s₁ >>> 17)
  (s₂ ^^^ (s₂ <<< 5)) % 2 ^ 64

/-- `u64::trailing_zeros` via bounded recursion (64 for the zero word). -/
def ctzAux : Nat → Nat → Nat
  | 0, _ => 0
  | fuel + 1, w => if w % 2 = 1 then 0 else ctzAux fuel (w / 2) + 1

/-- `usize::trailing_zeros` of the (64-bit) seed. -/
def trailingZeros64 (w : Nat) : Nat := ctzAux 64 (w % 2 ^ 64)

/-- The capping loop of `gen_height`:
`while height >= 4 && head.levels[height - 2].load_ptr().is_null() { height -= 1 }`
(structural recursion on the decreasing height). -/
def genHeightCap (headLevels : List TPtr) : Nat → Nat
  | 0 => 0
  | h + 1 =>
    if 4 ≤ h + 1 ∧ (headLevels.getD (h + 1 - 2) TPtr.null).ptr = none then
      genHeightCap headLevels h
    else h + 1

/-- `gen_height` from the `skiplist_basics!` macro: advance the seed by
xorshift (storing it), propose `min(HEIGHT, trailing_zeros(seed) + 1)`,
cap it by the loop over the head's populated levels, and raise
`max_height` to the result if it is greater.  Returns the height together
with the updated list state. -/
def SkipList.genHeight (s : SkipList K V) : Nat × SkipList K V :=
  let seed := xorshift64 s.seed
  let s₁ := { s with seed := seed }
  let height₀ := min HEIGHT (trailingZeros64 seed + 1)
  let height := genHeightCap s₁.headLevels height₀
  let s₂ := if s₁.maxHeight < height then { s₁ with maxHeight := height } else s₁
  (height, s₂)

/-- A location: either the Head sentinel (`none`) or an allocated node.  In
the source both are `*mut Node` and the Head is told apart via `is_head`;
the model keeps head-ness structural, which also makes `is_head` checks on
cell-read addresses trivially false (no cell ever stores the Head's
address). -/
abbrev Loc := Option Addr

/-- Write a node back to the heap. -/
def SkipList.setNode (s : SkipList K V) (a : Addr) (n : Node K V) : SkipList K V :=
  { s with heap := fun a' => if a' = a then some n else s.heap a' }

/-- Read the tower cell `loc.levels[i]` (the Head's or a node's); `none`
when the node pointer dangles (impossible in well-formed states). -/
def SkipList.locCell (s : SkipList K V) (loc : Loc) (i : Nat) : Option TPtr :=
  match loc with
  | none => some (s.headLevel i)
  | some a => (s.heap a).map (fun n => n.level i)

/-- Write the tower cell `loc.levels[i]`. -/
def SkipList.setLocCell (s : SkipList K V) (loc : Loc) (i : Nat) (c : TPtr) :
    Option (SkipList K V) :=
  match loc with
  | none => some { s with headLevels := s.headLevels.set i c }
  | some a => (s.heap a).map (fun n => s.setNode a (n.setLevel i c))

/-- `retire_node`: hand the node to the hazard-pointer domain for deferred
reclamation.  The model keeps retired nodes in the heap (they are freed
only after every guard drops, which never happens within the operations
modelled here), so retiring does not change the observable state. -/
def SkipList.retireNode (s : SkipList K V) (_a : Addr) : SkipList K V := s

/-- `SkipList::sub_ref` (the list method, `src/internal/sync/mod.rs`):
`try_sub_ref().expect(..)`; retire the node when the count hits 0.  The
returned flag is `none` exactly when the node was retired (the caller's
`break` signal); the outer `Option` is the `expect` panic. -/
def SkipList.subRefNode (s : SkipList K V) (a : Addr) :
    Option (SkipList K V × Option Unit) := do
  let n ← s.heap a
  match n.trySubRef with
  | (_, .error ()) => none
  | (n', .ok cnt) =>
    let s' := (s.setNode a n').retireNode a
    if cnt = 0 then some (s'.retireNode a, none) else some (s', some ())

/-- `SearchResult` from `src/internal/sync/mod.rs`: the `prev` array of
`HEIGHT` (predecessor, observed-next) pairs and the optional target. -/
structure SearchResult where
  prev : List (Loc × Option Addr)
  target : Option Addr
deriving Repr, DecidableEq

/-- Outcome of the per-level walk of `find`: the final `prev` array, a
restart request from a failed helping CAS, or failure (fuel exhaustion /
a panic inside helping). -/
inductive WalkRes (K V : Type) where
  | done (prev : List (Loc × Option Addr)) (s : SkipList K V)
  | restart (prev : List (Loc × Option Addr)) (s : SkipList K V)
  | fail

/-- Outcome of the inner helping loop of `find` that computes the next
candidate at a level. -/
inductive HelpRes (K V : Type) where
  | ok (next : Option Addr) (s : SkipList K V)
  | restart (s : SkipList K V)
  | fail

/-- The inner `loop` of `find` (`src/internal/sync/mod.rs:346`): starting
from the candidate successor `next` of `curr` at level `lvl`, keep helping
(`unlink_level`) while the candidate's own outgoing pointer at `lvl` is
tagged; a failed helping CAS restarts the whole search. -/
def helpLoop (s : SkipList K V) (curr : Loc) (lvl : Nat) (next : Option Addr) :
    Nat → HelpRes K V
  | 0 => .fail
  | fuel + 1 =>
    match next with
    | none => .ok none s
    | some a =>
      match s.heap a with
      | none => .fail
      | some n =>
        if (n.level lvl).loadTag = 0 then .ok (some a) s
        else
          -- `unlink_level(&curr, n, new_next, lvl)`
          let newNext := (n.level lvl).loadPtr
          match s.locCell curr lvl with
          | none => .fail
          | some cell =>
            match cell.compareExchange (some a) newNext with
            | (c', .ok _) =>
              match s.setLocCell curr lvl c' with
              | none => .fail
              | some s₁ =>
                match s₁.subRefNode a with
                | none => .fail
                | some (s₂, _) => helpLoop s₂ curr lvl newNext fuel
            | (_, .error _) => .restart s

/-- The `while level > 0` descent of `find`
(`src/internal/sync/mod.rs:343`): at each level compute the candidate
successor via `helpLoop`, then either advance (`next.key < key`) recording
`prev[level-1] = (curr, next)`, or record and descend. -/
def walkLoop (s : SkipList K V) (key : K) [LinearOrder K]
    (prev : List (Loc × Option Addr)) (curr : Loc) (level : Nat) :
    Nat → WalkRes K V
  | 0 => .fail
  | fuel + 1 =>
    if level = 0 then .done prev s
    else
      match s.locCell curr (level - 1) with
      | none => .fail
      | some cell =>
        match helpLoop s curr (level - 1) cell.loadPtr fuel with
        | .fail => .fail
        | .restart s₁ => .restart prev s₁
        | .ok next s₁ =>
          match next with
          | some a =>
            match s₁.heap a with
            | none => .fail
            | some n =>
              if n.key < key then
                walkLoop s₁ key (prev.set (level - 1) (curr, some a)) (some a) level fuel
              else
                walkLoop s₁ key (prev.set (level - 1) (curr, some a)) curr (level - 1) fuel
          | none =>
            walkLoop s₁ key (prev.set (level - 1) (curr, none)) curr (level - 1) fuel

/-- The clamp at the top of each search round:
`while level > 1 && head.levels[level - 1].load_ptr().is_null() { level -= 1 }`
(structural recursion on the decreasing level). -/
def SkipList.clampStart (s : SkipList K V) : Nat → Nat
  | 0 => 0
  | l + 1 =>
    if 1 < l + 1 ∧ (s.headLevel (l + 1 - 1)).loadPtr = none then
      s.clampStart l
    else l + 1

/-- The `'_search` loop of `find`: run one descent from the clamped top
level; on a helping failure restart with the `prev` array as mutated so
far.  With `search_closest = true` the post-descent code indexes
`curr.levels[level - 1]` with `level = 0`, a `usize` underflow
(`src/internal/sync/mod.rs:393`, debug panic / release out-of-bounds), so
that branch is a failure in the model; no modelled operation reaches it. -/
def findLoop (s : SkipList K V) (key : K) [LinearOrder K] (searchClosest : Bool)
    (prev : List (Loc × Option Addr)) : Nat → Option (SearchResult × SkipList K V)
  | 0 => none
  | fuel + 1 =>
    let level := s.clampStart s.maxHeight
    match walkLoop s key prev none level fuel with
    | .fail => none
    | .restart prev₁ s₁ => findLoop s₁ key searchClosest prev₁ fuel
    | .done prev₁ s₁ =>
      if searchClosest then none
      else
        match s₁.locCell (prev₁.getD 0 (none, none)).1 0 with
        | none => none
        | some c =>
          match c.loadPtr with
          | some a =>
            match s₁.heap a with
            | none => none
            | some n =>
              if n.key = key ∧ n.removed = false then
                some (⟨prev₁, some a⟩, s₁)
              else some (⟨prev₁, none⟩, s₁)
          | none => some (⟨prev₁, none⟩, s₁)

/-- `SkipList::find` (`src/internal/sync/mod.rs:305`): initialise
`prev[i] = (Head, head.levels[i])` for every level, then run the search
loop. -/
def SkipList.find (s : SkipList K V) [LinearOrder K] (key : K)
    (searchClosest : Bool) (fuel : Nat) : Option (SearchResult × SkipList K V) :=
  let prev₀ := (List.range HEIGHT).map fun i => ((none : Loc), (s.headLevel i).loadPtr)
  findLoop s key searchClosest prev₀ fuel

/-- The `for i in start..stop` body chain of `link_nodes`
(`src/internal/sync/mod.rs:109`): at each level, stop early when the new
node got removed or the recorded successor's key is not above the new key;
CAS the successor into the new node's cell, do the reference-count
bookkeeping (`add_ref` at level 0, `try_add_ref` above), then CAS the new
node into the predecessor's cell, undoing the increment on failure.
Returns the level of a failed CAS as `Except.error`. -/
def linkNodesLoop [LinearOrder K] (s : SkipList K V) (newAddr : Addr)
    (prev : List (Loc × Option Addr)) (i stop : Nat) :
    Option (SkipList K V × Except Nat Unit) := do
  if _h : stop ≤ i then
    return (s, .ok ())
  else
    let (prevLoc, next) := prev.getD i (none, none)
    let nextPtr : Option Addr := next
    let newNode ← s.heap newAddr
    let currNext := (newNode.level i).loadPtr
    if newNode.removed then
      return (s, .ok ())
    else
    -- `next.key <= new_node.key && !new_node.removed()` stops the build
    let stopKey ← match next with
      | some a => do
        let n ← s.heap a
        pure (decide (n.key ≤ newNode.key) && !newNode.removed)
      | none => pure false
    if stopKey then
      return (s, .ok ())
    else
    match (newNode.level i).compareExchange currNext nextPtr with
    | (_, .error _) => return (s, .error i)
    | (c', .ok _) => do
      let s₁ := s.setNode newAddr (newNode.setLevel i c')
      let n₁ ← s₁.heap newAddr
      let (s₂, stopRefs) ←
        if i = 0 then
          pure (s₁.setNode newAddr (n₁.addRef).1, false)
        else
          match n₁.tryAddRef with
          | (_, .error ()) => pure (s₁, true)
          | (n₂, .ok _) => pure (s₁.setNode newAddr n₂, false)
      if stopRefs then
        return (s₂, .ok ())
      else
      let cell ← s₂.locCell prevLoc i
      match cell.compareExchange nextPtr (some newAddr) with
      | (c'', .ok _) => do
        let s₃ ← s₂.setLocCell prevLoc i c''
        linkNodesLoop s₃ newAddr prev (i + 1) stop
      | (_, .error _) => do
        let n₃ ← s₂.heap newAddr
        return (s₂.setNode newAddr (n₃.subRef).1, .error i)
termination_by stop - i
decreasing_by omega

/-- `link_nodes` (`src/internal/sync/mod.rs:102`): run the level loop from
`start_height` up to the new node's height; afterwards (only on the `Ok`
paths, the `return Err(i)` exits skip it) run the cleaning search when the
node was removed while being published. -/
def SkipList.linkNodes [LinearOrder K] (s : SkipList K V) (newAddr : Addr)
    (prev : List (Loc × Option Addr)) (start : Nat) (fuel : Nat) :
    Option (SkipList K V × Except Nat Unit) := do
  let newNode ← s.heap newAddr
  let (s₁, r) ← linkNodesLoop s newAddr prev start newNode.height
  match r with
  | .error i => return (s₁, .error i)
  | .ok () => do
    let n ← s₁.heap newAddr
    if n.removed then
      let (_, s₂) ← s₁.find n.key false fuel
      return (s₂, .ok ())
    else
      return (s₁, .ok ())

/-- The `for (i, (prev, next)) in previous_nodes.iter().enumerate()
.take(height).rev()` loop of `unlink` (`src/internal/sync/mod.rs:231`):
`count` levels remain, the current one is `count - 1`.  A failed
predecessor CAS aborts with `Err(i + 1)`; a reference count hitting zero
retires the node and breaks.  The result's second component is `some e`
for `Err(e)` and `none` when the loop ran to its end or broke. -/
def unlinkLevels (s : SkipList K V) (nodeAddr : Addr)
    (prev : List (Loc × Option Addr)) : Nat → Option (SkipList K V × Option Nat)
  | 0 => some (s, none)
  | count + 1 => do
    let i := count
    let node ← s.heap nodeAddr
    let (newNext, _tag) := (node.level i).loadDecomposed
    let (prevLoc, _next) := prev.getD i (none, none)
    let cell ← s.locCell prevLoc i
    match cell.compareExchange (some nodeAddr) newNext with
    | (_, .error _) => some (s, some (i + 1))
    | (c', .ok _) => do
      let s₁ ← s.setLocCell prevLoc i c'
      let (s₂, cont) ← s₁.subRefNode nodeAddr
      match cont with
      | none => some (s₂, none)
      | some () => unlinkLevels s₂ nodeAddr prev count

/-- `SkipList::unlink` (`src/internal/sync/mod.rs:216`): the node is never
the Head here (cells never store the Head's address, so the source's
`is_head` panic guard cannot fire); run the top-down level loop, then
decrement the length counter and hint reclamation. -/
def SkipList.unlink (s : SkipList K V) (nodeAddr : Addr) (height : Nat)
    (prev : List (Loc × Option Addr)) : Option (SkipList K V × Except Nat Unit) := do
  let (s₁, e) ← unlinkLevels s nodeAddr prev height
  match e with
  | some i => some (s₁, .error i)
  | none => some ({ s₁ with len := s₁.len - 1 }, .ok ())

/-- `SkipList::remove` (`src/internal/sync/mod.rs:169`): find the target;
CAS its removed bit (losing the race returns `None`); `tag_levels(1)`
(whose failure is a `panic!`); unlink it, running one repair search if the
unlink fails; return the entry. -/
def SkipList.remove [LinearOrder K] (s : SkipList K V) (key : K) (fuel : Nat) :
    Option (SkipList K V × Option (K × V)) := do
  let (r, s₁) ← s.find key false fuel
  match r.target with
  | none => some (s₁, none)
  | some tAddr => do
    let t ← s₁.heap tAddr
    match t.setRemoved with
    | (t₁, .error ()) => some (s₁.setNode tAddr t₁, none)
    | (t₁, .ok _) => do
      let s₂ := s₁.setNode tAddr t₁
      let height := t₁.height
      match t₁.tagLevels 1 with
      | (_, .error _) => none
      | (t₂, .ok _) => do
        let s₃ := s₂.setNode tAddr t₂
        let (s₄, ur) ← s₃.unlink tAddr height r.prev
        let s₅ ← match ur with
          | .error _ => do
            let (_, s') ← s₄.find key false fuel
            pure s'
          | .ok () => pure s₄
        some (s₅, some (t₂.key, t₂.val))

/-- The pre-allocation replacement loop of `insert`
(`src/internal/sync/mod.rs:45`): while the search reports a same-key
target, logically remove and tag it, best-effort unlink it (the result is
discarded), remember it as `existing` and search again.  `take()` clears
the target, so a failed `try_remove_and_tag` simply falls out of the
loop. -/
def insertReplaceLoop [LinearOrder K] (s : SkipList K V) (key : K)
    (ip : SearchResult) (existing : Option Addr) :
    Nat → Option (SkipList K V × SearchResult × Option Addr)
  | 0 => none
  | fuel + 1 =>
    match ip.target with
    | none => some (s, ip, existing)
    | some tAddr => do
      let ipTaken : SearchResult := { ip with target := none }
      let t ← s.heap tAddr
      match t.tryRemoveAndTag with
      | (t', .error ()) => insertReplaceLoop (s.setNode tAddr t') key ipTaken existing fuel
      | (t', .ok _) => do
        let s₁ := s.setNode tAddr t'
        let tNow ← s₁.heap tAddr
        let (s₂, _) ← s₁.unlink tAddr tNow.height ipTaken.prev
        let (ip', s₃) ← s₂.find key false fuel
        insertReplaceLoop s₃ key ip' (some tAddr) fuel

/-- The inner replacement loop of `insert`'s publish-retry
(`src/internal/sync/mod.rs:76`): like `insertReplaceLoop`, but a target
that is the new node itself breaks out (someone completed publishing our
own tower). -/
def insertRetryTargetLoop [LinearOrder K] (s : SkipList K V) (key : K)
    (newAddr : Addr) (search : SearchResult) (existing : Option Addr) :
    Nat → Option (SkipList K V × SearchResult × Option Addr)
  | 0 => none
  | fuel + 1 =>
    match search.target with
    | none => some (s, search, existing)
    | some tAddr => do
      let taken : SearchResult := { search with target := none }
      if tAddr = newAddr then
        some (s, taken, existing)
      else do
        let t ← s.heap tAddr
        match t.tryRemoveAndTag with
        | (t', .error ()) => insertRetryTargetLoop (s.setNode tAddr t') key newAddr taken existing fuel
        | (t', .ok _) => do
          let s₁ := s.setNode tAddr t'
          let tNow ← s₁.heap tAddr
          let (s₂, _) ← s₁.unlink tAddr tNow.height taken.prev
          let (search', s₃) ← s₂.find key false fuel
          insertRetryTargetLoop s₃ key newAddr search' (some tAddr) fuel

/-- The `while let Err(starting) = link_nodes(..)` publish loop of
`insert` (`src/internal/sync/mod.rs:71`): on a failed level CAS, re-search,
clear any stale same-key target, and retry from the failed level with the
fresh predecessors. -/
def insertLinkLoop [LinearOrder K] (s : SkipList K V) (key : K) (newAddr : Addr)
    (prev : List (Loc × Option Addr)) (start : Nat) (existing : Option Addr) :
    Nat → Option (SkipList K V × Option Addr)
  | 0 => none
  | fuel + 1 => do
    let (s₁, r) ← s.linkNodes newAddr prev start fuel
    match r with
    | .ok () => some (s₁, existing)
    | .error starting => do
      let (search, s₂) ← s₁.find key false fuel
      let (s₃, search', existing') ← insertRetryTargetLoop s₂ key newAddr search existing fuel
      insertLinkLoop s₃ key newAddr search'.prev starting existing' fuel

/-- `SkipList::insert` (`src/internal/sync/mod.rs:39`): search; logically
remove any same-key target (replace semantics), remembering the last one
as `existing`; allocate the new node at a `gen_height` height (its `refs`
word, uninitialized in the source, is modelled as 0 following the spec's
lifecycle, see the `Node.new` comment); bump the length counter; publish
level by level; finally return `existing` as an entry. -/
def SkipList.insert [LinearOrder K] (s : SkipList K V) (key : K) (val : V)
    (fuel : Nat) : Option (SkipList K V × Option (K × V)) := do
  let (ip₀, s₁) ← s.find key false fuel
  let (s₂, ip, existing) ← insertReplaceLoop s₁ key ip₀ none fuel
  let prev := ip.prev
  let (h, s₃) := s₂.genHeight
  let newNode ← Node.new key val h 0
  let newAddr := s₃.nextAddr
  let s₄ : SkipList K V :=
    { s₃ with heap := fun a' => if a' = newAddr then some newNode else s₃.heap a'
              nextAddr := s₃.nextAddr + 1 }
  let s₅ := { s₄ with len := s₄.len + 1 }
  let (s₆, existing') ← insertLinkLoop s₅ key newAddr prev 0 existing fuel
  match existing' with
  | none => some (s₆, none)
  | some a => do
    let n ← s₆.heap a
    some (s₆, some (n.key, n.val))

/-- `SkipList::get` (`src/internal/sync/mod.rs:427`): `None` straight away
when `is_empty()`, otherwise search and wrap the target as an entry. -/
def SkipList.get [LinearOrder K] (s : SkipList K V) (key : K) (fuel : Nat) :
    Option (SkipList K V × Option (K × V)) := do
  if s.isEmpty then
    some (s, none)
  else
    let (r, s₁) ← s.find key false fuel
    match r.target with
    | some a => do
      let n ← s₁.heap a
      some (s₁, some (n.key, n.val))
    | none => some (s₁, none)

/-- The `while next.levels[0].load_tag() == 1` helping loop of `next_node`
(`src/internal/sync/mod.rs:457`) as called from `get_first` (so the
predecessor is the Head).  A failed helping CAS makes the source re-find
with the Head's key — an uninitialized read, left as a failure. -/
def nextFromHeadLoop (s : SkipList K V) (next : Option Addr) :
    Nat → Option (SkipList K V × Option Addr)
  | 0 => none
  | fuel + 1 =>
    match next with
    | none => some (s, none)
    | some a => do
      let n ← s.heap a
      if (n.level 0).loadTag = 1 then do
        let newNext := (n.level 0).loadPtr
        let cell := s.headLevel 0
        match cell.compareExchange (some a) newNext with
        | (_, .error _) => none
        | (c', .ok _) => do
          let s₁ ← s.setLocCell none 0 c'
          let (s₂, _) ← s₁.subRefNode a
          nextFromHeadLoop s₂ newNext fuel
      else some (s, some a)

/-- `SkipList::get_first` (`src/internal/sync/mod.rs:469`): `None` when
`is_empty()`, otherwise `next_node` from the Head.  If the Head's level-0
cell were tagged 1, `next_node` would re-find with the Head's
uninitialized key; no operation tags the Head, and the model leaves that
branch as a failure. -/
def SkipList.getFirst (s : SkipList K V) (fuel : Nat) :
    Option (SkipList K V × Option (K × V)) := do
  if s.isEmpty then
    some (s, none)
  else
    if (s.headLevel 0).loadTag = 1 then none
    else do
      let (s₁, ma) ← nextFromHeadLoop s (s.headLevel 0).loadPtr fuel
      match ma with
      | some a => do
        let n ← s₁.heap a
        some (s₁, some (n.key, n.val))
      | none => some (s₁, none)

/-! ## Lemmas about the packed state word -/

theorem REMOVED_MASK_eq : REMOVED_MASK = 2 ^ 31 := by
  simp [REMOVED_MASK, Nat.shiftLeft_eq]

theorem BUILD_MASK_eq : BUILD_MASK = 2 ^ 30 := by
  simp [BUILD_MASK, Nat.shiftLeft_eq]

theorem HEIGHT_eq : HEIGHT = 32 := by
  simp [HEIGHT, HEIGHT_BITS, Nat.shiftLeft_eq]

theorem harHeight_eq_mod (w : Nat) : harHeight w = w % 2 ^ 30 :=
  Nat.and_pow_two_sub_one_eq_mod w 30

theorem harHeight_lt (w : Nat) : harHeight w < 2 ^ 30 := by
  rw [harHeight_eq_mod]; exact Nat.mod_lt _ (by norm_num)

theorem harHeight_of_lt {w : Nat} (h : w < 2 ^ 30) : harHeight w = w := by
  rw [harHeight_eq_mod]; exact Nat.mod_eq_of_lt h

theorem testBit_REMOVED (i : Nat) : REMOVED_MASK.testBit i = decide (31 = i) := by
  rw [REMOVED_MASK_eq]; exact Nat.testBit_two_pow

theorem testBit_BUILD (i : Nat) : BUILD_MASK.testBit i = decide (30 = i) := by
  rw [BUILD_MASK_eq]; exact Nat.testBit_two_pow

theorem harRemoved_lor_mask (w : Nat) : harRemoved (w ||| REMOVED_MASK) = true := by
  rw [harRemoved, Nat.testBit_lor, testBit_REMOVED]
  simp

theorem harHeight_lor_mask (w : Nat) : harHeight (w ||| REMOVED_MASK) = harHeight w := by
  rw [harHeight_eq_mod, harHeight_eq_mod]
  apply Nat.eq_of_testBit_eq
  intro i
  rw [Nat.testBit_mod_two_pow, Nat.testBit_mod_two_pow, Nat.testBit_lor, testBit_REMOVED]
  by_cases hi : i < 30
  · have h31 : ¬(31 = i) := by omega
    simp [hi, h31]
  · simp [hi]

theorem lor_mask_eq_self_iff (w : Nat) : w ||| REMOVED_MASK = w ↔ harRemoved w = true := by
  constructor
  · intro h
    have h31 : (w ||| REMOVED_MASK).testBit 31 = w.testBit 31 := by rw [h]
    rw [Nat.testBit_lor, testBit_REMOVED] at h31
    simp at h31
    exact h31
  · intro h
    rw [harRemoved] at h
    apply Nat.eq_of_testBit_eq
    intro i
    rw [Nat.testBit_lor, testBit_REMOVED]
    by_cases hi : 31 = i
    · subst hi; simp [h]
    · simp [hi]

theorem harRemoved_of_lt {w : Nat} (h : w < 2 ^ 31) : harRemoved w = false := by
  simp [harRemoved, Nat.testBit_lt_two_pow h]

theorem harHeight_setHeight (w h : Nat) (hh : h < 2 ^ 30) :
    harHeight ((w &&& (REMOVED_MASK ||| BUILD_MASK)) ||| h) = h := by
  rw [harHeight_eq_mod]
  apply Nat.eq_of_testBit_eq
  intro i
  rw [Nat.testBit_mod_two_pow, Nat.testBit_lor, Nat.testBit_land, Nat.testBit_lor,
    testBit_REMOVED, testBit_BUILD]
  by_cases hi : i < 30
  · have h31 : ¬(31 = i) := by omega
    have h30 : ¬(30 = i) := by omega
    simp [hi, h31, h30]
  · have hb : h.testBit i = false :=
      Nat.testBit_lt_two_pow (lt_of_lt_of_le hh (Nat.pow_le_pow_right (by norm_num) (by omega)))
    simp [hi, hb]

theorem harRemoved_setHeight (w h : Nat) (hh : h < 2 ^ 30) :
    harRemoved ((w &&& (REMOVED_MASK ||| BUILD_MASK)) ||| h) = harRemoved w := by
  rw [harRemoved, harRemoved, Nat.testBit_lor, Nat.testBit_land, Nat.testBit_lor,
    testBit_REMOVED, testBit_BUILD]
  have hb : h.testBit 31 = false :=
    Nat.testBit_lt_two_pow (lt_of_lt_of_le hh (by norm_num))
  simp [hb]

/-! ## Lemmas about node operations -/

theorem Node.setLevel_har (n : Node K V) (i : Nat) (c : TPtr) :
    (n.setLevel i c).har = n.har := rfl

theorem Node.setLevel_height (n : Node K V) (i : Nat) (c : TPtr) :
    (n.setLevel i c).height = n.height := rfl

theorem Node.tagLevelsFrom_har (n : Node K V) (t : Nat) :
    ∀ l, (n.tagLevelsFrom t l).1.har = n.har := by
  intro l
  induction l generalizing n with
  | zero => rfl
  | succ l ih =>
    simp only [Node.tagLevelsFrom]
    rcases h : (n.level l).compareExchangeTag 0 t with ⟨c', r⟩
    cases r with
    | ok u => simpa using ih (n.setLevel l c')
    | error o => rfl

theorem Node.tagLevels_har (n : Node K V) (t : Nat) :
    (n.tagLevels t).1.har = n.har := by
  simp only [Node.tagLevels]
  exact n.tagLevelsFrom_har t n.height

theorem Node.setRemoved_har (n : Node K V) :
    n.setRemoved.1.har = n.har ∨ n.setRemoved.1.har = n.har ||| REMOVED_MASK := by
  simp only [Node.setRemoved, setHarWith]
  split
  · exact Or.inl rfl
  · exact Or.inr rfl

theorem Node.setRemoved_height (n : Node K V) : n.setRemoved.1.height = n.height := by
  rcases n.setRemoved_har with h | h <;> simp only [Node.height, h, harHeight_lor_mask]

theorem Node.tagLevels_height (n : Node K V) (t : Nat) :
    (n.tagLevels t).1.height = n.height := by
  simp only [Node.height, Node.tagLevels_har]

theorem Node.tryRemoveAndTag_height (n : Node K V) :
    n.tryRemoveAndTag.1.height = n.height := by
  rcases hsr : n.setRemoved with ⟨n₁, r⟩
  have h₁ : n₁.height = n.height := by
    have := congrArg (fun p => Node.height p.1) hsr
    simpa using (this.symm.trans n.setRemoved_height)
  cases r with
  | error u =>
    simp only [Node.tryRemoveAndTag, hsr]
    exact h₁
  | ok w =>
    rcases htl : n₁.tagLevels 1 with ⟨n₂, r₂⟩
    have h₂ : n₂.height = n₁.height := by
      have := congrArg (fun p => Node.height p.1) htl
      simpa using (this.symm.trans (n₁.tagLevels_height 1))
    cases r₂ with
    | ok u => simp only [Node.tryRemoveAndTag, hsr, htl]; exact h₂.trans h₁
    | error o => simp only [Node.tryRemoveAndTag, hsr, htl]; exact h₂.trans h₁

theorem Node.addRef_har (n : Node K V) : n.addRef.1.har = n.har := by
  rcases n with ⟨k, v, har, refs, levels⟩; rfl

theorem Node.subRef_har (n : Node K V) : n.subRef.1.har = n.har := by
  rcases n with ⟨k, v, har, refs, levels⟩; rfl

theorem Node.tryAddRef_har (n : Node K V) : n.tryAddRef.1.har = n.har := by
  rcases n with ⟨k, v, har, refs, levels⟩
  simp only [Node.tryAddRef]
  split <;> rfl

theorem Node.trySubRef_har (n : Node K V) : n.trySubRef.1.har = n.har := by
  rcases n with ⟨k, v, har, refs, levels⟩
  simp only [Node.trySubRef]
  split <;> rfl

/-- The node operations that the list protocol performs never change the
height bits of the packed word. -/
theorem Node.ops_preserve_height (n : Node K V) (t : Nat) :
    (n.setRemoved.1.height = n.height) ∧
    ((n.tagLevels t).1.height = n.height) ∧
    (n.addRef.1.height = n.height) ∧
    (n.subRef.1.height = n.height) ∧
    (n.tryAddRef.1.height = n.height) ∧
    (n.trySubRef.1.height = n.height) ∧
    (n.tryRemoveAndTag.1.height = n.height) := by
  refine ⟨n.setRemoved_height, n.tagLevels_height t, ?_, ?_, ?_, ?_, n.tryRemoveAndTag_height⟩
  · rw [Node.height, Node.height, Node.addRef_har]
  · rw [Node.height, Node.height, Node.subRef_har]
  · rw [Node.height, Node.height, Node.tryAddRef_har]
  · rw [Node.height, Node.height, Node.trySubRef_har]

theorem Node.setRemoved_of_not_removed {n : Node K V} (h : n.removed = false) :
    n.setRemoved = ({ n with har := n.har ||| REMOVED_MASK }, .ok n.har) := by
  have hcond : ¬(n.har ||| REMOVED_MASK = n.har) := by
    rw [lor_mask_eq_self_iff]
    simp only [Node.removed] at h
    simp [h]
  simp only [Node.setRemoved, setHarWith, if_neg hcond]

theorem Node.setRemoved_of_removed {n : Node K V} (h : n.removed = true) :
    n.setRemoved = (n, .error ()) := by
  have hcond : n.har ||| REMOVED_MASK = n.har := by
    rw [lor_mask_eq_self_iff]
    simpa only [Node.removed] using h
  simp only [Node.setRemoved, setHarWith, if_pos hcond]

/-- Sample nodes for the node-level witnesses: a freshly allocated-looking
node of height 3 and the same node with the removed bit set. -/
def nodeFresh : Node Nat Nat :=
  { key := 1, val := 2, har := 3, refs := 0,
    levels := [TPtr.null, TPtr.null, TPtr.null] }

/-- `nodeFresh` with the removed bit set. -/
def nodeDead : Node Nat Nat :=
  { key := 1, val := 2, har := 3 + 2 ^ 31, refs := 0,
    levels := [TPtr.null, TPtr.null, TPtr.null] }

/-- C5.  `set_removed()` succeeds at most once: on an unremoved node it
sets the removed bit and returns `Ok` (of the previous word), after which
any further call returns `Err`; on an already-removed node it returns
`Err` leaving the node unchanged; and none of the other node operations
ever clears the removed flag. -/
theorem set_removed_succeeds_at_most_once (n : Node K V) (t hgt : Nat) :
    (n.removed = false →
       n.setRemoved.2 = .ok n.har ∧
       n.setRemoved.1.removed = true ∧
       n.setRemoved.1.setRemoved = (n.setRemoved.1, .error ())) ∧
    (n.removed = true → n.setRemoved = (n, .error ())) ∧
    ((n.tagLevels t).1.removed = n.removed) ∧
    (n.addRef.1.removed = n.removed) ∧
    (n.subRef.1.removed = n.removed) ∧
    (n.tryAddRef.1.removed = n.removed) ∧
    (n.trySubRef.1.removed = n.removed) ∧
    (∀ n', n.setHeight hgt = some n' → n'.removed = n.removed) := by
  refine ⟨?_, fun h => n.setRemoved_of_removed h, ?_, ?_, ?_, ?_, ?_, ?_⟩
  · intro h
    rw [n.setRemoved_of_not_removed h]
    refine ⟨rfl, harRemoved_lor_mask n.har, ?_⟩
    apply Node.setRemoved_of_removed
    exact harRemoved_lor_mask n.har
  · simp only [Node.removed, Node.tagLevels_har]
  · simp only [Node.removed, Node.addRef_har]
  · simp only [Node.removed, Node.subRef_har]
  · simp only [Node.removed, Node.tryAddRef_har]
  · simp only [Node.removed, Node.trySubRef_har]
  · intro n' hset
    simp only [Node.setHeight] at hset
    rcases Nat.lt_or_ge n.height hgt with hlt | hge
    · simp [hlt] at hset
    · rw [if_neg (by omega)] at hset
      have hh : hgt < 2 ^ 30 := lt_of_le_of_lt hge (harHeight_lt n.har)
      rw [← Option.some_inj] at hset
      simp only [Option.some_inj] at hset
      subst hset
      simp only [Node.removed]
      exact harRemoved_setHeight n.har hgt hh

/-- Witness for C5: both hypothesis branches discharged on concrete
nodes. -/
theorem set_removed_succeeds_at_most_once_witness :
    (nodeFresh.setRemoved.2 = .ok nodeFresh.har ∧
     nodeFresh.setRemoved.1.removed = true ∧
     nodeFresh.setRemoved.1.setRemoved = (nodeFresh.setRemoved.1, .error ())) ∧
    nodeDead.setRemoved = (nodeDead, .error ()) :=
  ⟨(set_removed_succeeds_at_most_once nodeFresh 1 1).1 (by decide),
   (set_removed_succeeds_at_most_once nodeDead 1 1).2.1 (by decide)⟩

/-- The claim C4 as stated: a node's height never changes, `set_height`
included — `height()` returns the value stored at allocation after every
subsequent operation on the node. -/
def heightNeverChanges : Prop :=
  ∀ (n : Node Nat Nat) (h : Nat) (n' : Node Nat Nat),
    n.setHeight h = some n' → n'.height = n.height

/-- A node of height 5 for the C4 counterexample. -/
def nodeH5 : Node Nat Nat :=
  { key := 0, val := 0, har := 5, refs := 0,
    levels := [TPtr.null, TPtr.null, TPtr.null, TPtr.null, TPtr.null] }

/-- `nodeH5` after `set_height(3)`. -/
def nodeH5after : Node Nat Nat :=
  { key := 0, val := 0, har := 3, refs := 0,
    levels := [TPtr.null, TPtr.null, TPtr.null, TPtr.null, TPtr.null] }

/-- Counterexample to C4 as stated: `Node::set_height` (exercised by the
repository's own `test_set_height`) lowers the stored height from 5 to
3. -/
theorem height_never_changes_counterexample : ¬ heightNeverChanges := by
  intro hcl
  have h5 : nodeH5.setHeight 3 = some nodeH5after := by decide
  have := hcl nodeH5 3 nodeH5after h5
  revert this
  decide

/-- C4 (amended).  The height is immutable under every node operation the
list protocol performs (`set_removed`, `tag_levels`, the reference-count
updates, `try_remove_and_tag`); the one exception is `set_height` itself,
which stores the requested (not greater) height. -/
theorem height_immutable_except_set_height (n : Node K V) (t : Nat) :
    (n.setRemoved.1.height = n.height) ∧
    ((n.tagLevels t).1.height = n.height) ∧
    (n.addRef.1.height = n.height) ∧
    (n.subRef.1.height = n.height) ∧
    (n.tryAddRef.1.height = n.height) ∧
    (n.trySubRef.1.height = n.height) ∧
    (n.tryRemoveAndTag.1.height = n.height) ∧
    (∀ i c, (n.setLevel i c).height = n.height) ∧
    (∀ h n', n.setHeight h = some n' → n'.height = h ∧ h ≤ n.height) := by
  obtain ⟨h₁, h₂, h₃, h₄, h₅, h₆, h₇⟩ := n.ops_preserve_height t
  refine ⟨h₁, h₂, h₃, h₄, h₅, h₆, h₇, fun i c => rfl, ?_⟩
  intro h n' hset
  simp only [Node.setHeight] at hset
  rcases Nat.lt_or_ge n.height h with hlt | hge
  · simp [hlt] at hset
  · rw [if_neg (by omega)] at hset
    have hh : h < 2 ^ 30 := lt_of_le_of_lt hge (harHeight_lt n.har)
    simp only [Option.some_inj] at hset
    subst hset
    exact ⟨harHeight_setHeight n.har h hh, hge⟩

/-- Witness for the amended C4: the `set_height` clause at a concrete
node. -/
theorem height_immutable_except_set_height_witness :
    nodeH5.setHeight 3 = some nodeH5after ∧
    nodeH5after.height = 3 ∧ 3 ≤ nodeH5.height :=
  ⟨by decide,
   ((height_immutable_except_set_height nodeH5 0).2.2.2.2.2.2.2.2 3 nodeH5after
      (by decide)).1,
   ((height_immutable_except_set_height nodeH5 0).2.2.2.2.2.2.2.2 3 nodeH5after
      (by decide)).2⟩

/-- The freshly created node of the C7 check, with `1` as the allocator
garbage found at the never-initialized `refs` word. -/
def nodeC7 : Node Nat Nat :=
  { key := 7, val := 9, har := 2, refs := 1, levels := [TPtr.null, TPtr.null] }

/-- C7, at the failing input.  `Node::new` (over `Node::alloc`) writes the
packed word and zeroes the tower, so the removed flag is clear and both
tower pointers are null — but the `refs` word is never written, so the
reference count is the allocator garbage (here 1), not 0 as the claim
states. -/
theorem fresh_node_refs_uninitialized :
    Node.new (7 : Nat) (9 : Nat) 2 1 = some nodeC7 ∧
    nodeC7.removed = false ∧
    nodeC7.height = 2 ∧
    nodeC7.levels = [TPtr.null, TPtr.null] ∧
    nodeC7.refsCount = 1 := by
  refine ⟨?_, by decide, by decide, rfl, rfl⟩
  simp [Node.new, nodeC7, HEIGHT_eq, List.replicate]

theorem Node.setLevel_length (n : Node K V) (i : Nat) (c : TPtr) :
    (n.setLevel i c).levels.length = n.levels.length := by
  simp [Node.setLevel]

theorem Node.level_setLevel_self (n : Node K V) (i : Nat) (c : TPtr)
    (h : i < n.levels.length) : (n.setLevel i c).level i = c := by
  simp [Node.level, Node.setLevel, List.getD, List.getElem?_set_self', h]

theorem Node.level_setLevel_ne (n : Node K V) {i j : Nat} (c : TPtr)
    (h : i ≠ j) : (n.setLevel i c).level j = n.level j := by
  simp [Node.level, Node.setLevel, List.getD, List.getElem?_set_ne h]

/-- `tag_levels`' downward loop when every cell up to `m` carries tag 0:
all of them are CASed to the new tag and the loop succeeds. -/
theorem Node.tagLevelsFrom_ok (t : Nat) :
    ∀ (m : Nat) (n : Node K V), m ≤ n.levels.length →
    (∀ l, l < m → (n.level l).tag = 0) →
    (n.tagLevelsFrom t m).2 = .ok () ∧
    (∀ l, (n.tagLevelsFrom t m).1.level l =
      if l < m then ⟨(n.level l).ptr, t⟩ else n.level l) ∧
    (n.tagLevelsFrom t m).1.levels.length = n.levels.length := by
  intro m
  induction m with
  | zero => intro n _ _; exact ⟨rfl, fun l => by simp [Node.tagLevelsFrom], rfl⟩
  | succ m ih =>
    intro n hm h0
    have htag : (n.level m).tag = 0 := h0 m (Nat.lt_succ_self m)
    have hce : (n.level m).compareExchangeTag 0 t = (⟨(n.level m).ptr, t⟩, .ok ()) := by
      simp [TPtr.compareExchangeTag, htag]
    simp only [Node.tagLevelsFrom, hce]
    set n' := n.setLevel m ⟨(n.level m).ptr, t⟩ with hn'
    have hlen' : n'.levels.length = n.levels.length := n.setLevel_length m _
    have hm' : m ≤ n'.levels.length := by omega
    have h0' : ∀ l, l < m → (n'.level l).tag = 0 := by
      intro l hl
      rw [n.level_setLevel_ne _ (by omega)]
      exact h0 l (by omega)
    obtain ⟨hok, hlv, hln⟩ := ih n' hm' h0'
    refine ⟨hok, ?_, by omega⟩
    intro l
    rw [hlv l]
    by_cases hl : l < m
    · rw [if_pos hl, if_pos (by omega), n.level_setLevel_ne _ (by omega)]
    · by_cases hlm : l = m
      · subst hlm
        rw [if_neg (by omega), if_pos (by omega),
          n.level_setLevel_self _ _ (by omega)]
      · rw [if_neg hl, if_neg (by omega), n.level_setLevel_ne _ (by omega)]

/-- `tag_levels`' downward loop when the topmost nonzero tag below `m`
sits at level `j`: the cells above `j` get tagged, the loop stops at `j`
reporting the tag observed there, and the cells up to `j` are
untouched. -/
theorem Node.tagLevelsFrom_err (t : Nat) :
    ∀ (m : Nat) (n : Node K V) (j : Nat), m ≤ n.levels.length →
    j < m → (n.level j).tag ≠ 0 →
    (∀ l, j < l → l < m → (n.level l).tag = 0) →
    (n.tagLevelsFrom t m).2 = .error (n.level j).tag ∧
    (∀ l, (n.tagLevelsFrom t m).1.level l =
      if j < l ∧ l < m then ⟨(n.level l).ptr, t⟩ else n.level l) := by
  intro m
  induction m with
  | zero => omega
  | succ m ih =>
    intro n j hm hj hne htop
    by_cases hjm : j = m
    · subst hjm
      have hce : (n.level j).compareExchangeTag 0 t = (n.level j, .error (n.level j).tag) := by
        simp [TPtr.compareExchangeTag, hne]
      simp only [Node.tagLevelsFrom, hce]
      exact ⟨trivial, fun l => by rw [if_neg (by omega)]⟩
    · have hjm' : j < m := by omega
      have htagm : (n.level m).tag = 0 := htop m (by omega) (Nat.lt_succ_self m)
      have hce : (n.level m).compareExchangeTag 0 t = (⟨(n.level m).ptr, t⟩, .ok ()) := by
        simp [TPtr.compareExchangeTag, htagm]
      simp only [Node.tagLevelsFrom, hce]
      set n' := n.setLevel m ⟨(n.level m).ptr, t⟩ with hn'
      have hlen' : n'.levels.length = n.levels.length := n.setLevel_length m _
      have hlvj : n'.level j = n.level j := n.level_setLevel_ne _ (by omega)
      obtain ⟨herr, hlv⟩ := ih n' j (by omega) hjm' (by rw [hlvj]; exact hne)
        (fun l hl hlm => by
          rw [n.level_setLevel_ne _ (by omega)]
          exact htop l hl (by omega))
      refine ⟨by rw [herr, hlvj], ?_⟩
      intro l
      rw [hlv l]
      by_cases hc : j < l ∧ l < m
      · rw [if_pos hc, if_pos (by omega), n.level_setLevel_ne _ (by omega)]
      · by_cases hlm : l = m
        · subst hlm
          rw [if_neg hc, if_pos (by omega), n.level_setLevel_self _ _ (by omega)]
        · rw [if_neg hc, if_neg (by omega), n.level_setLevel_ne _ (by omega)]

/-- The claim C8 as stated: a failed `tag_levels(t)` reports WHICH LEVEL
rejected the change — the (unique) topmost level below the height whose
tag was not 0. -/
def tagLevelsReportsLevel : Prop :=
  ∀ (n : Node Nat Nat) (t e : Nat), (n.tagLevels t).2 = .error e →
    e < n.height ∧ (n.level e).tag ≠ 0 ∧
    ∀ j, e < j → j < n.height → (n.level j).tag = 0

/-- A height-2 node whose level-1 cell already carries tag 2. -/
def nodeC8 : Node Nat Nat :=
  { key := 0, val := 0, har := 2, refs := 0,
    levels := [TPtr.null, ⟨none, 2⟩] }

/-- Counterexample to C8 as stated: on `nodeC8`, `tag_levels(1)` fails at
level 1 but returns `Err(2)` — the tag observed there — and 2 is not a
level of the node at all (its height is 2). -/
theorem tag_levels_reports_level_counterexample : ¬ tagLevelsReportsLevel := by
  intro hcl
  have h := hcl nodeC8 1 2 rfl
  exact absurd h.1 (by decide)

/-- C8 (amended).  `tag_levels(t)` CASes each level's tag from 0 to `t`
from `height - 1` down to 0 and stops at the first level whose CAS fails,
returning `Err` of the tag OBSERVED at that level (not the level index)
while leaving the levels at and below it untouched; on success it returns
`height - 1`. -/
theorem tag_levels_spec (n : Node K V) (t : Nat) (hlen : n.height ≤ n.levels.length) :
    ((∀ l, l < n.height → (n.level l).tag = 0) →
       (n.tagLevels t).2 = .ok (n.height - 1) ∧
       (∀ l, l < n.height → (n.tagLevels t).1.level l = ⟨(n.level l).ptr, t⟩)) ∧
    (∀ j, j < n.height → (n.level j).tag ≠ 0 →
       (∀ l, j < l → l < n.height → (n.level l).tag = 0) →
       (n.tagLevels t).2 = .error (n.level j).tag ∧
       (∀ l, l ≤ j → (n.tagLevels t).1.level l = n.level l) ∧
       (∀ l, j < l → l < n.height → (n.tagLevels t).1.level l = ⟨(n.level l).ptr, t⟩)) := by
  constructor
  · intro h0
    obtain ⟨hok, hlv, _⟩ := Node.tagLevelsFrom_ok t n.height n hlen h0
    constructor
    · have hh : (n.tagLevelsFrom t n.height).1.height = n.height := by
        simp only [Node.height, Node.tagLevelsFrom_har]
      simp only [Node.tagLevels, hok, Except.map, hh]
    · intro l hl
      simp only [Node.tagLevels]
      rw [hlv l, if_pos hl]
  · intro j hj hne htop
    obtain ⟨herr, hlv⟩ := Node.tagLevelsFrom_err t n.height n j hlen hj hne htop
    refine ⟨?_, ?_, ?_⟩
    · simp only [Node.tagLevels, herr, Except.map]
    · intro l hl
      simp only [Node.tagLevels]
      rw [hlv l, if_neg (by omega)]
    · intro l hl hlh
      simp only [Node.tagLevels]
      rw [hlv l, if_pos ⟨hl, hlh⟩]

/-- Witness for the amended C8: the success case on an all-zero node and
the failure case on `nodeC8`, where the reported value is the observed
tag 2. -/
theorem tag_levels_spec_witness :
    ((nodeFresh.tagLevels 1).2 = .ok 2 ∧
     (nodeFresh.tagLevels 1).1.level 0 = ⟨none, 1⟩) ∧
    ((nodeC8.tagLevels 1).2 = .error 2 ∧
     (nodeC8.tagLevels 1).1.level 0 = nodeC8.level 0) := by
  have hf := (tag_levels_spec nodeFresh 1 (by decide)).1 (by decide)
  have hh : nodeFresh.height = 3 := by decide
  have hc8 := (tag_levels_spec nodeC8 1 (by decide)).2 1 (by decide) (by decide)
    (by intro l h1 h2
        have hh2 : nodeC8.height = 2 := by decide
        omega)
  refine ⟨⟨?_, ?_⟩, ?_, ?_⟩
  · rw [hf.1, hh]
  · have h0 := hf.2 0 (by omega)
    rw [h0]
    decide
  · rw [hc8.1]
    exact congrArg Except.error (by decide)
  · exact hc8.2.1 0 (by omega)

/-! ## The height generator (C6) -/

theorem getD_replicate_null (k i : Nat) :
    (List.replicate k TPtr.null).getD i TPtr.null = TPtr.null := by
  rw [List.getD, List.get?_eq_getElem?, List.getElem?_replicate]
  by_cases h : i < k <;> simp [h]

theorem headLevel_new (K V : Type) (seed i : Nat) :
    ((SkipList.new K V seed).headLevel i) = TPtr.null := by
  simp only [SkipList.new, SkipList.headLevel]
  exact getD_replicate_null HEIGHT i

theorem genHeightCap_le (L : List TPtr) : ∀ h, genHeightCap L h ≤ h := by
  intro h
  induction h with
  | zero => simp [genHeightCap]
  | succ h ih =>
    rw [genHeightCap]
    split
    · omega
    · omega

theorem genHeightCap_lower (L : List TPtr) : ∀ h, min 3 h ≤ genHeightCap L h := by
  intro h
  induction h with
  | zero => simp [genHeightCap]
  | succ h ih =>
    rw [genHeightCap]
    split
    · rcases Nat.lt_or_ge h 3 with h3 | h3
      · omega
      · have : min 3 h = 3 := by omega
        omega
    · omega

/-- The capping loop, characterised when the populated head levels are
exactly those below `m` (as they are in every well-formed state): the
proposal is cut to one above the highest populated level, but the loop's
`height >= 4` guard keeps the result at no less than 3. -/
theorem genHeightCap_spec (L : List TPtr) (m : Nat)
    (hpop : ∀ i, (L.getD i TPtr.null).ptr ≠ none ↔ i < m) :
    ∀ h, genHeightCap L h = if h < 4 then h else max 3 (min h (m + 1)) := by
  intro h
  induction h with
  | zero => simp [genHeightCap]
  | succ h ih =>
    rw [genHeightCap]
    by_cases h4 : 4 ≤ h + 1
    · have hcell : (L.getD (h + 1 - 2) TPtr.null).ptr = none ↔ ¬(h - 1 < m) := by
        have := hpop (h + 1 - 2)
        constructor
        · intro hn hlt
          exact (this.mpr (by omega)) hn
        · intro hnm
          by_contra hne
          exact hnm (by have := this.mp hne; omega)
      by_cases hnull : (L.getD (h + 1 - 2) TPtr.null).ptr = none
      · rw [if_pos ⟨h4, hnull⟩, ih]
        have hm : m ≤ h - 1 := by have := hcell.mp hnull; omega
        split <;> rename_i hh <;> rw [if_neg (by omega)] <;> omega
      · rw [if_neg (fun hc => hnull hc.2)]
        have hm : h - 1 < m := by
          by_contra hc
          exact hnull (hcell.mpr hc)
        rw [if_neg (by omega)]
        omega
    · rw [if_neg (by simp [h4]), if_pos (by omega)]

theorem SkipList.genHeight_maxHeight (s : SkipList K V) :
    (s.genHeight).2.maxHeight = max s.maxHeight (s.genHeight).1 := by
  simp only [SkipList.genHeight]
  split <;> rename_i h <;> simp at h ⊢ <;> omega

theorem SkipList.genHeight_heap (s : SkipList K V) :
    (s.genHeight).2.heap = s.heap := by
  simp only [SkipList.genHeight]
  split <;> rfl

theorem SkipList.genHeight_headLevels (s : SkipList K V) :
    (s.genHeight).2.headLevels = s.headLevels := by
  simp only [SkipList.genHeight]
  split <;> rfl

theorem SkipList.genHeight_len (s : SkipList K V) :
    (s.genHeight).2.len = s.len := by
  simp only [SkipList.genHeight]
  split <;> rfl

theorem SkipList.genHeight_nextAddr (s : SkipList K V) :
    (s.genHeight).2.nextAddr = s.nextAddr := by
  simp only [SkipList.genHeight]
  split <;> rfl

/-- C6 (amended).  Every call of the height generator yields
`1 ≤ h ≤ HEIGHT = 32`; the proposal is
`min(HEIGHT, trailing_zeros(xorshift(seed)) + 1)` and the cap lowers it to
one above the highest populated head level but — because the loop only
runs while the candidate is at least 4 — never below 3; `max_height` is
raised to `h` when `h` is greater, hence never decreases. -/
theorem gen_height_spec (s : SkipList K V) (m : Nat)
    (hpop : ∀ i, (s.headLevel i).loadPtr ≠ none ↔ i < m) :
    1 ≤ (s.genHeight).1 ∧ (s.genHeight).1 ≤ HEIGHT ∧
    (s.genHeight).2.maxHeight = max s.maxHeight (s.genHeight).1 ∧
    s.maxHeight ≤ (s.genHeight).2.maxHeight ∧
    (s.genHeight).1 =
      (if min HEIGHT (trailingZeros64 (xorshift64 s.seed) + 1) < 4 then
         min HEIGHT (trailingZeros64 (xorshift64 s.seed) + 1)
       else max 3 (min (min HEIGHT (trailingZeros64 (xorshift64 s.seed) + 1)) (m + 1))) := by
  have hH : HEIGHT = 32 := HEIGHT_eq
  set h₀ := min HEIGHT (trailingZeros64 (xorshift64 s.seed) + 1) with hh₀
  have h₀pos : 1 ≤ h₀ := by
    have : 1 ≤ HEIGHT := by omega
    omega
  have h₀le : h₀ ≤ HEIGHT := Nat.min_le_left _ _
  have hcap : (s.genHeight).1 = genHeightCap s.headLevels h₀ := rfl
  have hle := genHeightCap_le s.headLevels h₀
  have hlo := genHeightCap_lower s.headLevels h₀
  have hspec := genHeightCap_spec s.headLevels m hpop h₀
  refine ⟨by omega, by omega, ?_, ?_, by rw [hcap, hspec]⟩
  · rw [SkipList.genHeight_maxHeight]
  · rw [SkipList.genHeight_maxHeight]
    omega

/-- Witness for the amended C6, at a fresh list (no populated level,
`m = 0`) with seed 0. -/
theorem gen_height_spec_witness :
    1 ≤ ((SkipList.new Nat Nat 0).genHeight).1 ∧
    ((SkipList.new Nat Nat 0).genHeight).1 ≤ HEIGHT ∧
    ((SkipList.new Nat Nat 0).genHeight).2.maxHeight =
      max (SkipList.new Nat Nat 0).maxHeight ((SkipList.new Nat Nat 0).genHeight).1 := by
  have hpop : ∀ i, (((SkipList.new Nat Nat 0)).headLevel i).loadPtr ≠ none ↔ i < 0 := by
    intro i
    rw [headLevel_new]
    simp [TPtr.loadPtr, TPtr.null]
  have h := gen_height_spec (SkipList.new Nat Nat 0) 0 hpop
  exact ⟨h.1, h.2.1, h.2.2.1⟩

/-- The claim C6 as stated: the proposal is capped to one above the
highest populated level of the Head — on a head whose populated levels are
exactly those below `m`, the returned height is
`min(proposal, m + 1)` outright. -/
def genHeightCapsToOneAbove : Prop :=
  ∀ (s : SkipList Nat Nat) (m : Nat),
    (∀ i, (s.headLevel i).loadPtr ≠ none ↔ i < m) →
    (s.genHeight).1 = min (min HEIGHT (trailingZeros64 (xorshift64 s.seed) + 1)) (m + 1)

/-- A list whose head is populated exactly at level 0, with a seed whose
xorshift step has two trailing zero bits (proposal 3). -/
def sC6 : SkipList Nat Nat :=
  { headLevels := ⟨some 0, 0⟩ :: List.replicate 31 TPtr.null
    heap := fun _ => none
    len := 1
    maxHeight := 1
    seed := 4
    nextAddr := 1 }

/-- Counterexample to the C6 cap clause as stated: on `sC6` (highest
populated level 0, so "one above" is height 2) with proposal 3, the
`height >= 4` guard means the loop never runs and `gen_height` returns 3,
not `min(3, 2) = 2`. -/
theorem gen_height_caps_counterexample : ¬ genHeightCapsToOneAbove := by
  intro hcl
  have hpop : ∀ i, ((sC6.headLevel i).loadPtr ≠ none ↔ i < 1) := by
    intro i
    match i with
    | 0 => simp [sC6, SkipList.headLevel, TPtr.loadPtr]
    | j + 1 =>
      have : sC6.headLevel (j + 1) = TPtr.null := by
        simp only [sC6, SkipList.headLevel, List.getD_cons_succ]
        exact getD_replicate_null 31 j
      rw [this]
      simp [TPtr.loadPtr, TPtr.null]
  have h := hcl sC6 1 hpop
  rw [show (sC6.genHeight).1 = 3 from by decide] at h
  rw [show min (min HEIGHT (trailingZeros64 (xorshift64 sC6.seed) + 1)) (1 + 1) = 2 from by decide] at h
  omega

/-! ## The emptiness short-circuit (C10) -/

/-- C10.  Whenever the length counter reads 0, `get` (for every key) and
`get_first` return `None` immediately — the `is_empty()` check runs before
any search, so not even a node still reachable at level 0 is looked at,
and the state is untouched. -/
theorem get_short_circuits_on_empty [LinearOrder K] (s : SkipList K V) (k : K)
    (fuel : Nat) (hlen : s.len = 0) :
    s.get k fuel = some (s, none) ∧ s.getFirst fuel = some (s, none) := by
  constructor
  · simp [SkipList.get, SkipList.isEmpty, hlen]
  · simp [SkipList.getFirst, SkipList.isEmpty, hlen]

/-- A state whose counter is 0 while a node with key 4 is still linked at
level 0 of the head. -/
def sC10 : SkipList Nat Nat :=
  { headLevels := ⟨some 0, 0⟩ :: List.replicate 31 TPtr.null
    heap := fun a =>
      if a = 0 then
        some { key := 4, val := 44, har := 1, refs := 1, levels := [TPtr.null] }
      else none
    len := 0
    maxHeight := 1
    seed := 0
    nextAddr := 1 }

/-- Witness for C10: on `sC10` the key-4 node is reachable at level 0, yet
`get 4` and `get_first` both answer `None` because the counter reads 0. -/
theorem get_short_circuits_on_empty_witness :
    sC10.len = 0 ∧
    (sC10.headLevel 0).loadPtr = some 0 ∧
    (sC10.heap 0).isSome = true ∧
    sC10.get 4 9 = some (sC10, none) ∧
    sC10.getFirst 9 = some (sC10, none) :=
  ⟨rfl, rfl, rfl,
   (get_short_circuits_on_empty sC10 4 9 rfl).1,
   (get_short_circuits_on_empty sC10 4 9 rfl).2⟩

/-! ## Basic lemmas about heap and cell updates -/

theorem SkipList.setNode_heap_self (s : SkipList K V) (a : Addr) (n : Node K V) :
    (s.setNode a n).heap a = some n := by
  simp [SkipList.setNode]

theorem SkipList.setNode_heap_ne (s : SkipList K V) {a b : Addr} (n : Node K V)
    (h : b ≠ a) : (s.setNode a n).heap b = s.heap b := by
  simp [SkipList.setNode, h]

theorem SkipList.setNode_headLevels (s : SkipList K V) (a : Addr) (n : Node K V) :
    (s.setNode a n).headLevels = s.headLevels := rfl

theorem SkipList.setNode_maxHeight (s : SkipList K V) (a : Addr) (n : Node K V) :
    (s.setNode a n).maxHeight = s.maxHeight := rfl

theorem SkipList.setNode_len (s : SkipList K V) (a : Addr) (n : Node K V) :
    (s.setNode a n).len = s.len := rfl

theorem SkipList.subRefNode_maxHeight (s : SkipList K V) (a : Addr)
    {s' : SkipList K V} {r : Option Unit} (h : s.subRefNode a = some (s', r)) :
    s'.maxHeight = s.maxHeight := by
  simp only [SkipList.subRefNode, Option.bind_eq_bind, Option.bind_eq_some] at h
  obtain ⟨n, hn, hr⟩ := h
  rcases hts : n.trySubRef with ⟨n', rr⟩
  rw [hts] at hr
  cases rr with
  | error u => simp at hr
  | ok cnt =>
    simp only [SkipList.retireNode] at hr
    split at hr <;> simp only [Option.some_inj, Prod.mk.injEq] at hr <;>
      rw [← hr.1] <;> rfl

theorem SkipList.subRefNode_len (s : SkipList K V) (a : Addr)
    {s' : SkipList K V} {r : Option Unit} (h : s.subRefNode a = some (s', r)) :
    s'.len = s.len := by
  simp only [SkipList.subRefNode, Option.bind_eq_bind, Option.bind_eq_some] at h
  obtain ⟨n, hn, hr⟩ := h
  rcases hts : n.trySubRef with ⟨n', rr⟩
  rw [hts] at hr
  cases rr with
  | error u => simp at hr
  | ok cnt =>
    simp only [SkipList.retireNode] at hr
    split at hr <;> simp only [Option.some_inj, Prod.mk.injEq] at hr <;>
      rw [← hr.1] <;> rfl

theorem SkipList.setLocCell_maxHeight (s : SkipList K V) (loc : Loc) (i : Nat)
    (c : TPtr) {s' : SkipList K V} (h : s.setLocCell loc i c = some s') :
    s'.maxHeight = s.maxHeight := by
  cases loc with
  | none => simp only [SkipList.setLocCell, Option.some_inj] at h; rw [← h]
  | some a =>
    simp only [SkipList.setLocCell, Option.map_eq_some'] at h
    obtain ⟨n, _, hs⟩ := h
    rw [← hs]
    rfl

theorem SkipList.setLocCell_len (s : SkipList K V) (loc : Loc) (i : Nat)
    (c : TPtr) {s' : SkipList K V} (h : s.setLocCell loc i c = some s') :
    s'.len = s.len := by
  cases loc with
  | none => simp only [SkipList.setLocCell, Option.some_inj] at h; rw [← h]
  | some a =>
    simp only [SkipList.setLocCell, Option.map_eq_some'] at h
    obtain ⟨n, _, hs⟩ := h
    rw [← hs]
    rfl

/-- Writing the head cell `i` and reading it back. -/
theorem SkipList.setLocCell_locCell_head (s : SkipList K V) (i : Nat)
    (c : TPtr) {s' : SkipList K V}
    (hidx : i < s.headLevels.length)
    (h : s.setLocCell none i c = some s') :
    s'.locCell none i = some c := by
  simp only [SkipList.setLocCell, Option.some_inj] at h
  rw [← h]
  simp only [SkipList.locCell, SkipList.headLevel, Option.some_inj]
  rw [List.getD, List.get?_eq_getElem?, List.getElem?_set_self]
  · rfl
  · exact hidx

/-- Writing a node's cell `i` and reading it back. -/
theorem SkipList.setLocCell_locCell_node (s : SkipList K V) (a : Addr) (i : Nat)
    (c : TPtr) {s' : SkipList K V}
    (hidx : ∀ n, s.heap a = some n → i < n.levels.length)
    (h : s.setLocCell (some a) i c = some s') :
    s'.locCell (some a) i = some c := by
  simp only [SkipList.setLocCell, Option.map_eq_some'] at h
  obtain ⟨n, hn, hs⟩ := h
  rw [← hs]
  simp only [SkipList.locCell, SkipList.setNode_heap_self, Option.map_some',
    Option.some_inj]
  exact n.level_setLevel_self i c (hidx n hn)

theorem Node.trySubRef_levels (n : Node K V) : n.trySubRef.1.levels = n.levels := by
  simp only [Node.trySubRef]
  split <;> rfl

theorem getD_ne_null_lt {l : List TPtr} {i : Nat} (h : l.getD i TPtr.null ≠ TPtr.null) :
    i < l.length := by
  by_contra hge
  apply h
  rw [List.getD, List.get?_eq_getElem?, List.getElem?_eq_none (by omega)]
  rfl

/-- `subRefNode` only changes the reference count of one node: every tower
cell of the state reads the same afterwards. -/
theorem SkipList.subRefNode_locCell (s : SkipList K V) (a : Addr)
    {s' : SkipList K V} {r : Option Unit} (h : s.subRefNode a = some (s', r)) :
    ∀ loc lvl, s'.locCell loc lvl = s.locCell loc lvl := by
  intro loc lvl
  simp only [SkipList.subRefNode, Option.bind_eq_bind, Option.bind_eq_some] at h
  obtain ⟨n, hn, hr⟩ := h
  rcases hts : n.trySubRef with ⟨n', rr⟩
  rw [hts] at hr
  cases rr with
  | error u => simp at hr
  | ok cnt =>
    simp only [SkipList.retireNode] at hr
    have hlv : n'.levels = n.levels := by
      have := n.trySubRef_levels
      rw [hts] at this
      exact this
    have hs' : s' = s.setNode a n' := by
      split at hr <;> simp only [Option.some_inj, Prod.mk.injEq] at hr <;>
        exact hr.1.symm
    rw [hs']
    cases loc with
    | none => rfl
    | some b =>
      by_cases hb : b = a
      · subst hb
        simp only [SkipList.locCell, SkipList.setNode_heap_self, hn,
          Option.map_some', Option.some_inj]
        simp [Node.level, hlv]
      · simp only [SkipList.locCell, SkipList.setNode_heap_ne s n' hb]

theorem SkipList.subRefNode_headLevels (s : SkipList K V) (a : Addr)
    {s' : SkipList K V} {r : Option Unit} (h : s.subRefNode a = some (s', r)) :
    s'.headLevels = s.headLevels := by
  simp only [SkipList.subRefNode, Option.bind_eq_bind, Option.bind_eq_some] at h
  obtain ⟨n, hn, hr⟩ := h
  rcases hts : n.trySubRef with ⟨n', rr⟩
  rw [hts] at hr
  cases rr with
  | error u => simp at hr
  | ok cnt =>
    simp only [SkipList.retireNode] at hr
    split at hr <;> simp only [Option.some_inj, Prod.mk.injEq] at hr <;>
      rw [← hr.1] <;> rfl

/-- Through a successful helping loop, the walker's cell at the level keeps
pointing at the returned candidate, and the scalar state fields are
untouched. -/
theorem helpLoop_cell (curr : Loc) (lvl : Nat) :
    ∀ (fuel : Nat) (s : SkipList K V) (next next' : Option Addr) (s' : SkipList K V),
    (∃ c, s.locCell curr lvl = some c ∧ c.ptr = next) →
    helpLoop s curr lvl next fuel = .ok next' s' →
    (∃ c, s'.locCell curr lvl = some c ∧ c.ptr = next') ∧
    s'.maxHeight = s.maxHeight ∧ s'.len = s.len := by
  intro fuel
  induction fuel with
  | zero => intro s next next' s' _ h; simp [helpLoop] at h
  | succ fuel ih =>
    intro s next next' s' hpre h
    rcases next with _ | a
    · simp only [helpLoop, HelpRes.ok.injEq] at h
      obtain ⟨h1, h2⟩ := h
      subst h1; subst h2
      exact ⟨hpre, rfl, rfl⟩
    · rcases hheap : s.heap a with _ | n
      · simp only [helpLoop, hheap] at h
        exact HelpRes.noConfusion h
      · by_cases htag : (n.level lvl).loadTag = 0
        · simp only [helpLoop, hheap, if_pos htag, HelpRes.ok.injEq] at h
          obtain ⟨h1, h2⟩ := h
          subst h1; subst h2
          exact ⟨hpre, rfl, rfl⟩
        · rcases hcell : s.locCell curr lvl with _ | cell
          · simp only [helpLoop, hheap, if_neg htag, hcell] at h
            exact HelpRes.noConfusion h
          · by_cases hcas : cell.ptr = some a ∧ cell.tag = 0
            · rcases hset : s.setLocCell curr lvl ⟨(n.level lvl).loadPtr, 0⟩ with _ | s₁
              · simp only [helpLoop, hheap, if_neg htag, hcell,
                  TPtr.compareExchange, if_pos hcas, hset] at h
                exact HelpRes.noConfusion h
              · rcases hsub : s₁.subRefNode a with _ | s₂u
                · simp only [helpLoop, hheap, if_neg htag, hcell,
                    TPtr.compareExchange, if_pos hcas, hset, hsub] at h
                  exact HelpRes.noConfusion h
                · rcases s₂u with ⟨s₂, u⟩
                  simp only [helpLoop, hheap, if_neg htag, hcell,
                    TPtr.compareExchange, if_pos hcas, hset, hsub] at h
                  have hcellne : cell ≠ TPtr.null := by
                    intro hc
                    rw [hc] at hcas
                    exact Option.noConfusion hcas.1
                  have hc1 : s₁.locCell curr lvl = some ⟨(n.level lvl).loadPtr, 0⟩ := by
                    cases curr with
                    | none =>
                      refine s.setLocCell_locCell_head lvl _ ?_ hset
                      have hne : s.headLevel lvl ≠ TPtr.null := by
                        simp only [SkipList.locCell, Option.some_inj] at hcell
                        rw [hcell]; exact hcellne
                      exact getD_ne_null_lt hne
                    | some b =>
                      refine s.setLocCell_locCell_node b lvl _ ?_ hset
                      intro nb hnb
                      simp only [SkipList.locCell, hnb, Option.map_some',
                        Option.some_inj] at hcell
                      have hne : nb.level lvl ≠ TPtr.null := by rw [hcell]; exact hcellne
                      exact getD_ne_null_lt hne
                  have hc2 : s₂.locCell curr lvl = some ⟨(n.level lvl).loadPtr, 0⟩ := by
                    rw [s₁.subRefNode_locCell a hsub curr lvl]
                    exact hc1
                  obtain ⟨hp, hm, hl⟩ := ih s₂ ((n.level lvl).loadPtr) next' s'
                    ⟨_, hc2, rfl⟩ h
                  refine ⟨hp, ?_, ?_⟩
                  · rw [hm, s₁.subRefNode_maxHeight a hsub,
                      s.setLocCell_maxHeight curr lvl _ hset]
                  · rw [hl, s₁.subRefNode_len a hsub,
                      s.setLocCell_len curr lvl _ hset]
            · simp only [helpLoop, hheap, if_neg htag, hcell,
                TPtr.compareExchange, if_neg hcas] at h
              exact HelpRes.noConfusion h

theorem getD_set_self {α : Type} (l : List α) (i : Nat) (x d : α)
    (h : i < l.length) : (l.set i x).getD i d = x := by
  rw [List.getD, List.get?_eq_getElem?, List.getElem?_set_self]
  · rfl
  · exact h

theorem getD_set_ne {α : Type} (l : List α) {i j : Nat} (x d : α)
    (h : i ≠ j) : (l.set i x).getD j d = l.getD j d := by
  rw [List.getD, List.get?_eq_getElem?, List.getElem?_set_ne h,
    List.getD, List.get?_eq_getElem?]

/-- The state that a restarting helping loop hands back differs from the
entry state only in heaps and cells, never in `max_height`, `len` or the
`prev` array length bookkeeping. -/
theorem helpLoop_restart_inv (curr : Loc) (lvl : Nat) :
    ∀ (fuel : Nat) (s : SkipList K V) (next : Option Addr) (s' : SkipList K V),
    helpLoop s curr lvl next fuel = .restart s' →
    s'.maxHeight = s.maxHeight ∧ s'.len = s.len := by
  intro fuel
  induction fuel with
  | zero => intro s next s' h; simp [helpLoop] at h
  | succ fuel ih =>
    intro s next s' h
    rcases next with _ | a
    · simp only [helpLoop] at h
      exact HelpRes.noConfusion h
    · rcases hheap : s.heap a with _ | n
      · simp only [helpLoop, hheap] at h
        exact HelpRes.noConfusion h
      · by_cases htag : (n.level lvl).loadTag = 0
        · simp only [helpLoop, hheap, if_pos htag] at h
          exact HelpRes.noConfusion h
        · rcases hcell : s.locCell curr lvl with _ | cell
          · simp only [helpLoop, hheap, if_neg htag, hcell] at h
            exact HelpRes.noConfusion h
          · by_cases hcas : cell.ptr = some a ∧ cell.tag = 0
            · rcases hset : s.setLocCell curr lvl ⟨(n.level lvl).loadPtr, 0⟩ with _ | s₁
              · simp only [helpLoop, hheap, if_neg htag, hcell,
                  TPtr.compareExchange, if_pos hcas, hset] at h
                exact HelpRes.noConfusion h
              · rcases hsub : s₁.subRefNode a with _ | s₂u
                · simp only [helpLoop, hheap, if_neg htag, hcell,
                    TPtr.compareExchange, if_pos hcas, hset, hsub] at h
                  exact HelpRes.noConfusion h
                · rcases s₂u with ⟨s₂, u⟩
                  simp only [helpLoop, hheap, if_neg htag, hcell,
                    TPtr.compareExchange, if_pos hcas, hset, hsub] at h
                  obtain ⟨hm, hl⟩ := ih s₂ _ s' h
                  constructor
                  · rw [hm, s₁.subRefNode_maxHeight a hsub,
                      s.setLocCell_maxHeight curr lvl _ hset]
                  · rw [hl, s₁.subRefNode_len a hsub,
                      s.setLocCell_len curr lvl _ hset]
            · simp only [helpLoop, hheap, if_neg htag, hcell,
                TPtr.compareExchange, if_neg hcas, HelpRes.restart.injEq] at h
              subst h
              exact ⟨rfl, rfl⟩

/-- Scalar bookkeeping across the level walk: the `done` and `restart`
outcomes keep `max_height`, `len`, and the shape of the `prev` array, and
a restart can only arise while the walk is above level 0. -/
theorem walkLoop_inv (k : K) [LinearOrder K] :
    ∀ (fuel : Nat) (s : SkipList K V) (prev : List (Loc × Option Addr))
      (curr : Loc) (level : Nat) (prev' : List (Loc × Option Addr))
      (s' : SkipList K V),
    (walkLoop s k prev curr level fuel = .done prev' s' ∨
     walkLoop s k prev curr level fuel = .restart prev' s') →
    s'.maxHeight = s.maxHeight ∧ s'.len = s.len ∧ prev'.length = prev.length ∧
    (walkLoop s k prev curr level fuel = .restart prev' s' → 1 ≤ level) := by
  intro fuel
  induction fuel with
  | zero =>
    intro s prev curr level prev' s' h
    rcases h with h | h <;> simp [walkLoop] at h
  | succ fuel ih =>
    intro s prev curr level prev' s' h
    by_cases hlvl : level = 0
    · subst hlvl
      rcases h with h | h <;> simp only [walkLoop, if_pos rfl] at h
      · injection h with h1 h2
        subst h1; subst h2
        refine ⟨rfl, rfl, rfl, ?_⟩
        intro hres
        simp only [walkLoop, if_pos rfl] at hres
        exact WalkRes.noConfusion hres
      · exact WalkRes.noConfusion h
    · have hstep : 1 ≤ level := by omega
      refine ?_
      rcases hcell : s.locCell curr (level - 1) with _ | cell
      · rcases h with h | h <;> simp only [walkLoop, if_neg hlvl, hcell] at h <;>
          exact WalkRes.noConfusion h
      · rcases hhelp : helpLoop s curr (level - 1) cell.loadPtr fuel with ⟨next, s₁⟩ | s₁ | _
        · have hcl := helpLoop_cell curr (level - 1) fuel s cell.loadPtr next s₁
            ⟨cell, hcell, rfl⟩ hhelp
          rcases next with _ | a
          · have h' : walkLoop s₁ k (prev.set (level - 1) (curr, none)) curr
                (level - 1) fuel = .done prev' s' ∨
                walkLoop s₁ k (prev.set (level - 1) (curr, none)) curr
                (level - 1) fuel = .restart prev' s' := by
              rcases h with h | h <;> simp only [walkLoop, if_neg hlvl, hcell, hhelp] at h
              · exact Or.inl h
              · exact Or.inr h
            obtain ⟨hm, hl, hp, _⟩ := ih s₁ _ curr (level - 1) prev' s' h'
            refine ⟨by omega, by omega, by rw [hp, List.length_set], fun _ => hstep⟩
          · rcases hheap : s₁.heap a with _ | n
            · rcases h with h | h <;>
                simp only [walkLoop, if_neg hlvl, hcell, hhelp, hheap] at h <;>
                exact WalkRes.noConfusion h
            · by_cases hk : n.key < k
              · have h' : walkLoop s₁ k (prev.set (level - 1) (curr, some a)) (some a)
                    level fuel = .done prev' s' ∨
                    walkLoop s₁ k (prev.set (level - 1) (curr, some a)) (some a)
                    level fuel = .restart prev' s' := by
                  rcases h with h | h <;>
                    simp only [walkLoop, if_neg hlvl, hcell, hhelp, hheap, if_pos hk] at h
                  · exact Or.inl h
                  · exact Or.inr h
                obtain ⟨hm, hl, hp, _⟩ := ih s₁ _ (some a) level prev' s' h'
                refine ⟨by omega, by omega, by rw [hp, List.length_set], fun _ => hstep⟩
              · have h' : walkLoop s₁ k (prev.set (level - 1) (curr, some a)) curr
                    (level - 1) fuel = .done prev' s' ∨
                    walkLoop s₁ k (prev.set (level - 1) (curr, some a)) curr
                    (level - 1) fuel = .restart prev' s' := by
                  rcases h with h | h <;>
                    simp only [walkLoop, if_neg hlvl, hcell, hhelp, hheap, if_neg hk] at h
                  · exact Or.inl h
                  · exact Or.inr h
                obtain ⟨hm, hl, hp, _⟩ := ih s₁ _ curr (level - 1) prev' s' h'
                refine ⟨by omega, by omega, by rw [hp, List.length_set], fun _ => hstep⟩
        · obtain ⟨hm, hl⟩ := helpLoop_restart_inv curr (level - 1) fuel s cell.loadPtr s₁ hhelp
          rcases h with h | h <;>
            simp only [walkLoop, if_neg hlvl, hcell, hhelp] at h
          · exact WalkRes.noConfusion h
          · injection h with h1 h2
            subst h1; subst h2
            exact ⟨hm, hl, rfl, fun _ => hstep⟩
        · rcases h with h | h <;>
            simp only [walkLoop, if_neg hlvl, hcell, hhelp] at h <;>
            exact WalkRes.noConfusion h

/-- When the walk finishes a descent that began above level 0, the entry it
recorded at index 0 is current: the predecessor's level-0 cell still holds
the recorded successor. -/
theorem walkLoop_prev0 (k : K) [LinearOrder K] :
    ∀ (fuel : Nat) (s : SkipList K V) (prev : List (Loc × Option Addr))
      (curr : Loc) (level : Nat) (prev' : List (Loc × Option Addr))
      (s' : SkipList K V),
    1 ≤ level → 0 < prev.length →
    walkLoop s k prev curr level fuel = .done prev' s' →
    ∃ c, s'.locCell (prev'.getD 0 (none, none)).1 0 = some c ∧
         c.ptr = (prev'.getD 0 (none, none)).2 := by
  intro fuel
  induction fuel with
  | zero =>
    intro s prev curr level prev' s' _ _ h
    simp [walkLoop] at h
  | succ fuel ih =>
    intro s prev curr level prev' s' hlvl hplen h
    have hlvl' : ¬level = 0 := by omega
    rcases hcell : s.locCell curr (level - 1) with _ | cell
    · simp only [walkLoop, if_neg hlvl', hcell] at h
      exact WalkRes.noConfusion h
    · rcases hhelp : helpLoop s curr (level - 1) cell.loadPtr fuel with ⟨next, s₁⟩ | s₁ | _
      · have hcl := helpLoop_cell curr (level - 1) fuel s cell.loadPtr next s₁
          ⟨cell, hcell, rfl⟩ hhelp
        rcases next with _ | a
        · simp only [walkLoop, if_neg hlvl', hcell, hhelp] at h
          by_cases hlvl1 : level = 1
          · subst hlvl1
            simp only [Nat.sub_self] at h hcl
            rcases fuel with _ | fuel
            · simp [walkLoop] at h
            · simp only [walkLoop, if_pos rfl] at h
              injection h with h1 h2
              subst h1; subst h2
              rw [getD_set_self prev 0 (curr, none) (none, none) hplen]
              exact hcl.1
          · exact ih s₁ _ curr (level - 1) prev' s' (by omega)
              (by rw [List.length_set]; omega) h
        · rcases hheap : s₁.heap a with _ | n
          · simp only [walkLoop, if_neg hlvl', hcell, hhelp, hheap] at h
            exact WalkRes.noConfusion h
          · by_cases hk : n.key < k
            · simp only [walkLoop, if_neg hlvl', hcell, hhelp, hheap, if_pos hk] at h
              exact ih s₁ _ (some a) level prev' s' hlvl
                (by rw [List.length_set]; omega) h
            · simp only [walkLoop, if_neg hlvl', hcell, hhelp, hheap, if_neg hk] at h
              by_cases hlvl1 : level = 1
              · subst hlvl1
                simp only [Nat.sub_self] at h hcl
                rcases fuel with _ | fuel
                · simp [walkLoop] at h
                · simp only [walkLoop, if_pos rfl] at h
                  injection h with h1 h2
                  subst h1; subst h2
                  rw [getD_set_self prev 0 (curr, some a) (none, none) hplen]
                  exact hcl.1
              · exact ih s₁ _ curr (level - 1) prev' s' (by omega)
                  (by rw [List.length_set]; omega) h
      · simp only [walkLoop, if_neg hlvl', hcell, hhelp] at h
        exact WalkRes.noConfusion h
      · simp only [walkLoop, if_neg hlvl', hcell, hhelp] at h
        exact WalkRes.noConfusion h

theorem clampStart_pos (s : SkipList K V) {m : Nat} (hm : 1 ≤ m) :
    1 ≤ s.clampStart m := by
  induction m with
  | zero => omega
  | succ m ih =>
    rw [SkipList.clampStart]
    split
    · rename_i hcond
      exact ih (by omega)
    · omega

theorem clampStart_zero (s : SkipList K V) : s.clampStart 0 = 0 := rfl

/-- Through every round of the search loop (with `search_closest = false`),
the returned target is governed by the level-0 cell of the recorded
level-0 predecessor: present iff that successor exists, has exactly the
key, and is not logically removed. -/
theorem findLoop_target (k : K) [LinearOrder K] :
    ∀ (fuel : Nat) (s : SkipList K V) (prev : List (Loc × Option Addr))
      (r : SearchResult) (s' : SkipList K V),
    0 < prev.length →
    (s.clampStart s.maxHeight = 0 →
       ∃ c, s.locCell (prev.getD 0 (none, none)).1 0 = some c ∧
            c.ptr = (prev.getD 0 (none, none)).2) →
    findLoop s k false prev fuel = some (r, s') →
    ∀ a, r.target = some a ↔
      ((r.prev.getD 0 (none, none)).2 = some a ∧
       ∃ n, s'.heap a = some n ∧ n.key = k ∧ n.removed = false) := by
  intro fuel
  induction fuel with
  | zero =>
    intro s prev r s' _ _ h
    simp [findLoop] at h
  | succ fuel ih =>
    intro s prev r s' hplen hP0 h
    rcases hwalk : walkLoop s k prev none (s.clampStart s.maxHeight) fuel with
      ⟨prev₁, s₁⟩ | ⟨prev₁, s₁⟩ | _
    · -- done
      have hP : ∃ c, s₁.locCell (prev₁.getD 0 (none, none)).1 0 = some c ∧
          c.ptr = (prev₁.getD 0 (none, none)).2 := by
        rcases Nat.eq_zero_or_pos (s.clampStart s.maxHeight) with hl0 | hl1
        · rw [hl0] at hwalk
          rcases fuel with _ | fuel
          · simp [walkLoop] at hwalk
          · simp only [walkLoop, if_pos rfl] at hwalk
            injection hwalk with h1 h2
            subst h1; subst h2
            exact hP0 hl0
        · exact walkLoop_prev0 k fuel s prev none _ prev₁ s₁ hl1 hplen hwalk
      obtain ⟨c, hc, hcp⟩ := hP
      simp only [findLoop, hwalk, if_neg (Bool.false_ne_true), hc] at h
      rcases hcptr : c.loadPtr with _ | a₀
      · simp only [hcptr] at h
        simp only [Option.some_inj, Prod.mk.injEq] at h
        obtain ⟨hr, hs⟩ := h
        subst hs
        rw [← hr]
        intro a
        simp only [TPtr.loadPtr] at hcptr
        constructor
        · intro htgt
          exact Option.noConfusion htgt
        · rintro ⟨hp2, n, hn, hk, hrem⟩
          rw [← hcp, hcptr] at hp2
          exact Option.noConfusion hp2
      · simp only [hcptr] at h
        rcases hheap : s₁.heap a₀ with _ | n
        · simp only [hheap] at h
          exact Option.noConfusion h
        · simp only [hheap] at h
          by_cases hcond : n.key = k ∧ n.removed = false
          · rw [if_pos hcond] at h
            simp only [Option.some_inj, Prod.mk.injEq] at h
            obtain ⟨hr, hs⟩ := h
            subst hs
            rw [← hr]
            intro a
            simp only [TPtr.loadPtr] at hcptr
            constructor
            · intro htgt
              injection htgt with ha
              subst ha
              exact ⟨by rw [← hcp, hcptr], n, hheap, hcond.1, hcond.2⟩
            · rintro ⟨hp2, m, hm, hk, hrem⟩
              rw [← hcp, hcptr] at hp2
              injection hp2 with ha
              simp [ha]
          · rw [if_neg hcond] at h
            simp only [Option.some_inj, Prod.mk.injEq] at h
            obtain ⟨hr, hs⟩ := h
            subst hs
            rw [← hr]
            intro a
            simp only [TPtr.loadPtr] at hcptr
            constructor
            · intro htgt
              exact Option.noConfusion htgt
            · rintro ⟨hp2, m, hm, hk, hrem⟩
              rw [← hcp, hcptr] at hp2
              injection hp2 with ha
              subst ha
              rw [hheap] at hm
              injection hm with hm
              subst hm
              exact absurd ⟨hk, hrem⟩ hcond
    · -- restart
      simp only [findLoop, hwalk] at h
      have hinv := walkLoop_inv k fuel s prev none (s.clampStart s.maxHeight)
        prev₁ s₁ (Or.inr hwalk)
      have hlvl1 : 1 ≤ s.clampStart s.maxHeight := hinv.2.2.2 hwalk
      have hmax1 : 1 ≤ s.maxHeight := by
        by_contra hc
        have : s.maxHeight = 0 := by omega
        rw [this, clampStart_zero] at hlvl1
        omega
      have hmax₁ : 1 ≤ s₁.maxHeight := by rw [hinv.1]; exact hmax1
      refine ih s₁ prev₁ r s' (by rw [hinv.2.2.1]; exact hplen) ?_ h
      intro hc
      have := clampStart_pos s₁ hmax₁
      omega
    · simp only [findLoop, hwalk] at h
      exact Option.noConfusion h

theorem find_prev0_len (s : SkipList K V) :
    ((List.range HEIGHT).map fun i => ((none : Loc), (s.headLevel i).loadPtr)).length =
      HEIGHT := by
  rw [List.length_map, List.length_range]

theorem find_prev0_getD (s : SkipList K V) :
    ((List.range HEIGHT).map fun i => ((none : Loc), (s.headLevel i).loadPtr)).getD 0
      (none, none) = ((none : Loc), (s.headLevel 0).loadPtr) := by
  rw [List.getD, List.get?_eq_getElem?, List.getElem?_map]
  rw [List.getElem?_range (by rw [HEIGHT_eq]; omega)]
  rfl

/-- C3.  With `search_closest = false`, `find` reports a target exactly
when the successor recorded at level 0 (`prev[0].next`) exists, carries
exactly the key, and its removed flag is not set — so a node whose removed
flag has been set is never the target, and `remove` on such a key returns
`None`. -/
theorem find_target_iff [LinearOrder K] (s : SkipList K V) (k : K) (fuel : Nat)
    (r : SearchResult) (s' : SkipList K V)
    (hfind : s.find k false fuel = some (r, s')) :
    (∀ a, r.target = some a ↔
       ((r.prev.getD 0 (none, none)).2 = some a ∧
        ∃ n, s'.heap a = some n ∧ n.key = k ∧ n.removed = false)) ∧
    (r.target = none → s.remove k fuel = some (s', none)) := by
  constructor
  · rw [SkipList.find] at hfind
    refine findLoop_target k fuel s _ r s' ?_ ?_ hfind
    · rw [find_prev0_len, HEIGHT_eq]; omega
    · intro _
      rw [find_prev0_getD]
      exact ⟨s.headLevel 0, rfl, rfl⟩
  · intro htgt
    rw [SkipList.remove, hfind]
    simp only [Option.bind_eq_bind, Option.some_bind, htgt]

/-- The S4 scenario: keys 3, 4, 5 linked at level 0, with the removed bit
of the key-4 node flipped directly (its tags remain 0). -/
def sS4 : SkipList Nat Nat :=
  { headLevels := ⟨some 0, 0⟩ :: List.replicate 31 TPtr.null
    heap := fun a =>
      if a = 0 then some { key := 3, val := 0, har := 1, refs := 1, levels := [⟨some 1, 0⟩] }
      else if a = 1 then
        some { key := 4, val := 0, har := 1 + 2 ^ 31, refs := 1, levels := [⟨some 2, 0⟩] }
      else if a = 2 then
        some { key := 5, val := 0, har := 1, refs := 1, levels := [⟨none, 0⟩] }
      else none
    len := 3
    maxHeight := 1
    seed := 0
    nextAddr := 3 }

/-- Witness for C3, on the S4 scenario: the key-4 node is reachable but
marked removed, `find(4, false)` reports no target, and `remove(4)`
returns `None`. -/
theorem find_target_iff_witness :
    (sS4.heap 1).map Node.removed = some true ∧
    (sS4.find 4 false 40).map (fun p => p.1.target) = some none ∧
    (sS4.remove 4 40).map Prod.snd = some none := by
  have hts : (sS4.find 4 false 40).map (fun p => p.1.target) = some none := by decide
  refine ⟨by decide, hts, ?_⟩
  rcases hfind : sS4.find 4 false 40 with _ | rs
  · rw [hfind] at hts
    exact Option.noConfusion hts
  · rcases rs with ⟨r, s'⟩
    have htgt : r.target = none := by
      rw [hfind] at hts
      simpa using hts
    have h := (find_target_iff sS4 4 40 r s' hfind).2 htgt
    rw [h]
    rfl

/-! ## Well-formed quiescent states

A quiescent state is described by its *spine*: the level-0 chain of live
nodes, as address/node pairs sorted strictly by key.  The level-`i` chain
is then exactly the spine filtered to towers taller than `i`. -/

/-- The spine: the live nodes in level-0 chain order. -/
abbrev Spine (K V : Type) := List (Addr × Node K V)

/-- The level-`i` chain of a spine: the nodes whose tower covers level `i`. -/
def spineLevel (i : Nat) (sp : Spine K V) : Spine K V :=
  sp.filter (fun an => decide (i < an.2.height))

/-- `IsChain i p l`: following the level-`i` pointers starting from the
cell value `p` visits exactly the nodes of `l` and ends at null. -/
def IsChain (i : Nat) : Option Addr → Spine K V → Prop
  | p, [] => p = none
  | p, an :: rest => p = some an.1 ∧ IsChain i (an.2.level i).ptr rest

/-- The part of a chain strictly below the key. -/
def ltPart (k : K) [LinearOrder K] (l : Spine K V) : Spine K V :=
  l.takeWhile (fun an => decide (an.2.key < k))

/-- The part of a chain at or above the key. -/
def gePart (k : K) [LinearOrder K] (l : Spine K V) : Spine K V :=
  l.dropWhile (fun an => decide (an.2.key < k))

/-- The abstract `(predecessor, observed-next)` pair that a quiescent
search records at level `i`. -/
def prevPair (k : K) [LinearOrder K] (i : Nat) (sp : Spine K V) :
    Loc × Option Addr :=
  (((ltPart k (spineLevel i sp)).getLast?).map Prod.fst,
   ((gePart k (spineLevel i sp)).head?).map Prod.fst)

/-- The abstract target of a quiescent non-closest search. -/
def spineTarget (k : K) [LinearOrder K] (sp : Spine K V) : Option Addr :=
  match gePart k sp with
  | [] => none
  | an :: _ => if an.2.key = k then some an.1 else none

/-- Fuel that always suffices for one `find` on a state with this spine. -/
def findFuel (sp : Spine K V) : Nat := 33 * (sp.length + 2) + 2

/-- Well-formedness of a quiescent state `s` with spine `sp`. -/
structure WF [LinearOrder K] (s : SkipList K V) (sp : Spine K V) : Prop where
  head_len : s.headLevels.length = HEIGHT
  head_tag : ∀ i, (s.headLevel i).tag = 0
  chains : ∀ i, IsChain i (s.headLevel i).loadPtr (spineLevel i sp)
  node_at : ∀ an ∈ sp, s.heap an.1 = some an.2
  node_har : ∀ an ∈ sp, an.2.har = an.2.height
  node_hlb : ∀ an ∈ sp, 1 ≤ an.2.height
  node_hub : ∀ an ∈ sp, an.2.height ≤ HEIGHT
  node_len : ∀ an ∈ sp, an.2.levels.length = an.2.height
  node_refs : ∀ an ∈ sp, an.2.refs = an.2.height
  node_tags : ∀ an ∈ sp, ∀ i, (an.2.level i).tag = 0
  sorted : sp.Pairwise (fun x y => x.2.key < y.2.key)
  nodup : (sp.map Prod.fst).Nodup
  fresh : ∀ an ∈ sp, an.1 < s.nextAddr
  len_eq : s.len = sp.length
  maxH_lb : 1 ≤ s.maxHeight
  maxH_ub : s.maxHeight ≤ HEIGHT
  maxH_ge : ∀ an ∈ sp, an.2.height ≤ s.maxHeight

theorem spineLevel_subset {i : Nat} {sp : Spine K V} {x : Addr × Node K V}
    (h : x ∈ spineLevel i sp) : x ∈ sp :=
  List.mem_of_mem_filter h

theorem spineLevel_length_le (i : Nat) (sp : Spine K V) :
    (spineLevel i sp).length ≤ sp.length :=
  List.length_filter_le _ _

theorem spineLevel_zero {sp : Spine K V}
    (h1 : ∀ x ∈ sp, 1 ≤ x.2.height) : spineLevel 0 sp = sp := by
  unfold spineLevel
  rw [List.filter_eq_self]
  intro x hx
  simpa using h1 x hx

theorem spineLevel_sorted {sp : Spine K V} [LinearOrder K]
    (h : sp.Pairwise (fun x y => x.2.key < y.2.key)) (i : Nat) :
    (spineLevel i sp).Pairwise (fun x y => x.2.key < y.2.key) :=
  h.sublist (List.filter_sublist sp)

/-- The cell value with which a chain continues after an initial segment. -/
def chainPtr (i : Nat) (p : Option Addr) (xs : Spine K V) : Option Addr :=
  match xs.getLast? with
  | none => p
  | some x => (x.2.level i).ptr

theorem chainPtr_nil (i : Nat) (p : Option Addr) :
    chainPtr (K := K) (V := V) i p [] = p := rfl

theorem chainPtr_cons (i : Nat) (p : Option Addr) (x : Addr × Node K V)
    (xs : Spine K V) :
    chainPtr i p (x :: xs) = chainPtr i ((x.2.level i).ptr) xs := by
  unfold chainPtr
  cases xs with
  | nil => simp
  | cons z zs =>
    have hcc : (x :: z :: zs).getLast? = (z :: zs).getLast? := rfl
    rw [hcc]
    rcases hlast : (z :: zs).getLast? with _ | y
    · simp [List.getLast?_eq_none_iff] at hlast
    · rfl

theorem isChain_append {i : Nat} :
    ∀ {xs ys : Spine K V} {p : Option Addr}, IsChain i p (xs ++ ys) →
      IsChain i (chainPtr i p xs) ys := by
  intro xs
  induction xs with
  | nil => intro ys p h; simpa [chainPtr_nil] using h
  | cons x xs ih =>
    intro ys p h
    rw [chainPtr_cons]
    exact ih h.2

theorem takeWhile_split {α : Type} (P : α → Bool) :
    ∀ (pre suffix : List α), (∀ x ∈ pre, P x = true) →
    (∀ y, suffix.head? = some y → P y = false) →
    (pre ++ suffix).takeWhile P = pre ∧ (pre ++ suffix).dropWhile P = suffix := by
  intro pre
  induction pre with
  | nil =>
    intro suffix _ hsuf
    cases suffix with
    | nil => simp
    | cons y ys =>
      have hy : P y = false := hsuf y rfl
      simp [List.takeWhile_cons, List.dropWhile_cons, hy]
  | cons x xs ih =>
    intro suffix hpre hsuf
    have hx : P x = true := hpre x (by simp)
    obtain ⟨h1, h2⟩ := ih suffix (fun z hz => hpre z (by simp [hz])) hsuf
    constructor
    · simp [List.takeWhile_cons, hx, h1]
    · simp [List.dropWhile_cons, hx, h2]

/-- In a well-formed state, helping never triggers: every reachable cell
carries tag 0, so the helping loop returns its candidate unchanged. -/
theorem helpLoop_wf [LinearOrder K] {s : SkipList K V} {sp : Spine K V}
    (hwf : WF s sp) (curr : Loc) (lvl : Nat) (next : Option Addr)
    (hmem : next = none ∨ ∃ a n, next = some a ∧ (a, n) ∈ sp)
    (fuel : Nat) (hfuel : 1 ≤ fuel) :
    helpLoop s curr lvl next fuel = .ok next s := by
  rcases fuel with _ | fuel
  · omega
  · rcases hmem with hnone | ⟨a, n, hna, hmem⟩
    · subst hnone
      simp [helpLoop]
    · subst hna
      have hheap : s.heap a = some n := hwf.node_at (a, n) hmem
      have htag : (n.level lvl).tag = 0 := hwf.node_tags (a, n) hmem lvl
      simp only [helpLoop, hheap, TPtr.loadTag, if_pos htag]

/-- In a well-formed state, the walker's cell at a level: given that the
level chain splits as `pre ++ suffix` and the walker sits on the last
element of `pre` (or the Head), its cell at that level reads tag 0 and
points at the head of `suffix`. -/
theorem wf_cell [LinearOrder K] {s : SkipList K V} {sp : Spine K V}
    (hwf : WF s sp) (lvl : Nat) (pre suffix : Spine K V)
    (hsplit : spineLevel lvl sp = pre ++ suffix) :
    ∃ cell, s.locCell ((pre.getLast?).map Prod.fst) lvl = some cell ∧
      cell.tag = 0 ∧ cell.ptr = (suffix.head?).map Prod.fst := by
  have hchain : IsChain lvl (chainPtr lvl (s.headLevel lvl).loadPtr pre) suffix := by
    apply isChain_append
    rw [← hsplit]
    exact hwf.chains lvl
  rcases hlast : pre.getLast? with _ | x
  · have hprenil : pre = [] := by
      cases pre with
      | nil => rfl
      | cons z zs => simp [List.getLast?_eq_none_iff] at hlast
    subst hprenil
    refine ⟨s.headLevel lvl, rfl, hwf.head_tag lvl, ?_⟩
    rw [chainPtr_nil] at hchain
    cases suffix with
    | nil => simpa [TPtr.loadPtr] using hchain
    | cons y ys => simpa [TPtr.loadPtr] using hchain.1
  · have hx : x ∈ pre := List.mem_of_mem_getLast? hlast
    have hxsp : x ∈ sp := by
      apply spineLevel_subset (i := lvl)
      rw [hsplit]
      exact List.mem_append_left _ hx
    have hheap : s.heap x.1 = some x.2 := hwf.node_at x hxsp
    refine ⟨x.2.level lvl, ?_, hwf.node_tags x hxsp lvl, ?_⟩
    · simp [SkipList.locCell, hheap]
    · have hcp : chainPtr lvl (s.headLevel lvl).loadPtr pre = (x.2.level lvl).ptr := by
        unfold chainPtr
        rw [hlast]
      rw [hcp] at hchain
      cases suffix with
      | nil => simpa using hchain
      | cons y ys => simpa using hchain.1

/-- The abstract `(predecessor, next)` pair at a level, computed from any
split of the level chain at the key boundary. -/
theorem prevPair_split [LinearOrder K] {sp : Spine K V} (k : K) (i : Nat)
    {pre suffix : Spine K V}
    (hsplit : spineLevel i sp = pre ++ suffix)
    (hpre : ∀ x ∈ pre, x.2.key < k)
    (hsuf : ∀ y, suffix.head? = some y → ¬(y.2.key < k)) :
    prevPair k i sp = ((pre.getLast?).map Prod.fst, (suffix.head?).map Prod.fst) := by
  unfold prevPair ltPart gePart
  rw [hsplit]
  have hP1 : ∀ x ∈ pre, (fun (an : Addr × Node K V) => decide (an.2.key < k)) x = true :=
    fun x hx => by simp [hpre x hx]
  have hP2 : ∀ y, suffix.head? = some y →
      (fun (an : Addr × Node K V) => decide (an.2.key < k)) y = false :=
    fun y hy => by simp [hsuf y hy]
  have hts := takeWhile_split (fun (an : Addr × Node K V) => decide (an.2.key < k))
    pre suffix hP1 hP2
  rw [hts.1, hts.2]

/-- The quiescent walk: starting at `level` from the last of `pre` (or the
Head), with the level chain split as `pre ++ suffix` and everything in
`pre` below the key, the walk completes without mutating the state and
fills `prev` with the abstract predecessor pairs at every level. -/
theorem walk_wf [LinearOrder K] {s : SkipList K V} {sp : Spine K V} (k : K)
    (hwf : WF s sp) :
    ∀ (fuel level : Nat) (pre suffix : Spine K V)
      (prev : List (Loc × Option Addr)),
    1 ≤ level → level ≤ HEIGHT →
    spineLevel (level - 1) sp = pre ++ suffix →
    (∀ x ∈ pre, x.2.key < k) →
    prev.length = HEIGHT →
    (∀ j, level ≤ j → j < HEIGHT → prev.getD j (none, none) = prevPair k j sp) →
    suffix.length + 2 + (level - 1) * (sp.length + 2) ≤ fuel →
    ∃ prev', walkLoop s k prev ((pre.getLast?).map Prod.fst) level fuel = .done prev' s ∧
      prev'.length = HEIGHT ∧
      (∀ j, j < HEIGHT → prev'.getD j (none, none) = prevPair k j sp) := by
  intro fuel
  induction fuel with
  | zero =>
    intro level pre suffix prev _ _ _ _ _ _ hfuel
    omega
  | succ f ih =>
    intro level pre suffix prev hl1 hl32 hsplit hpre hplen hpspec hfuel
    have hlvl' : ¬ level = 0 := by omega
    obtain ⟨cell, hcell, hctag, hcptr⟩ := wf_cell hwf (level - 1) pre suffix hsplit
    rcases hsuffix : suffix with _ | ⟨x, rest⟩
    · -- the level is exhausted: descend with a null observed successor
      subst hsuffix
      have hnext : cell.loadPtr = none := by rw [TPtr.loadPtr, hcptr]; rfl
      have hhelp := helpLoop_wf hwf ((pre.getLast?).map Prod.fst) (level - 1)
        cell.loadPtr (Or.inl hnext) f (by omega)
      rw [hnext] at hhelp
      have hpp : prevPair k (level - 1) sp =
          ((pre.getLast?).map Prod.fst, none) := by
        have := prevPair_split k (level - 1) hsplit hpre
          (fun y hy => by simp at hy)
        simpa using this
      have hplen₂ : (prev.set (level - 1) ((pre.getLast?).map Prod.fst, none)).length
          = HEIGHT := by rw [List.length_set]; exact hplen
      have hpspec₂ : ∀ j, level - 1 ≤ j → j < HEIGHT →
          (prev.set (level - 1) ((pre.getLast?).map Prod.fst, none)).getD j
            (none, none) = prevPair k j sp := by
        intro j hj hj32
        by_cases hjl : j = level - 1
        · subst hjl
          rw [getD_set_self _ _ _ _ (by omega), hpp]
        · rw [getD_set_ne _ _ _ (by omega)]
          exact hpspec j (by omega) hj32
      by_cases hlv1 : level = 1
      · have hl10 : level - 1 = 0 := by omega
        refine ⟨_, ?_, hplen₂, fun j hj => hpspec₂ j (by omega) hj⟩
        rcases f with _ | f'
        · omega
        · simp only [walkLoop, if_neg hlvl', hcell, hnext, hhelp]
          rw [hl10]
          simp [walkLoop]
      · -- descend into a level at least 1
        rcases hlast : pre.getLast? with _ | x₀
        · have hfuel1 : (spineLevel (level - 1 - 1) sp).length + 2 +
              (level - 1 - 1) * (sp.length + 2) ≤ f := by
            have hlen2 : (spineLevel (level - 1 - 1) sp).length ≤ sp.length :=
              spineLevel_length_le _ _
            have hstep : level - 1 = (level - 1 - 1) + 1 := by omega
            have hmul : (level - 1) * (sp.length + 2) =
                (level - 1 - 1) * (sp.length + 2) + (sp.length + 2) := by
              conv_lhs => rw [hstep]
              rw [Nat.succ_mul]
            omega
          obtain ⟨prev', hwalk, hlen', hspec'⟩ := ih (level - 1) []
            (spineLevel (level - 1 - 1) sp)
            (prev.set (level - 1) ((pre.getLast?).map Prod.fst, none))
            (by omega) (by omega) (by simp)
            (by intro z hz; simp at hz)
            hplen₂ (fun j hj hj32 => hpspec₂ j (by omega) hj32) hfuel1
          refine ⟨prev', ?_, hlen', hspec'⟩
          rw [hlast] at hwalk
          rw [hlast] at hcell hhelp
          simp only [Option.map_none'] at hcell hhelp
          simp only [walkLoop, if_neg hlvl', hlast, Option.map_none', hcell,
            hnext, hhelp]
          simpa using hwalk
        · have hcurr : (pre.getLast?).map Prod.fst = some x₀.1 := by rw [hlast]; rfl
          have hx₀pre : x₀ ∈ pre := List.mem_of_mem_getLast? hlast
          have hx₀lvl : x₀ ∈ spineLevel (level - 1) sp := by
            rw [hsplit]
            exact List.mem_append_left _ hx₀pre
          have hx₀sp : x₀ ∈ sp := spineLevel_subset hx₀lvl
          have hx₀h : level - 1 < x₀.2.height := by
            have := (List.mem_filter.mp hx₀lvl).2
            simpa using this
          have hx₀lvl2 : x₀ ∈ spineLevel (level - 1 - 1) sp := by
            refine List.mem_filter.mpr ⟨hx₀sp, by simp; omega⟩
          obtain ⟨l₁, l₂, hsplit₂⟩ := List.mem_iff_append.mp hx₀lvl2
          have hsorted := spineLevel_sorted hwf.sorted (level - 1 - 1)
          rw [hsplit₂, List.pairwise_append] at hsorted
          have hpre1 : ∀ z ∈ l₁ ++ [x₀], z.2.key < k := by
            intro z hz
            rcases List.mem_append.mp hz with hz | hz
            · have hzx₀ : z.2.key < x₀.2.key := by
                have := hsorted.2.2 z hz x₀ (by simp)
                exact this
              exact lt_trans hzx₀ (hpre x₀ hx₀pre)
            · have hzx : z = x₀ := by simpa using hz
              rw [hzx]
              exact hpre x₀ hx₀pre
          have hfuel2 : l₂.length + 2 + (level - 1 - 1) * (sp.length + 2) ≤ f := by
            have hlen2 : l₁.length + 1 + l₂.length ≤ sp.length := by
              have h1 : (spineLevel (level - 1 - 1) sp).length ≤ sp.length :=
                spineLevel_length_le _ _
              rw [hsplit₂] at h1
              simp [List.length_append] at h1
              omega
            have hstep : level - 1 = (level - 1 - 1) + 1 := by omega
            have hmul : (level - 1) * (sp.length + 2) =
                (level - 1 - 1) * (sp.length + 2) + (sp.length + 2) := by
              conv_lhs => rw [hstep]
              rw [Nat.succ_mul]
            omega
          obtain ⟨prev', hwalk, hlen', hspec'⟩ := ih (level - 1) (l₁ ++ [x₀]) l₂
            (prev.set (level - 1) ((pre.getLast?).map Prod.fst, none))
            (by omega) (by omega)
            (by rw [hsplit₂]; simp)
            hpre1 hplen₂ (fun j hj hj32 => hpspec₂ j (by omega) hj32) hfuel2
          refine ⟨prev', ?_, hlen', hspec'⟩
          rw [List.getLast?_concat, hcurr] at hwalk
          rw [hcurr] at hcell hhelp
          simp only [walkLoop, if_neg hlvl', Option.map_some', hcell, hnext,
            hhelp]
          simpa using hwalk
    · -- a live successor at this level
      subst hsuffix
      have hnext : cell.loadPtr = some x.1 := by rw [TPtr.loadPtr, hcptr]; rfl
      have hxsp : x ∈ sp := by
        apply spineLevel_subset (i := level - 1)
        rw [hsplit]
        exact List.mem_append_right _ (List.mem_cons_self _ _)
      have hheap : s.heap x.1 = some x.2 := hwf.node_at x hxsp
      have hhelp := helpLoop_wf hwf ((pre.getLast?).map Prod.fst) (level - 1)
        cell.loadPtr (Or.inr ⟨x.1, x.2, hnext, hxsp⟩) f (by omega)
      rw [hnext] at hhelp
      by_cases hk : x.2.key < k
      · -- advance within the level
        obtain ⟨prev', hwalk, hlen', hspec'⟩ := ih level (pre ++ [x]) rest
          (prev.set (level - 1) ((pre.getLast?).map Prod.fst, some x.1))
          hl1 hl32 (by rw [hsplit]; simp)
          (by
            intro z hz
            rcases List.mem_append.mp hz with hz | hz
            · exact hpre z hz
            · have : z = x := by simpa using hz
              subst this
              exact hk)
          (by rw [List.length_set]; exact hplen)
          (by
            intro j hj hj32
            rw [getD_set_ne _ _ _ (by omega)]
            exact hpspec j hj hj32)
          (by simp at hfuel ⊢; omega)
        refine ⟨prev', ?_, hlen', hspec'⟩
        rw [List.getLast?_concat] at hwalk
        simp only [walkLoop, if_neg hlvl', hcell, hnext, hhelp, hheap, if_pos hk]
        simpa using hwalk
      · -- the successor is at or above the key: record and descend
        have hpp : prevPair k (level - 1) sp =
            ((pre.getLast?).map Prod.fst, some x.1) := by
          have := prevPair_split k (level - 1) hsplit hpre
            (fun y hy => by
              have hxy : x = y := by simpa using hy
              subst hxy
              exact hk)
          simpa using this
        have hplen₂ : (prev.set (level - 1) ((pre.getLast?).map Prod.fst,
            some x.1)).length = HEIGHT := by rw [List.length_set]; exact hplen
        have hpspec₂ : ∀ j, level - 1 ≤ j → j < HEIGHT →
            (prev.set (level - 1) ((pre.getLast?).map Prod.fst, some x.1)).getD j
              (none, none) = prevPair k j sp := by
          intro j hj hj32
          by_cases hjl : j = level - 1
          · subst hjl
            rw [getD_set_self _ _ _ _ (by omega), hpp]
          · rw [getD_set_ne _ _ _ (by omega)]
            exact hpspec j (by omega) hj32
        by_cases hlv1 : level = 1
        · have hl10 : level - 1 = 0 := by omega
          refine ⟨_, ?_, hplen₂, fun j hj => hpspec₂ j (by omega) hj⟩
          rcases f with _ | f'
          · omega
          · simp only [walkLoop, if_neg hlvl', hcell, hnext, hhelp, hheap,
              if_neg hk]
            rw [hl10]
            simp [walkLoop]
        · rcases hlast : pre.getLast? with _ | x₀
          · have hfuel3 : (spineLevel (level - 1 - 1) sp).length + 2 +
                (level - 1 - 1) * (sp.length + 2) ≤ f := by
              have hlen2 : (spineLevel (level - 1 - 1) sp).length ≤ sp.length :=
                spineLevel_length_le _ _
              have hstep : level - 1 = (level - 1 - 1) + 1 := by omega
              have hmul : (level - 1) * (sp.length + 2) =
                  (level - 1 - 1) * (sp.length + 2) + (sp.length + 2) := by
                conv_lhs => rw [hstep]
                rw [Nat.succ_mul]
              simp at hfuel
              omega
            obtain ⟨prev', hwalk, hlen', hspec'⟩ := ih (level - 1) []
              (spineLevel (level - 1 - 1) sp)
              (prev.set (level - 1) ((pre.getLast?).map Prod.fst, some x.1))
              (by omega) (by omega) (by simp)
              (by intro z hz; simp at hz)
              hplen₂ (fun j hj hj32 => hpspec₂ j (by omega) hj32) hfuel3
            refine ⟨prev', ?_, hlen', hspec'⟩
            rw [hlast] at hwalk
            rw [hlast] at hcell hhelp
            simp only [Option.map_none'] at hcell hhelp
            simp only [walkLoop, if_neg hlvl', hlast, Option.map_none', hcell,
              hnext, hhelp, hheap, if_neg hk]
            simpa using hwalk
          · have hcurr : (pre.getLast?).map Prod.fst = some x₀.1 := by rw [hlast]; rfl
            have hx₀pre : x₀ ∈ pre := List.mem_of_mem_getLast? hlast
            have hx₀lvl : x₀ ∈ spineLevel (level - 1) sp := by
              rw [hsplit]
              exact List.mem_append_left _ hx₀pre
            have hx₀sp : x₀ ∈ sp := spineLevel_subset hx₀lvl
            have hx₀h : level - 1 < x₀.2.height := by
              have := (List.mem_filter.mp hx₀lvl).2
              simpa using this
            have hx₀lvl2 : x₀ ∈ spineLevel (level - 1 - 1) sp := by
              refine List.mem_filter.mpr ⟨hx₀sp, by simp; omega⟩
            obtain ⟨l₁, l₂, hsplit₂⟩ := List.mem_iff_append.mp hx₀lvl2
            have hsorted := spineLevel_sorted hwf.sorted (level - 1 - 1)
            rw [hsplit₂, List.pairwise_append] at hsorted
            have hpre2 : ∀ z ∈ l₁ ++ [x₀], z.2.key < k := by
              intro z hz
              rcases List.mem_append.mp hz with hz | hz
              · have hzx₀ : z.2.key < x₀.2.key := by
                  have := hsorted.2.2 z hz x₀ (by simp)
                  exact this
                exact lt_trans hzx₀ (hpre x₀ hx₀pre)
              · have hzx : z = x₀ := by simpa using hz
                rw [hzx]
                exact hpre x₀ hx₀pre
            have hfuel4 : l₂.length + 2 + (level - 1 - 1) * (sp.length + 2) ≤ f := by
              have hlen2 : l₁.length + 1 + l₂.length ≤ sp.length := by
                have h1 : (spineLevel (level - 1 - 1) sp).length ≤ sp.length :=
                  spineLevel_length_le _ _
                rw [hsplit₂] at h1
                simp [List.length_append] at h1
                omega
              have hstep : level - 1 = (level - 1 - 1) + 1 := by omega
              have hmul : (level - 1) * (sp.length + 2) =
                  (level - 1 - 1) * (sp.length + 2) + (sp.length + 2) := by
                conv_lhs => rw [hstep]
                rw [Nat.succ_mul]
              simp at hfuel
              omega
            obtain ⟨prev', hwalk, hlen', hspec'⟩ := ih (level - 1) (l₁ ++ [x₀]) l₂
              (prev.set (level - 1) ((pre.getLast?).map Prod.fst, some x.1))
              (by omega) (by omega)
              (by rw [hsplit₂]; simp)
              hpre2 hplen₂ (fun j hj hj32 => hpspec₂ j (by omega) hj32) hfuel4
            refine ⟨prev', ?_, hlen', hspec'⟩
            rw [List.getLast?_concat, hcurr] at hwalk
            rw [hcurr] at hcell hhelp
            simp only [walkLoop, if_neg hlvl', Option.map_some', hcell, hnext,
              hhelp, hheap, if_neg hk]
            simpa using hwalk

theorem clampStart_le (s : SkipList K V) (m : Nat) : s.clampStart m ≤ m := by
  induction m with
  | zero => rw [clampStart_zero]
  | succ l ih =>
    rw [SkipList.clampStart]
    split
    · omega
    · omega

theorem clampStart_null (s : SkipList K V) (m : Nat) :
    ∀ j, s.clampStart m ≤ j → j < m → (s.headLevel j).loadPtr = none := by
  induction m with
  | zero => intro j _ h; omega
  | succ l ih =>
    intro j hj1 hj2
    rw [SkipList.clampStart] at hj1
    by_cases hc : 1 < l + 1 ∧ (s.headLevel (l + 1 - 1)).loadPtr = none
    · rw [if_pos hc] at hj1
      by_cases hjl : j = l
      · subst hjl
        simpa using hc.2
      · exact ih j hj1 (by omega)
    · rw [if_neg hc] at hj1
      omega

theorem spineLevel_nil_of_null [LinearOrder K] {s : SkipList K V}
    {sp : Spine K V} (hwf : WF s sp) {j : Nat}
    (h : (s.headLevel j).loadPtr = none) : spineLevel j sp = [] := by
  have hc := hwf.chains j
  rw [h] at hc
  cases hsl : spineLevel j sp with
  | nil => rfl
  | cons x xs =>
    rw [hsl] at hc
    simp [IsChain] at hc

theorem spineLevel_nil_of_maxHeight [LinearOrder K] {s : SkipList K V}
    {sp : Spine K V} (hwf : WF s sp) {j : Nat} (h : s.maxHeight ≤ j) :
    spineLevel j sp = [] := by
  unfold spineLevel
  rw [List.filter_eq_nil_iff]
  intro x hx
  have := hwf.maxH_ge x hx
  simp
  omega

theorem headLevel_null_of_maxHeight [LinearOrder K] {s : SkipList K V}
    {sp : Spine K V} (hwf : WF s sp) {j : Nat} (h : s.maxHeight ≤ j) :
    (s.headLevel j).loadPtr = none := by
  have hc := hwf.chains j
  rw [spineLevel_nil_of_maxHeight hwf h] at hc
  exact hc

theorem prevPair_of_nil [LinearOrder K] {sp : Spine K V} {j : Nat} (k : K)
    (h : spineLevel j sp = []) : prevPair k j sp = (none, none) := by
  unfold prevPair ltPart gePart
  rw [h]
  rfl

/-- In a well-formed quiescent state no linked node has its removed bit
set: the packed word is exactly the height, which stays below bit 31. -/
theorem wf_removed [LinearOrder K] {s : SkipList K V} {sp : Spine K V}
    (hwf : WF s sp) {z : Addr × Node K V} (h : z ∈ sp) :
    z.2.removed = false := by
  show harRemoved z.2.har = false
  rw [hwf.node_har z h]
  exact harRemoved_of_lt
    (lt_of_le_of_lt (hwf.node_hub z h) (by rw [HEIGHT_eq]; norm_num))

theorem find_prev0_getD_j (s : SkipList K V) {j : Nat} (hj : j < HEIGHT) :
    ((List.range HEIGHT).map fun i => ((none : Loc), (s.headLevel i).loadPtr)).getD j
      (none, none) = ((none : Loc), (s.headLevel j).loadPtr) := by
  rw [List.getD, List.get?_eq_getElem?, List.getElem?_map, List.getElem?_range hj]
  rfl

/-- `find(key, false)` on a well-formed quiescent state: it terminates
within `findFuel`, leaves the state untouched, returns the abstract target
and fills `prev` with the abstract predecessor pair of every level. -/
theorem find_spec [LinearOrder K] {s : SkipList K V} {sp : Spine K V} (k : K)
    (hwf : WF s sp) {fuel : Nat} (hfuel : findFuel sp ≤ fuel) :
    ∃ prev', s.find k false fuel = some (⟨prev', spineTarget k sp⟩, s) ∧
      prev'.length = HEIGHT ∧
      ∀ j, j < HEIGHT → prev'.getD j (none, none) = prevPair k j sp := by
  obtain ⟨f, rfl⟩ : ∃ f, fuel = f + 1 :=
    ⟨fuel - 1, by unfold findFuel at hfuel; omega⟩
  have hXl : (spineLevel (s.clampStart s.maxHeight - 1) sp).length ≤ sp.length :=
    spineLevel_length_le _ _
  have hc1 : 1 ≤ s.clampStart s.maxHeight := clampStart_pos s hwf.maxH_lb
  have hcH : s.clampStart s.maxHeight ≤ HEIGHT :=
    le_trans (clampStart_le s _) hwf.maxH_ub
  have hmul : (s.clampStart s.maxHeight - 1) * (sp.length + 2) ≤
      31 * (sp.length + 2) :=
    Nat.mul_le_mul_right _ (by rw [HEIGHT_eq] at hcH; omega)
  have hfuelW : (spineLevel (s.clampStart s.maxHeight - 1) sp).length + 2 +
      (s.clampStart s.maxHeight - 1) * (sp.length + 2) ≤ f := by
    unfold findFuel at hfuel
    omega
  obtain ⟨prev₁, hwalk, hlen₁, hspec₁⟩ :=
    walk_wf k hwf f (s.clampStart s.maxHeight) []
      (spineLevel (s.clampStart s.maxHeight - 1) sp)
      ((List.range HEIGHT).map fun i => ((none : Loc), (s.headLevel i).loadPtr))
      hc1 hcH (by simp) (by intro z hz; simp at hz) (find_prev0_len s)
      (by
        intro j hj hj32
        rw [find_prev0_getD_j s hj32]
        have hnull : (s.headLevel j).loadPtr = none := by
          by_cases hjm : j < s.maxHeight
          · exact clampStart_null s s.maxHeight j hj hjm
          · exact headLevel_null_of_maxHeight hwf (by omega)
        rw [prevPair_of_nil k (spineLevel_nil_of_null hwf hnull), hnull])
      hfuelW
  simp only [List.getLast?_nil, Option.map_none'] at hwalk
  have hp0 : prev₁.getD 0 (none, none) = prevPair k 0 sp :=
    hspec₁ 0 (by rw [HEIGHT_eq]; omega)
  have sp0 : spineLevel 0 sp = sp := spineLevel_zero hwf.node_hlb
  have hsplit0 : spineLevel 0 sp = ltPart k sp ++ gePart k sp := by
    rw [sp0]
    unfold ltPart gePart
    exact (List.takeWhile_append_dropWhile _ _).symm
  obtain ⟨cell, hcell, hctag, hcptr⟩ :=
    wf_cell hwf 0 (ltPart k sp) (gePart k sp) hsplit0
  have hp0fst : (prevPair k 0 sp).1 = ((ltPart k sp).getLast?).map Prod.fst := by
    unfold prevPair
    rw [sp0]
  refine ⟨prev₁, ?_, hlen₁, hspec₁⟩
  unfold SkipList.find
  simp only [findLoop, hwalk]
  rw [if_neg Bool.false_ne_true, hp0, hp0fst]
  simp only [hcell, TPtr.loadPtr]
  rw [hcptr]
  unfold spineTarget
  rcases hge : gePart k sp with _ | ⟨y, ys⟩
  · simp
  · have hsub : List.Sublist (gePart k sp) sp := by
      have := List.dropWhile_sublist (l := sp)
        (p := fun an => decide (an.2.key < k))
      unfold gePart
      exact this
    have hysp : y ∈ sp := hsub.subset (by rw [hge]; exact List.mem_cons_self y ys)
    have hheap : s.heap y.1 = some y.2 := hwf.node_at y hysp
    simp only [List.head?_cons, Option.map_some', hheap, wf_removed hwf hysp]
    by_cases hyk : y.2.key = k
    · rw [if_pos ⟨hyk, trivial⟩, if_pos hyk]
    · rw [if_neg (fun hco => hyk hco.1), if_neg hyk]

/-! ## Sorted-chain structure lemmas -/

/-- On a strictly sorted chain the below-key prefix is the below-key
filter. -/
theorem sorted_takeWhile_eq_filter [LinearOrder K] (k : K) :
    ∀ l : Spine K V, l.Pairwise (fun x y => x.2.key < y.2.key) →
    l.takeWhile (fun an => decide (an.2.key < k)) =
      l.filter (fun an => decide (an.2.key < k))
  | [], _ => rfl
  | x :: xs, hs => by
    rw [List.pairwise_cons] at hs
    by_cases hx : x.2.key < k
    · rw [List.takeWhile_cons_of_pos (by simpa using hx),
        List.filter_cons_of_pos (by simpa using hx)]
      rw [sorted_takeWhile_eq_filter k xs hs.2]
    · rw [List.takeWhile_cons_of_neg (by simpa using hx),
        List.filter_cons_of_neg (by simpa using hx)]
      rw [List.filter_eq_nil_iff.mpr]
      intro y hy
      have := hs.1 y hy
      simp
      exact le_trans (not_lt.mp hx) this.le

/-- On a strictly sorted chain, dropping the below-key prefix is the
at-or-above-key filter. -/
theorem sorted_dropWhile_eq_filter [LinearOrder K] (k : K) :
    ∀ l : Spine K V, l.Pairwise (fun x y => x.2.key < y.2.key) →
    l.dropWhile (fun an => decide (an.2.key < k)) =
      l.filter (fun an => !decide (an.2.key < k))
  | [], _ => rfl
  | x :: xs, hs => by
    rw [List.pairwise_cons] at hs
    by_cases hx : x.2.key < k
    · rw [List.dropWhile_cons_of_pos (by simpa using hx),
        List.filter_cons_of_neg (by simpa using hx)]
      rw [sorted_dropWhile_eq_filter k xs hs.2]
    · rw [List.dropWhile_cons_of_neg (by simpa using hx),
        List.filter_cons_of_pos (by simpa using hx)]
      congr 1
      rw [eq_comm, List.filter_eq_self]
      intro y hy
      have := hs.1 y hy
      simp
      exact le_trans (not_lt.mp hx) this.le

theorem spineLevel_append (i : Nat) (xs ys : Spine K V) :
    spineLevel i (xs ++ ys) = spineLevel i xs ++ spineLevel i ys := by
  unfold spineLevel
  exact List.filter_append _ _

/-- Height-filters commute with the key split on a sorted spine. -/
theorem spineLevel_ltPart [LinearOrder K] (k : K) (i : Nat) {sp : Spine K V}
    (hs : sp.Pairwise (fun x y => x.2.key < y.2.key)) :
    spineLevel i (ltPart k sp) = ltPart k (spineLevel i sp) := by
  unfold spineLevel ltPart
  rw [sorted_takeWhile_eq_filter k sp hs,
    sorted_takeWhile_eq_filter k (sp.filter _)
      (hs.sublist (List.filter_sublist sp)),
    List.filter_filter, List.filter_filter]
  apply List.filter_congr
  intro x _
  exact Bool.and_comm _ _

theorem spineLevel_gePart [LinearOrder K] (k : K) (i : Nat) {sp : Spine K V}
    (hs : sp.Pairwise (fun x y => x.2.key < y.2.key)) :
    spineLevel i (gePart k sp) = gePart k (spineLevel i sp) := by
  unfold spineLevel gePart
  rw [sorted_dropWhile_eq_filter k sp hs,
    sorted_dropWhile_eq_filter k (sp.filter _)
      (hs.sublist (List.filter_sublist sp)),
    List.filter_filter, List.filter_filter]
  apply List.filter_congr
  intro x _
  exact Bool.and_comm _ _

/-! ## Node signatures: address, key, value and height -/

/-- The stable signature of a linked node: its address, key, value and
height.  The per-level cell contents change as neighbours are linked and
unlinked; everything the abstract search layer depends on is the
signature. -/
def nodeSig (z : Addr × Node K V) : Addr × K × V × Nat :=
  (z.1, z.2.key, z.2.val, z.2.height)

theorem sigEq_spineLevel {la lb : Spine K V}
    (h : la.map nodeSig = lb.map nodeSig) (i : Nat) :
    (spineLevel i la).map nodeSig = (spineLevel i lb).map nodeSig := by
  unfold spineLevel
  have hq : ∀ l : Spine K V,
      (l.filter (fun an => decide (i < an.2.height))).map nodeSig =
        (l.map nodeSig).filter (fun t => decide (i < t.2.2.2)) := by
    intro l
    rw [List.filter_map]
    rfl
  rw [hq, hq, h]

theorem sigEq_ltPart [LinearOrder K] {la lb : Spine K V}
    (h : la.map nodeSig = lb.map nodeSig) (k : K) :
    (ltPart k la).map nodeSig = (ltPart k lb).map nodeSig := by
  unfold ltPart
  have hq : ∀ l : Spine K V,
      (l.takeWhile (fun an => decide (an.2.key < k))).map nodeSig =
        (l.map nodeSig).takeWhile (fun t => decide (t.2.1 < k)) := by
    intro l
    rw [List.takeWhile_map]
    rfl
  rw [hq, hq, h]

theorem sigEq_gePart [LinearOrder K] {la lb : Spine K V}
    (h : la.map nodeSig = lb.map nodeSig) (k : K) :
    (gePart k la).map nodeSig = (gePart k lb).map nodeSig := by
  unfold gePart
  have hq : ∀ l : Spine K V,
      (l.dropWhile (fun an => decide (an.2.key < k))).map nodeSig =
        (l.map nodeSig).dropWhile (fun t => decide (t.2.1 < k)) := by
    intro l
    rw [List.dropWhile_map]
    rfl
  rw [hq, hq, h]

theorem sigEq_fst {la lb : Spine K V}
    (h : la.map nodeSig = lb.map nodeSig) :
    la.map Prod.fst = lb.map Prod.fst := by
  have hq : ∀ l : Spine K V,
      l.map (Prod.fst (β := Node K V)) = (l.map nodeSig).map Prod.fst := by
    intro l
    rw [List.map_map]
    rfl
  rw [hq, hq, h]

theorem sigEq_getLast_fst {la lb : Spine K V}
    (h : la.map nodeSig = lb.map nodeSig) :
    (la.getLast?).map Prod.fst = (lb.getLast?).map Prod.fst := by
  have hq : ∀ l : Spine K V,
      (l.getLast?).map (Prod.fst (β := Node K V)) =
        ((l.map nodeSig).getLast?).map Prod.fst := by
    intro l
    rw [List.getLast?_map, Option.map_map]
    rfl
  rw [hq, hq, h]

theorem sigEq_head_fst {la lb : Spine K V}
    (h : la.map nodeSig = lb.map nodeSig) :
    (la.head?).map Prod.fst = (lb.head?).map Prod.fst := by
  have hq : ∀ l : Spine K V,
      (l.head?).map (Prod.fst (β := Node K V)) =
        ((l.map nodeSig).head?).map Prod.fst := by
    intro l
    rw [List.head?_map, Option.map_map]
    rfl
  rw [hq, hq, h]

theorem sigEq_prevPair [LinearOrder K] {la lb : Spine K V}
    (h : la.map nodeSig = lb.map nodeSig) (k : K) (j : Nat) :
    prevPair k j la = prevPair k j lb := by
  unfold prevPair
  rw [sigEq_getLast_fst (sigEq_ltPart (sigEq_spineLevel h j) k),
    sigEq_head_fst (sigEq_gePart (sigEq_spineLevel h j) k)]

theorem sigEq_sorted [LinearOrder K] {la lb : Spine K V}
    (h : la.map nodeSig = lb.map nodeSig)
    (hs : la.Pairwise (fun x y => x.2.key < y.2.key)) :
    lb.Pairwise (fun x y => x.2.key < y.2.key) := by
  have hq : ∀ l : Spine K V,
      l.Pairwise (fun x y => x.2.key < y.2.key) ↔
        (l.map nodeSig).Pairwise (fun u v => u.2.1 < v.2.1) := by
    intro l
    rw [List.pairwise_map]
    rfl
  rw [hq] at hs ⊢
  rw [← h]
  exact hs

/-! ## Chain segments and chain surgery -/

/-- The link structure of an initial segment of a level chain (without
requiring the final pointer to be null). -/
def IsChainSeg (i : Nat) : Option Addr → Spine K V → Prop
  | _, [] => True
  | p, z :: rest => p = some z.1 ∧ IsChainSeg i ((z.2.level i).ptr) rest

theorem isChain_iff_seg {i : Nat} :
    ∀ (l : Spine K V) (p : Option Addr),
    IsChain i p l ↔ IsChainSeg i p l ∧ chainPtr i p l = none
  | [], p => by simp [IsChain, IsChainSeg, chainPtr_nil]
  | z :: rest, p => by
    simp only [IsChain, IsChainSeg, chainPtr_cons, isChain_iff_seg rest]
    tauto

theorem isChainSeg_append {i : Nat} :
    ∀ (xs : Spine K V) (p : Option Addr) (ys : Spine K V),
    IsChainSeg i p (xs ++ ys) ↔
      IsChainSeg i p xs ∧ IsChainSeg i (chainPtr i p xs) ys
  | [], p, ys => by simp [IsChainSeg, chainPtr_nil]
  | x :: xs, p, ys => by
    rw [List.cons_append]
    show (p = some x.1 ∧ IsChainSeg i ((x.2.level i).ptr) (xs ++ ys)) ↔
      (p = some x.1 ∧ IsChainSeg i ((x.2.level i).ptr) xs) ∧
        IsChainSeg i (chainPtr i p (x :: xs)) ys
    rw [chainPtr_cons, isChainSeg_append xs]
    tauto

theorem chainPtr_append (i : Nat) :
    ∀ (xs ys : Spine K V) (p : Option Addr),
    chainPtr i p (xs ++ ys) = chainPtr i (chainPtr i p xs) ys
  | [], ys, p => by rw [List.nil_append, chainPtr_nil]
  | x :: xs, ys, p => by
    rw [List.cons_append, chainPtr_cons, chainPtr_cons, chainPtr_append i xs]

theorem isChain_append_iff {i : Nat} (xs ys : Spine K V) (p : Option Addr) :
    IsChain i p (xs ++ ys) ↔
      IsChainSeg i p xs ∧ IsChain i (chainPtr i p xs) ys := by
  rw [isChain_iff_seg, isChainSeg_append, chainPtr_append, isChain_iff_seg]
  tauto

theorem isChainSeg_snoc {i : Nat} (xs : Spine K V) (x : Addr × Node K V)
    (p : Option Addr) :
    IsChainSeg i p (xs ++ [x]) ↔
      IsChainSeg i p xs ∧ chainPtr i p xs = some x.1 := by
  rw [isChainSeg_append]
  simp [IsChainSeg]

/-- A level chain only looks at each entry's address and level-`i` cell
pointer. -/
theorem isChain_congr {i : Nat} {la lb : Spine K V}
    (hf : List.Forall₂
      (fun x y => x.1 = y.1 ∧ (x.2.level i).ptr = (y.2.level i).ptr) la lb) :
    ∀ {p : Option Addr}, IsChain i p la → IsChain i p lb := by
  induction hf with
  | nil => exact fun h => h
  | cons hxy hrest ih =>
    intro p h
    refine ⟨by rw [← hxy.1]; exact h.1, ?_⟩
    rw [← hxy.2]
    exact ih h.2

/-- The spine after one node's level-`i` cell is rewritten (all entries at
that address change; well-formed spines list each address once). -/
def updateCell (l : Spine K V) (a : Addr) (i : Nat) (c : TPtr) : Spine K V :=
  l.map fun z => if z.1 = a then (z.1, z.2.setLevel i c) else z

theorem updateCell_sig (l : Spine K V) (a : Addr) (i : Nat) (c : TPtr) :
    (updateCell l a i c).map nodeSig = l.map nodeSig := by
  unfold updateCell
  rw [List.map_map]
  apply List.map_congr_left
  intro z _
  by_cases h : z.1 = a
  · simp [h, nodeSig, Node.setLevel, Node.height]
  · simp [h]

theorem updateCell_not_mem {l : Spine K V} {a : Addr}
    (h : a ∉ l.map Prod.fst) (i : Nat) (c : TPtr) :
    updateCell l a i c = l := by
  unfold updateCell
  conv_rhs => rw [← List.map_id l]
  apply List.map_congr_left
  intro z hz
  have hz1 : z.1 ≠ a := fun he => h (he ▸ List.mem_map_of_mem Prod.fst hz)
  simp [hz1]

theorem updateCell_append (l₁ l₂ : Spine K V) (a : Addr) (i : Nat) (c : TPtr) :
    updateCell (l₁ ++ l₂) a i c = updateCell l₁ a i c ++ updateCell l₂ a i c := by
  unfold updateCell
  exact List.map_append _ _ _

theorem updateCell_singleton_self (x : Addr × Node K V) (i : Nat) (c : TPtr) :
    updateCell [x] x.1 i c = [(x.1, x.2.setLevel i c)] := by
  simp [updateCell]

theorem spineLevel_updateCell (j : Nat) (l : Spine K V) (a : Addr) (i : Nat)
    (c : TPtr) :
    spineLevel j (updateCell l a i c) = updateCell (spineLevel j l) a i c := by
  unfold spineLevel updateCell
  rw [List.filter_map]
  congr 1
  apply List.filter_congr
  intro z _
  by_cases h : z.1 = a
  · simp [h, Node.setLevel, Node.height]
  · simp [h]

/-- Rewriting a cell at a level other than `i` does not disturb level-`i`
chain structure. -/
theorem forall₂_updateCell (i : Nat) (l : Spine K V) (a : Addr) (lv : Nat)
    (c : TPtr) (hlv : lv ≠ i) :
    List.Forall₂ (fun x y => x.1 = y.1 ∧ (x.2.level i).ptr = (y.2.level i).ptr)
      l (updateCell l a lv c) := by
  unfold updateCell
  induction l with
  | nil => exact List.Forall₂.nil
  | cons z zs ih =>
    refine List.Forall₂.cons ?_ ih
    by_cases h : z.1 = a
    · refine ⟨by simp [h], ?_⟩
      simp only [h, if_pos rfl]
      show (z.2.level i).ptr = ((z.2.setLevel lv c).level i).ptr
      rw [z.2.level_setLevel_ne c hlv]
    · simp [h]

/-- The cell a walker standing at the end of `pre` reads at a level, from
the chain at that level alone: it points at the head of `suffix` and is
either the Head's cell or the last `pre` node's cell. -/
theorem cell_of_chain {s : SkipList K V} (lvl : Nat) (pre suffix : Spine K V)
    (hchain : IsChain lvl (s.headLevel lvl).loadPtr (pre ++ suffix))
    (hat : ∀ z ∈ pre, s.heap z.1 = some z.2) :
    ∃ cell, s.locCell ((pre.getLast?).map Prod.fst) lvl = some cell ∧
      cell.ptr = (suffix.head?).map Prod.fst ∧
      ((pre.getLast? = none ∧ cell = s.headLevel lvl) ∨
        (∃ x, pre.getLast? = some x ∧ x ∈ pre ∧ cell = x.2.level lvl)) := by
  have hchain2 : IsChain lvl (chainPtr lvl (s.headLevel lvl).loadPtr pre) suffix :=
    isChain_append hchain
  rcases hlast : pre.getLast? with _ | x
  · have hprenil : pre = [] := by
      cases pre with
      | nil => rfl
      | cons z zs => simp [List.getLast?_eq_none_iff] at hlast
    subst hprenil
    refine ⟨s.headLevel lvl, rfl, ?_, Or.inl ⟨rfl, rfl⟩⟩
    rw [chainPtr_nil] at hchain2
    cases suffix with
    | nil => simpa [TPtr.loadPtr] using hchain2
    | cons y ys => simpa [TPtr.loadPtr] using hchain2.1
  · have hx : x ∈ pre := List.mem_of_mem_getLast? hlast
    have hheap : s.heap x.1 = some x.2 := hat x hx
    refine ⟨x.2.level lvl, ?_, ?_, Or.inr ⟨x, rfl, hx, rfl⟩⟩
    · simp [SkipList.locCell, hheap]
    · have hcp : chainPtr lvl (s.headLevel lvl).loadPtr pre = (x.2.level lvl).ptr := by
        unfold chainPtr
        rw [hlast]
      rw [hcp] at hchain2
      cases suffix with
      | nil => simpa using hchain2
      | cons y ys => simpa using hchain2.1

theorem mem_updateCell {l : Spine K V} {a : Addr} {i : Nat} {c : TPtr}
    {z' : Addr × Node K V} (h : z' ∈ updateCell l a i c) :
    ∃ z ∈ l, (z' = z ∧ z.1 ≠ a) ∨ (z.1 = a ∧ z' = (z.1, z.2.setLevel i c)) := by
  unfold updateCell at h
  obtain ⟨z, hz, he⟩ := List.mem_map.mp h
  refine ⟨z, hz, ?_⟩
  by_cases hza : z.1 = a
  · right
    rw [if_pos hza] at he
    exact ⟨hza, he.symm⟩
  · left
    rw [if_neg hza] at he
    exact ⟨he.symm, hza⟩

theorem exists_concat_of_getLast? {α : Type} :
    ∀ {l : List α} {x : α}, l.getLast? = some x → ∃ l₀, l = l₀ ++ [x] := by
  intro l
  induction l with
  | nil => intro x h; simp at h
  | cons y ys ih =>
    intro x h
    cases ys with
    | nil =>
      simp at h
      exact ⟨[], by simp [h]⟩
    | cons z zs =>
      rw [List.getLast?_cons_cons] at h
      obtain ⟨l₀, hl⟩ := ih h
      exact ⟨y :: l₀, by simp [hl]⟩

/-- In a spine whose addresses are distinct, an address determines the
entry. -/
theorem eq_of_mem_addr {l : Spine K V} (hnd : (l.map Prod.fst).Nodup)
    {z w : Addr × Node K V} (hz : z ∈ l) (hw : w ∈ l) (h : z.1 = w.1) :
    z = w :=
  List.inj_on_of_nodup_map hnd hz hw h

theorem forall₂_refl_cell (i : Nat) (l : Spine K V) :
    List.Forall₂ (fun x y => x.1 = y.1 ∧ (x.2.level i).ptr = (y.2.level i).ptr)
      l l :=
  List.forall₂_same.mpr (fun _ _ => ⟨rfl, rfl⟩)

/-- Invariant of the top-down `unlink` level loop: levels at and above
`count` already bypass the node, levels below still run through it, and
the node's reference count equals the number of levels still linked.
`l₁c` is the current state of the nodes below the key (their cells are
rewritten as the levels are unlinked), `l₂` the untouched suffix. -/
structure UnlinkInv [LinearOrder K] (base : SkipList K V) (l₁ l₂ : Spine K V)
    (tAddr : Addr) (hn : Nat) (t : SkipList K V) (l₁c : Spine K V)
    (nc : Node K V) (count : Nat) : Prop where
  scal_len : t.len = base.len
  scal_maxH : t.maxHeight = base.maxHeight
  scal_seed : t.seed = base.seed
  scal_next : t.nextAddr = base.nextAddr
  head_len : t.headLevels.length = HEIGHT
  head_tag : ∀ i, (t.headLevel i).tag = 0
  sig : l₁c.map nodeSig = l₁.map nodeSig
  node_c : t.heap tAddr = some nc
  nc_height : nc.height = hn
  nc_refs : nc.refs = count
  nc_next : ∀ i, i < hn →
    (nc.level i).ptr = ((spineLevel i l₂).head?).map Prod.fst
  chains_lo : ∀ j, j < count → IsChain j (t.headLevel j).loadPtr
    (spineLevel j (l₁c ++ (tAddr, nc) :: l₂))
  chains_hi : ∀ j, count ≤ j → IsChain j (t.headLevel j).loadPtr
    (spineLevel j (l₁c ++ l₂))
  node_at : ∀ z ∈ l₁c ++ l₂, t.heap z.1 = some z.2
  node_har : ∀ z ∈ l₁c ++ l₂, z.2.har = z.2.height
  node_len : ∀ z ∈ l₁c ++ l₂, z.2.levels.length = z.2.height
  node_refs : ∀ z ∈ l₁c ++ l₂, z.2.refs = z.2.height
  node_tags : ∀ z ∈ l₁c ++ l₂, ∀ i, (z.2.level i).tag = 0

/-- One full run of the top-down unlink loop: every level CAS succeeds and
the loop breaks with the reference count at zero. -/
theorem unlinkLevels_spec [LinearOrder K] {base : SkipList K V}
    {l₁ l₂ : Spine K V} {tAddr : Addr} {hn : Nat}
    (prev : List (Loc × Option Addr)) (hhn : hn ≤ HEIGHT)
    (hprev : ∀ j, j < hn → (prev.getD j (none, none)).1 =
      ((spineLevel j l₁).getLast?).map Prod.fst)
    (hnotin : tAddr ∉ (l₁ ++ l₂).map Prod.fst)
    (hnodup : ((l₁ ++ l₂).map Prod.fst).Nodup) :
    ∀ (count : Nat) (t : SkipList K V) (l₁c : Spine K V) (nc : Node K V),
    1 ≤ count → count ≤ hn →
    UnlinkInv base l₁ l₂ tAddr hn t l₁c nc count →
    ∃ t' l₁c' nc', unlinkLevels t tAddr prev count = some (t', none) ∧
      UnlinkInv base l₁ l₂ tAddr hn t' l₁c' nc' 0 ∧
      nc'.key = nc.key ∧ nc'.val = nc.val := by
  intro count
  induction count with
  | zero => intro t l₁c nc h1 _ _; omega
  | succ c ih =>
    intro t l₁c nc _ hle hinv
    have hfst : l₁c.map Prod.fst = l₁.map Prod.fst := sigEq_fst hinv.sig
    have hnotin' : tAddr ∉ (l₁c ++ l₂).map Prod.fst := by
      rw [List.map_append, hfst, ← List.map_append]
      exact hnotin
    have hnodup' : ((l₁c ++ l₂).map Prod.fst).Nodup := by
      rw [List.map_append, hfst, ← List.map_append]
      exact hnodup
    have hhc : c < nc.height := by rw [hinv.nc_height]; omega
    have hchainc := hinv.chains_lo c (by omega)
    have hsplitc : spineLevel c (l₁c ++ (tAddr, nc) :: l₂) =
        spineLevel c l₁c ++ (tAddr, nc) :: spineLevel c l₂ := by
      rw [spineLevel_append]
      congr 1
      unfold spineLevel
      rw [List.filter_cons_of_pos (by simpa using hhc)]
    rw [hsplitc] at hchainc
    obtain ⟨cell, hcell, hcptr, hcid⟩ := cell_of_chain c _ _ hchainc
      (fun z hz => hinv.node_at z (List.mem_append_left _ (spineLevel_subset hz)))
    have hcptr' : cell.ptr = some tAddr := by simpa using hcptr
    have htag : cell.tag = 0 := by
      rcases hcid with ⟨_, hc⟩ | ⟨x, _, hxmem, hc⟩
      · rw [hc]
        exact hinv.head_tag c
      · rw [hc]
        exact hinv.node_tags x (List.mem_append_left _ (spineLevel_subset hxmem)) c
    have hprevloc := hprev c (by omega)
    rcases hgd : prev.getD c (none, none) with ⟨prevLoc, pnext⟩
    rw [hgd] at hprevloc
    have hploc : prevLoc = ((spineLevel c l₁c).getLast?).map Prod.fst := by
      have := (sigEq_getLast_fst (sigEq_spineLevel hinv.sig c)).symm
      simpa using hprevloc.trans this
    have hts : nc.trySubRef = ({ nc with refs := c }, .ok c) := by
      unfold Node.trySubRef
      rw [hinv.nc_refs]
      simp
    rcases hcid with ⟨hlastA, hcellhead⟩ | ⟨x, hlastA, hxA, hcellx⟩
    · -- the predecessor at this level is the Head
      have hAnil : spineLevel c l₁c = [] := by
        rwa [List.getLast?_eq_none_iff] at hlastA
      have hploc' : prevLoc = none := by rw [hploc, hlastA]; rfl
      subst hploc'
      have hclt : c < t.headLevels.length := by
        rw [hinv.head_len]
        have := hhc
        rw [hinv.nc_height] at this
        omega
      rw [hlastA] at hcell
      simp only [Option.map_none'] at hcell
      have hsub : SkipList.subRefNode
          { t with headLevels := t.headLevels.set c ⟨(nc.level c).ptr, 0⟩ } tAddr =
          some (SkipList.setNode
              { t with headLevels := t.headLevels.set c ⟨(nc.level c).ptr, 0⟩ }
              tAddr { nc with refs := c },
            if c = 0 then none else some ()) := by
        simp only [SkipList.subRefNode, Option.bind_eq_bind, hinv.node_c, Option.some_bind,
          hts, SkipList.retireNode]
        by_cases hc0 : c = 0 <;> simp [hc0]
      have hinv' : UnlinkInv base l₁ l₂ tAddr hn
          (SkipList.setNode
            { t with headLevels := t.headLevels.set c ⟨(nc.level c).ptr, 0⟩ }
            tAddr { nc with refs := c })
          l₁c { nc with refs := c } c := by
        refine ⟨hinv.scal_len, hinv.scal_maxH, hinv.scal_seed, hinv.scal_next,
          ?_, ?_, hinv.sig, SkipList.setNode_heap_self _ _ _, hinv.nc_height,
          rfl, hinv.nc_next, ?_, ?_, ?_, hinv.node_har, hinv.node_len,
          hinv.node_refs, hinv.node_tags⟩
        · show (t.headLevels.set c _).length = HEIGHT
          rw [List.length_set]
          exact hinv.head_len
        · intro i
          show ((t.headLevels.set c _).getD i TPtr.null).tag = 0
          by_cases hic : c = i
          · subst hic
            rw [getD_set_self _ _ _ _ hclt]
          · rw [getD_set_ne _ _ _ hic]
            exact hinv.head_tag i
        · -- chains_lo
          intro j hj
          have hold := hinv.chains_lo j (by omega)
          have hhead : (SkipList.setNode
              { t with headLevels := t.headLevels.set c ⟨(nc.level c).ptr, 0⟩ }
              tAddr { nc with refs := c }).headLevel j = t.headLevel j := by
            show (t.headLevels.set c _).getD j TPtr.null = _
            rw [getD_set_ne _ _ _ (by omega)]
            rfl
          rw [hhead]
          refine isChain_congr ?_ hold
          rw [spineLevel_append, spineLevel_append]
          refine List.rel_append (forall₂_refl_cell j _) ?_
          unfold spineLevel
          by_cases hjh : j < nc.height
          · rw [List.filter_cons_of_pos (by simpa using hjh),
              List.filter_cons_of_pos (by simpa using hjh)]
            exact List.Forall₂.cons ⟨rfl, rfl⟩ (forall₂_refl_cell j _)
          · rw [List.filter_cons_of_neg (by simpa using hjh),
              List.filter_cons_of_neg (by simpa using hjh)]
            exact forall₂_refl_cell j _
        · -- chains_hi
          intro j hj
          by_cases hjc : j = c
          · subst hjc
            have hheadj : (SkipList.setNode
                { t with headLevels := t.headLevels.set j ⟨(nc.level j).ptr, 0⟩ }
                tAddr { nc with refs := j }).headLevel j =
                ⟨(nc.level j).ptr, 0⟩ := by
              show (t.headLevels.set j _).getD j TPtr.null = _
              rw [getD_set_self _ _ _ _ hclt]
            rw [hheadj, spineLevel_append, hAnil, List.nil_append]
            have hch := hchainc
            rw [hAnil, List.nil_append] at hch
            exact hch.2
          · have hold := hinv.chains_hi j (by omega)
            have hhead : (SkipList.setNode
                { t with headLevels := t.headLevels.set c ⟨(nc.level c).ptr, 0⟩ }
                tAddr { nc with refs := c }).headLevel j = t.headLevel j := by
              show (t.headLevels.set c _).getD j TPtr.null = _
              rw [getD_set_ne _ _ _ (fun h => hjc h.symm)]
              rfl
            rw [hhead]
            exact hold
        · -- node_at
          intro z hz
          have hne : z.1 ≠ tAddr := fun he =>
            hnotin' (he ▸ List.mem_map_of_mem Prod.fst hz)
          rw [SkipList.setNode_heap_ne _ _ hne]
          exact hinv.node_at z hz
      have hstep : unlinkLevels t tAddr prev (c + 1) =
          if c = 0 then
            some (SkipList.setNode
              { t with headLevels := t.headLevels.set c ⟨(nc.level c).ptr, 0⟩ }
              tAddr { nc with refs := c }, none)
          else unlinkLevels (SkipList.setNode
            { t with headLevels := t.headLevels.set c ⟨(nc.level c).ptr, 0⟩ }
            tAddr { nc with refs := c }) tAddr prev c := by
        simp only [unlinkLevels, Option.bind_eq_bind, hinv.node_c, Option.some_bind,
          TPtr.loadDecomposed, hgd, hcell, TPtr.compareExchange,
          if_pos (And.intro hcptr' htag), SkipList.setLocCell, hsub]
        by_cases hc0 : c = 0 <;> simp [hc0]
      by_cases hc0 : c = 0
      · subst hc0
        rw [if_pos rfl] at hstep
        exact ⟨_, l₁c, { nc with refs := 0 }, hstep, hinv', rfl, rfl⟩
      · rw [if_neg hc0] at hstep
        obtain ⟨t', l₁c'', nc'', hrun, hinv0, hkey, hval⟩ :=
          ih _ l₁c { nc with refs := c } (by omega) (by omega) hinv'
        exact ⟨t', l₁c'', nc'', hstep.trans hrun, hinv0, hkey, hval⟩
    · -- the predecessor at this level is the last node below the key
      have hxl₁c : x ∈ l₁c := spineLevel_subset hxA
      have hploc' : prevLoc = some x.1 := by rw [hploc, hlastA]; rfl
      subst hploc'
      have hcx : c < x.2.height := by
        have := (List.mem_filter.mp hxA).2
        simpa using this
      have hcxlen : c < x.2.levels.length := by
        rw [hinv.node_len x (List.mem_append_left _ hxl₁c)]
        exact hcx
      have hxt : x.1 ≠ tAddr := fun he =>
        hnotin' (he ▸ List.mem_map_of_mem Prod.fst (List.mem_append_left _ hxl₁c))
      have hheapx : t.heap x.1 = some x.2 :=
        hinv.node_at x (List.mem_append_left _ hxl₁c)
      have hsetloc : t.setLocCell (some x.1) c ⟨(nc.level c).ptr, 0⟩ =
          some (t.setNode x.1 (x.2.setLevel c ⟨(nc.level c).ptr, 0⟩)) := by
        simp [SkipList.setLocCell, hheapx]
      have hheapc1 : (t.setNode x.1 (x.2.setLevel c ⟨(nc.level c).ptr, 0⟩)).heap tAddr =
          some nc := by
        rw [SkipList.setNode_heap_ne _ _ (fun he => hxt he.symm)]
        exact hinv.node_c
      have hsub : SkipList.subRefNode
          (t.setNode x.1 (x.2.setLevel c ⟨(nc.level c).ptr, 0⟩)) tAddr =
          some (SkipList.setNode
              (t.setNode x.1 (x.2.setLevel c ⟨(nc.level c).ptr, 0⟩))
              tAddr { nc with refs := c },
            if c = 0 then none else some ()) := by
        simp only [SkipList.subRefNode, Option.bind_eq_bind, hheapc1, Option.some_bind,
          hts, SkipList.retireNode]
        by_cases hc0 : c = 0 <;> simp [hc0]
      have hl₁cnd : (l₁c.map Prod.fst).Nodup := by
        rw [List.map_append] at hnodup'
        exact (List.nodup_append.mp hnodup').1
      have hdisj : ∀ a ∈ l₁c.map Prod.fst, a ∉ l₂.map Prod.fst := by
        rw [List.map_append] at hnodup'
        intro a ha hb
        exact (List.nodup_append.mp hnodup').2.2 ha hb
      have hinv' : UnlinkInv base l₁ l₂ tAddr hn
          (SkipList.setNode
            (t.setNode x.1 (x.2.setLevel c ⟨(nc.level c).ptr, 0⟩))
            tAddr { nc with refs := c })
          (updateCell l₁c x.1 c ⟨(nc.level c).ptr, 0⟩) { nc with refs := c } c := by
        refine ⟨hinv.scal_len, hinv.scal_maxH, hinv.scal_seed, hinv.scal_next,
          hinv.head_len, hinv.head_tag, (updateCell_sig _ _ _ _).trans hinv.sig,
          SkipList.setNode_heap_self _ _ _, hinv.nc_height, rfl, hinv.nc_next,
          ?_, ?_, ?_, ?_, ?_, ?_, ?_⟩
        · -- chains_lo
          intro j hj
          have hold := hinv.chains_lo j (by omega)
          refine isChain_congr ?_ hold
          rw [spineLevel_append, spineLevel_append, spineLevel_updateCell]
          refine List.rel_append
            (forall₂_updateCell j _ x.1 c _ (by omega)) ?_
          unfold spineLevel
          by_cases hjh : j < nc.height
          · rw [List.filter_cons_of_pos (by simpa using hjh),
              List.filter_cons_of_pos (by simpa using hjh)]
            exact List.Forall₂.cons ⟨rfl, rfl⟩ (forall₂_refl_cell j _)
          · rw [List.filter_cons_of_neg (by simpa using hjh),
              List.filter_cons_of_neg (by simpa using hjh)]
            exact forall₂_refl_cell j _
        · -- chains_hi
          intro j hj
          by_cases hjc : j = c
          · subst hjc
            obtain ⟨A₀, hA⟩ := exists_concat_of_getLast? hlastA
            have hsubl : List.Sublist ((spineLevel j l₁c).map Prod.fst)
                (l₁c.map Prod.fst) :=
              (List.filter_sublist l₁c).map Prod.fst
            have hAnd : ((spineLevel j l₁c).map Prod.fst).Nodup :=
              hl₁cnd.sublist hsubl
            rw [hA, List.map_append] at hAnd
            have hxnA₀ : x.1 ∉ A₀.map Prod.fst := by
              rcases List.nodup_append.mp hAnd with ⟨_, _, hdj⟩
              intro hmem
              exact hdj hmem (by simp)
            have hA' : updateCell (spineLevel j l₁c) x.1 j ⟨(nc.level j).ptr, 0⟩ =
                A₀ ++ [(x.1, x.2.setLevel j ⟨(nc.level j).ptr, 0⟩)] := by
              rw [hA, updateCell_append, updateCell_not_mem hxnA₀]
              have := updateCell_singleton_self x j (⟨(nc.level j).ptr, 0⟩ : TPtr)
              rw [this]
            rw [hA, isChain_append_iff] at hchainc
            obtain ⟨hseg, hrest⟩ := hchainc
            rw [isChainSeg_snoc] at hseg
            show IsChain j ((t.headLevel j).loadPtr)
              (spineLevel j (updateCell l₁c x.1 j _ ++ l₂))
            rw [spineLevel_append, spineLevel_updateCell, hA', isChain_append_iff]
            constructor
            · rw [isChainSeg_snoc]
              exact ⟨hseg.1, hseg.2⟩
            · rw [chainPtr_append]
              have hcp1 : chainPtr j (chainPtr j ((t.headLevel j).loadPtr) A₀)
                  [(x.1, x.2.setLevel j ⟨(nc.level j).ptr, 0⟩)] =
                  ((x.2.setLevel j ⟨(nc.level j).ptr, 0⟩).level j).ptr := by
                unfold chainPtr
                simp
              rw [hcp1, x.2.level_setLevel_self j _ hcxlen]
              exact hrest.2
          · have hold := hinv.chains_hi j (by omega)
            refine isChain_congr ?_ hold
            rw [spineLevel_append, spineLevel_append, spineLevel_updateCell]
            exact List.rel_append
              (forall₂_updateCell j _ x.1 c _ (fun h => hjc h.symm)) (forall₂_refl_cell j _)
        · -- node_at
          intro z hz
          rcases List.mem_append.mp hz with hz1 | hz2
          · obtain ⟨z₀, hz₀, hcase⟩ := mem_updateCell hz1
            rcases hcase with ⟨hzz, hne⟩ | ⟨hzx, hzv⟩
            · have hzt : z₀.1 ≠ tAddr := fun he => hnotin'
                (he ▸ List.mem_map_of_mem Prod.fst (List.mem_append_left _ hz₀))
              rw [hzz, SkipList.setNode_heap_ne _ _ hzt,
                SkipList.setNode_heap_ne _ _ hne]
              exact hinv.node_at z₀ (List.mem_append_left _ hz₀)
            · have hz₀x : z₀ = x := eq_of_mem_addr hl₁cnd hz₀ hxl₁c hzx
              rw [hzv, hz₀x]
              show (SkipList.setNode (t.setNode x.1 (x.2.setLevel c ⟨(nc.level c).ptr, 0⟩))
                tAddr { nc with refs := c }).heap x.1 =
                some (x.2.setLevel c ⟨(nc.level c).ptr, 0⟩)
              rw [SkipList.setNode_heap_ne _ _ hxt]
              exact SkipList.setNode_heap_self _ _ _
          · have hzt : z.1 ≠ tAddr := fun he => hnotin'
              (he ▸ List.mem_map_of_mem Prod.fst (List.mem_append_right _ hz2))
            have hzx : z.1 ≠ x.1 := by
              intro he
              exact hdisj x.1 (List.mem_map_of_mem Prod.fst hxl₁c)
                (he ▸ List.mem_map_of_mem Prod.fst hz2)
            rw [SkipList.setNode_heap_ne _ _ hzt, SkipList.setNode_heap_ne _ _ hzx]
            exact hinv.node_at z (List.mem_append_right _ hz2)
        · -- node_har
          intro z hz
          rcases List.mem_append.mp hz with hz1 | hz2
          · obtain ⟨z₀, hz₀, hcase⟩ := mem_updateCell hz1
            rcases hcase with ⟨hzz, _⟩ | ⟨hzx, hzv⟩
            · rw [hzz]
              exact hinv.node_har z₀ (List.mem_append_left _ hz₀)
            · rw [hzv]
              exact hinv.node_har z₀ (List.mem_append_left _ hz₀)
          · exact hinv.node_har z (List.mem_append_right _ hz2)
        · -- node_len
          intro z hz
          rcases List.mem_append.mp hz with hz1 | hz2
          · obtain ⟨z₀, hz₀, hcase⟩ := mem_updateCell hz1
            rcases hcase with ⟨hzz, _⟩ | ⟨hzx, hzv⟩
            · rw [hzz]
              exact hinv.node_len z₀ (List.mem_append_left _ hz₀)
            · rw [hzv]
              show (z₀.2.setLevel c _).levels.length = (z₀.2.setLevel c _).height
              rw [Node.setLevel_length, Node.setLevel_height]
              exact hinv.node_len z₀ (List.mem_append_left _ hz₀)
          · exact hinv.node_len z (List.mem_append_right _ hz2)
        · -- node_refs
          intro z hz
          rcases List.mem_append.mp hz with hz1 | hz2
          · obtain ⟨z₀, hz₀, hcase⟩ := mem_updateCell hz1
            rcases hcase with ⟨hzz, _⟩ | ⟨hzx, hzv⟩
            · rw [hzz]
              exact hinv.node_refs z₀ (List.mem_append_left _ hz₀)
            · rw [hzv]
              exact hinv.node_refs z₀ (List.mem_append_left _ hz₀)
          · exact hinv.node_refs z (List.mem_append_right _ hz2)
        · -- node_tags
          intro z hz i
          rcases List.mem_append.mp hz with hz1 | hz2
          · obtain ⟨z₀, hz₀, hcase⟩ := mem_updateCell hz1
            rcases hcase with ⟨hzz, _⟩ | ⟨hzx, hzv⟩
            · rw [hzz]
              exact hinv.node_tags z₀ (List.mem_append_left _ hz₀) i
            · have hz₀x : z₀ = x := eq_of_mem_addr hl₁cnd hz₀ hxl₁c hzx
              rw [hzv, hz₀x]
              by_cases hic : i = c
              · rw [hic]
                show ((x.2.setLevel c ⟨(nc.level c).ptr, 0⟩).level c).tag = 0
                rw [x.2.level_setLevel_self c _ hcxlen]
              · show ((x.2.setLevel c ⟨(nc.level c).ptr, 0⟩).level i).tag = 0
                rw [x.2.level_setLevel_ne _ (fun h => hic h.symm)]
                exact hinv.node_tags x (List.mem_append_left _ hxl₁c) i
          · exact hinv.node_tags z (List.mem_append_right _ hz2) i
      have hstep : unlinkLevels t tAddr prev (c + 1) =
          if c = 0 then
            some (SkipList.setNode
              (t.setNode x.1 (x.2.setLevel c ⟨(nc.level c).ptr, 0⟩))
              tAddr { nc with refs := c }, none)
          else unlinkLevels (SkipList.setNode
            (t.setNode x.1 (x.2.setLevel c ⟨(nc.level c).ptr, 0⟩))
            tAddr { nc with refs := c }) tAddr prev c := by
        rw [hlastA] at hcell
        simp only [Option.map_some'] at hcell
        simp only [unlinkLevels, Option.bind_eq_bind, hinv.node_c, Option.some_bind,
          TPtr.loadDecomposed, hgd, hcell, TPtr.compareExchange,
          if_pos (And.intro hcptr' htag), hsetloc, hsub]
        by_cases hc0 : c = 0 <;> simp [hc0]
      by_cases hc0 : c = 0
      · subst hc0
        rw [if_pos rfl] at hstep
        exact ⟨_, updateCell l₁c x.1 0 ⟨(nc.level 0).ptr, 0⟩, { nc with refs := 0 },
          hstep, hinv', rfl, rfl⟩
      · rw [if_neg hc0] at hstep
        obtain ⟨t', l₁c'', nc'', hrun, hinv0, hkey, hval⟩ :=
          ih _ (updateCell l₁c x.1 c ⟨(nc.level c).ptr, 0⟩) { nc with refs := c }
            (by omega) (by omega) hinv'
        exact ⟨t', l₁c'', nc'', hstep.trans hrun, hinv0, hkey, hval⟩

theorem isChain_head {i : Nat} {q : Option Addr} {l : Spine K V}
    (h : IsChain i q l) : q = (l.head?).map Prod.fst := by
  cases l with
  | nil => simpa using h
  | cons z zs => simpa using h.1

/-- `tag_levels`' loop never touches key, value, the packed word or the
reference count. -/
theorem Node.tagLevelsFrom_fields (t : Nat) :
    ∀ (m : Nat) (n : Node K V),
    ((n.tagLevelsFrom t m).1.key = n.key ∧ (n.tagLevelsFrom t m).1.val = n.val) ∧
    ((n.tagLevelsFrom t m).1.har = n.har ∧ (n.tagLevelsFrom t m).1.refs = n.refs) := by
  intro m
  induction m with
  | zero => intro n; exact ⟨⟨rfl, rfl⟩, ⟨rfl, rfl⟩⟩
  | succ m ih =>
    intro n
    simp only [Node.tagLevelsFrom]
    rcases hce : (n.level m).compareExchangeTag 0 t with ⟨c', r⟩
    cases r with
    | ok u => exact ih (n.setLevel m c')
    | error o => exact ⟨⟨rfl, rfl⟩, ⟨rfl, rfl⟩⟩

/-- The two sides of a sorted spine split around an element. -/
theorem sorted_split_keys [LinearOrder K] {l₁ l₂ : Spine K V}
    {z : Addr × Node K V}
    (hs : (l₁ ++ z :: l₂).Pairwise (fun x y => x.2.key < y.2.key)) :
    (∀ w ∈ l₁, w.2.key < z.2.key) ∧ (∀ w ∈ l₂, z.2.key < w.2.key) := by
  rw [List.pairwise_append] at hs
  refine ⟨fun w hw => hs.2.2 w hw z (by simp), fun w hw => ?_⟩
  have := hs.2.1
  rw [List.pairwise_cons] at this
  exact this.1 w hw

/-- The abstract predecessor pair at a level that still carries the split
node: the below-key prefix of the level chain is the level's part of `l₁`
and the observed successor is the node itself. -/
theorem prevPair_at_key [LinearOrder K] {sp l₁ l₂ : Spine K V} {tAddr : Addr}
    {n : Node K V} (hsp : sp = l₁ ++ (tAddr, n) :: l₂)
    (hs : sp.Pairwise (fun x y => x.2.key < y.2.key)) {j : Nat}
    (hj : j < n.height) :
    prevPair n.key j sp =
      (((spineLevel j l₁).getLast?).map Prod.fst, some tAddr) := by
  subst hsp
  have hkeys := sorted_split_keys hs
  have hsplit : spineLevel j (l₁ ++ (tAddr, n) :: l₂) =
      spineLevel j l₁ ++ (tAddr, n) :: spineLevel j l₂ := by
    rw [spineLevel_append]
    congr 1
    unfold spineLevel
    rw [List.filter_cons_of_pos (by simpa using hj)]
  have := prevPair_split n.key j hsplit
    (fun x hx => hkeys.1 x (spineLevel_subset hx))
    (fun y hy => by
      have hy' : (tAddr, n) = y := by simpa using hy
      rw [← hy']
      simp)
  simpa using this

/-- A reported search target is a linked node carrying exactly the key,
sitting at the key boundary of the spine. -/
theorem spineTarget_some [LinearOrder K] {sp : Spine K V} {k : K} {a : Addr}
    (h : spineTarget k sp = some a) :
    ∃ n l₂, n.key = k ∧ sp = ltPart k sp ++ (a, n) :: l₂ := by
  unfold spineTarget at h
  rcases hge : gePart k sp with _ | ⟨⟨a₀, n⟩, l₂⟩
  · rw [hge] at h
    simp at h
  · simp only [hge] at h
    by_cases hk : n.key = k
    · rw [if_pos hk] at h
      simp only [Option.some_inj] at h
      subst h
      refine ⟨n, l₂, hk, ?_⟩
      conv_lhs => rw [← List.takeWhile_append_dropWhile
        (fun an => decide (an.2.key < k)) sp]
      rw [← hge]
      rfl
    · rw [if_neg hk] at h
      simp at h

/-- Transport of a spine entry along a signature equality. -/
theorem sig_mem {la lb : Spine K V} (h : la.map nodeSig = lb.map nodeSig)
    {z : Addr × Node K V} (hz : z ∈ la) :
    ∃ w ∈ lb, z.1 = w.1 ∧ z.2.key = w.2.key ∧ z.2.val = w.2.val ∧
      z.2.height = w.2.height := by
  have hm : nodeSig z ∈ lb.map nodeSig := h ▸ List.mem_map_of_mem nodeSig hz
  obtain ⟨w, hw, he⟩ := List.mem_map.mp hm
  have he' : w.1 = z.1 ∧ w.2.key = z.2.key ∧ w.2.val = z.2.val ∧
      w.2.height = z.2.height := by
    simpa [nodeSig, Prod.ext_iff] using he
  exact ⟨w, hw, he'.1.symm, he'.2.1.symm, he'.2.2.1.symm, he'.2.2.2.symm⟩

theorem sig_length {la lb : Spine K V} (h : la.map nodeSig = lb.map nodeSig) :
    la.length = lb.length := by
  have := congrArg List.length h
  simpa using this

/-- `unlink` of a node that is linked at every one of its levels, from the
state in which the caller has already flipped its removed bit and tagged
it: every level CAS succeeds, the node comes off every chain, its
reference count drains to zero, and the length counter drops by one.  The
surviving spine keeps every other node's signature. -/
theorem unlink_spec [LinearOrder K] {s : SkipList K V} {sp : Spine K V}
    (hwf : WF s sp) {l₁ l₂ : Spine K V} {tAddr : Addr} {n : Node K V}
    (hsp : sp = l₁ ++ (tAddr, n) :: l₂)
    {m : Node K V}
    (hmh : m.height = n.height) (hmr : m.refs = n.refs)
    (hmk : m.key = n.key) (hmv : m.val = n.val)
    (hmp : ∀ i, (m.level i).ptr = (n.level i).ptr)
    (prev : List (Loc × Option Addr))
    (hprev : ∀ j, j < n.height → (prev.getD j (none, none)).1 =
      ((spineLevel j l₁).getLast?).map Prod.fst) :
    ∃ s'' sp'' nFin, (s.setNode tAddr m).unlink tAddr n.height prev =
        some (s'', .ok ()) ∧
      WF s'' sp'' ∧
      sp''.map nodeSig = (l₁ ++ l₂).map nodeSig ∧
      s''.heap tAddr = some nFin ∧ nFin.key = n.key ∧ nFin.val = n.val ∧
      s''.len = s.len - 1 ∧ s''.maxHeight = s.maxHeight ∧
      s''.seed = s.seed ∧ s''.nextAddr = s.nextAddr := by
  have hmem : (tAddr, n) ∈ sp := by rw [hsp]; simp
  have hh1 : 1 ≤ n.height := hwf.node_hlb _ hmem
  have hhH : n.height ≤ HEIGHT := hwf.node_hub _ hmem
  -- address bookkeeping
  have hnd := hwf.nodup
  rw [hsp, List.map_append, List.map_cons] at hnd
  have hnd1 := List.nodup_append.mp hnd
  have htl₁ : tAddr ∉ l₁.map Prod.fst := fun hm => hnd1.2.2 hm (by simp)
  have htl₂ : tAddr ∉ l₂.map Prod.fst := by
    have := hnd1.2.1
    rw [List.nodup_cons] at this
    exact this.1
  have hnotin : tAddr ∉ (l₁ ++ l₂).map Prod.fst := by
    rw [List.map_append]
    intro hm
    rcases List.mem_append.mp hm with hm | hm
    · exact htl₁ hm
    · exact htl₂ hm
  have hnodup : ((l₁ ++ l₂).map Prod.fst).Nodup := by
    rw [List.map_append]
    refine List.nodup_append.mpr ⟨hnd1.1, ?_, ?_⟩
    · have := hnd1.2.1
      rw [List.nodup_cons] at this
      exact this.2
    · intro a ha hb
      exact hnd1.2.2 ha (List.mem_cons_of_mem _ hb)
  -- the initial invariant
  have hnrefs : n.refs = n.height := hwf.node_refs _ hmem
  have hinv₀ : UnlinkInv s l₁ l₂ tAddr n.height (s.setNode tAddr m) l₁ m
      n.height := by
    refine ⟨rfl, rfl, rfl, rfl, hwf.head_len, hwf.head_tag, rfl,
      SkipList.setNode_heap_self _ _ _, hmh, by rw [hmr, hnrefs],
      ?_, ?_, ?_, ?_, ?_, ?_, ?_, ?_⟩
    · -- nc_next
      intro i hi
      rw [hmp i]
      have hchain := hwf.chains i
      rw [hsp] at hchain
      have hsplit : spineLevel i (l₁ ++ (tAddr, n) :: l₂) =
          spineLevel i l₁ ++ (tAddr, n) :: spineLevel i l₂ := by
        rw [spineLevel_append]
        congr 1
        unfold spineLevel
        rw [List.filter_cons_of_pos (by simpa using hi)]
      rw [hsplit, isChain_append_iff] at hchain
      exact isChain_head hchain.2.2
    · -- chains_lo
      intro j hj
      have hchain := hwf.chains j
      rw [hsp] at hchain
      have hhd : ((s.setNode tAddr m).headLevel j) = s.headLevel j := rfl
      rw [hhd]
      refine isChain_congr ?_ hchain
      rw [spineLevel_append, spineLevel_append]
      refine List.rel_append (forall₂_refl_cell j _) ?_
      unfold spineLevel
      have hmh' : decide (j < m.height) = decide (j < n.height) := by rw [hmh]
      by_cases hjh : j < n.height
      · rw [List.filter_cons_of_pos (by simpa using hjh),
          List.filter_cons_of_pos (by rw [hmh']; simpa using hjh)]
        exact List.Forall₂.cons ⟨rfl, (hmp j).symm⟩ (forall₂_refl_cell j _)
      · rw [List.filter_cons_of_neg (by simpa using hjh),
          List.filter_cons_of_neg (by rw [hmh']; simpa using hjh)]
        exact forall₂_refl_cell j _
    · -- chains_hi
      intro j hj
      have hchain := hwf.chains j
      rw [hsp] at hchain
      have hsplit : spineLevel j (l₁ ++ (tAddr, n) :: l₂) =
          spineLevel j l₁ ++ spineLevel j l₂ := by
        rw [spineLevel_append]
        congr 1
        unfold spineLevel
        rw [List.filter_cons_of_neg (by simp; omega)]
      rw [hsplit] at hchain
      rw [spineLevel_append]
      exact hchain
    · -- node_at
      intro z hz
      have hzsp : z ∈ sp := by
        rw [hsp]
        rcases List.mem_append.mp hz with hz | hz
        · exact List.mem_append_left _ hz
        · exact List.mem_append_right _ (List.mem_cons_of_mem _ hz)
      have hzt : z.1 ≠ tAddr := fun he =>
        hnotin (he ▸ List.mem_map_of_mem Prod.fst hz)
      rw [SkipList.setNode_heap_ne _ _ hzt]
      exact hwf.node_at z hzsp
    all_goals
      intro z hz
      have hzsp : z ∈ sp := by
        rw [hsp]
        rcases List.mem_append.mp hz with hz | hz
        · exact List.mem_append_left _ hz
        · exact List.mem_append_right _ (List.mem_cons_of_mem _ hz)
      first
        | exact hwf.node_har z hzsp
        | exact hwf.node_len z hzsp
        | exact hwf.node_refs z hzsp
        | exact hwf.node_tags z hzsp
  obtain ⟨t', l₁c', nc', hrun, hinv0, hkey, hval⟩ :=
    unlinkLevels_spec prev hhH hprev hnotin hnodup n.height
      (s.setNode tAddr m) l₁ m hh1 le_rfl hinv₀
  -- assemble `unlink`
  have hunlink : (s.setNode tAddr m).unlink tAddr n.height prev =
      some ({ t' with len := t'.len - 1 }, .ok ()) := by
    simp only [SkipList.unlink, Option.bind_eq_bind, hrun, Option.some_bind]
  -- the final well-formed state
  have hsig'' : (l₁c' ++ l₂).map nodeSig = (l₁ ++ l₂).map nodeSig := by
    rw [List.map_append, List.map_append, hinv0.sig]
  have hmemof : ∀ z ∈ l₁ ++ l₂, z ∈ sp := by
    intro z hz
    rw [hsp]
    rcases List.mem_append.mp hz with hz | hz
    · exact List.mem_append_left _ hz
    · exact List.mem_append_right _ (List.mem_cons_of_mem _ hz)
  have hwf'' : WF { t' with len := t'.len - 1 } (l₁c' ++ l₂) := by
    refine ⟨hinv0.head_len, hinv0.head_tag, fun i => hinv0.chains_hi i (by omega),
      hinv0.node_at, hinv0.node_har, ?_, ?_, hinv0.node_len, hinv0.node_refs,
      hinv0.node_tags, ?_, ?_, ?_, ?_, ?_, ?_, ?_⟩
    · intro z hz
      obtain ⟨w, hw, _, _, _, hh⟩ := sig_mem hsig'' hz
      rw [hh]
      exact hwf.node_hlb w (hmemof w hw)
    · intro z hz
      obtain ⟨w, hw, _, _, _, hh⟩ := sig_mem hsig'' hz
      rw [hh]
      exact hwf.node_hub w (hmemof w hw)
    · -- sorted
      refine sigEq_sorted hsig''.symm ?_
      have := hwf.sorted
      rw [hsp] at this
      exact this.sublist (by simp)
    · -- nodup
      have hfst : (l₁c' ++ l₂).map Prod.fst = (l₁ ++ l₂).map Prod.fst :=
        sigEq_fst hsig''
      rw [hfst]
      exact hnodup
    · -- fresh
      intro z hz
      obtain ⟨w, hw, ha, _, _, _⟩ := sig_mem hsig'' hz
      rw [ha]
      show w.1 < t'.nextAddr
      rw [hinv0.scal_next]
      exact hwf.fresh w (hmemof w hw)
    · -- len_eq
      show t'.len - 1 = (l₁c' ++ l₂).length
      rw [hinv0.scal_len, hwf.len_eq, hsp]
      have hl : l₁c'.length = l₁.length := by
        have := congrArg List.length hinv0.sig
        simpa using this
      simp [hl]
    · show 1 ≤ t'.maxHeight
      rw [hinv0.scal_maxH]
      exact hwf.maxH_lb
    · show t'.maxHeight ≤ HEIGHT
      rw [hinv0.scal_maxH]
      exact hwf.maxH_ub
    · intro z hz
      obtain ⟨w, hw, _, _, _, hh⟩ := sig_mem hsig'' hz
      rw [hh]
      show w.2.height ≤ t'.maxHeight
      rw [hinv0.scal_maxH]
      exact hwf.maxH_ge w (hmemof w hw)
  refine ⟨{ t' with len := t'.len - 1 }, l₁c' ++ l₂, nc', hunlink, hwf'', hsig'',
    hinv0.node_c, by rw [hkey, hmk], by rw [hval, hmv],
    by show t'.len - 1 = s.len - 1; rw [hinv0.scal_len],
    hinv0.scal_maxH, hinv0.scal_seed, hinv0.scal_next⟩

theorem SkipList.setNode_setNode (s : SkipList K V) (a : Addr)
    (n₁ n₂ : Node K V) : (s.setNode a n₁).setNode a n₂ = s.setNode a n₂ := by
  unfold SkipList.setNode
  congr 1
  funext a'
  by_cases h : a' = a <;> simp [h]

theorem sigEq_spineTarget [LinearOrder K] {la lb : Spine K V}
    (h : la.map nodeSig = lb.map nodeSig) (k : K) :
    spineTarget k la = spineTarget k lb := by
  have hge := sigEq_gePart h k
  unfold spineTarget
  rcases h1 : gePart k la with _ | ⟨y, ys⟩ <;>
    rcases h2 : gePart k lb with _ | ⟨w, ws⟩
  · rfl
  · rw [h1, h2] at hge
    simp at hge
  · rw [h1, h2] at hge
    simp at hge
  · rw [h1, h2] at hge
    simp only [List.map_cons, List.cons.injEq] at hge
    have hyw : y.1 = w.1 ∧ y.2.key = w.2.key := by
      have := hge.1
      simp only [nodeSig, Prod.ext_iff] at this
      exact ⟨this.1, this.2.1⟩
    simp only [hyw.1, hyw.2]

theorem spineTarget_none_of_no_key [LinearOrder K] {sp : Spine K V} {k : K}
    (h : ∀ z ∈ sp, z.2.key ≠ k) : spineTarget k sp = none := by
  unfold spineTarget
  rcases hge : gePart k sp with _ | ⟨y, ys⟩
  · rfl
  · have hy : y ∈ sp := by
      have hsub : List.Sublist (gePart k sp) sp := by
        unfold gePart
        exact List.dropWhile_sublist _
      exact hsub.subset (by rw [hge]; exact List.mem_cons_self y ys)
    simp only [if_neg (h y hy)]

/-- `remove(k)`: on a well-formed quiescent state, a target-less search
returns `None` leaving the state untouched; a found target is removed,
tagged, unlinked from all its levels and returned, the surviving spine
keeping every other node. -/
theorem remove_spec [LinearOrder K] {s : SkipList K V} {sp : Spine K V} (k : K)
    (hwf : WF s sp) {fuel : Nat} (hfuel : findFuel sp ≤ fuel) :
    (spineTarget k sp = none → s.remove k fuel = some (s, none)) ∧
    (∀ tAddr, spineTarget k sp = some tAddr →
      ∃ n l₂ s'' sp'', sp = ltPart k sp ++ (tAddr, n) :: l₂ ∧ n.key = k ∧
        s.remove k fuel = some (s'', some (k, n.val)) ∧
        WF s'' sp'' ∧ sp''.map nodeSig = (ltPart k sp ++ l₂).map nodeSig ∧
        spineTarget k sp'' = none ∧
        s''.len = s.len - 1 ∧ s''.maxHeight = s.maxHeight ∧
        s''.seed = s.seed ∧ s''.nextAddr = s.nextAddr) := by
  obtain ⟨prev', hfind, hplen, hpspec⟩ := find_spec k hwf hfuel
  constructor
  · intro hnone
    rw [hnone] at hfind
    simp only [SkipList.remove, Option.bind_eq_bind, hfind, Option.some_bind]
  · intro tAddr htgt
    obtain ⟨n, l₂, hk, hsp⟩ := spineTarget_some htgt
    have hmem : (tAddr, n) ∈ sp := by rw [hsp]; simp
    have hheapn : s.heap tAddr = some n := hwf.node_at _ hmem
    have hrem : n.removed = false := wf_removed (z := (tAddr, n)) hwf hmem
    have hsr := Node.setRemoved_of_not_removed hrem
    have hkeys : (∀ w ∈ ltPart k sp, w.2.key < n.key) ∧
        (∀ w ∈ l₂, n.key < w.2.key) := by
      have h0 : (ltPart k sp ++ (tAddr, n) :: l₂).Pairwise
          (fun x y => x.2.key < y.2.key) := by
        rw [← hsp]
        exact hwf.sorted
      exact sorted_split_keys (z := (tAddr, n)) h0
    -- the removed-and-tagged version
    have ht₁h : ({ n with har := n.har ||| REMOVED_MASK } : Node K V).height =
        n.height := by
      show harHeight (n.har ||| REMOVED_MASK) = harHeight n.har
      exact harHeight_lor_mask n.har
    have ht₁len : ({ n with har := n.har ||| REMOVED_MASK } : Node K V).height ≤
        ({ n with har := n.har ||| REMOVED_MASK } : Node K V).levels.length := by
      rw [ht₁h]
      show n.height ≤ n.levels.length
      rw [hwf.node_len _ hmem]
    have ht₁tags : ∀ l, l < ({ n with har := n.har ||| REMOVED_MASK } : Node K V).height →
        (({ n with har := n.har ||| REMOVED_MASK } : Node K V).level l).tag = 0 := by
      intro l _
      exact hwf.node_tags _ hmem l
    rcases htlf : Node.tagLevelsFrom
        ({ n with har := n.har ||| REMOVED_MASK } : Node K V) 1
        (({ n with har := n.har ||| REMOVED_MASK } : Node K V).height)
      with ⟨t₂, r₂⟩
    obtain ⟨hok, hcells, hlen₂⟩ := Node.tagLevelsFrom_ok 1 _ _ ht₁len ht₁tags
    rw [htlf] at hok hcells hlen₂
    have hfields := Node.tagLevelsFrom_fields 1
      ({ n with har := n.har ||| REMOVED_MASK } : Node K V).height
      { n with har := n.har ||| REMOVED_MASK }
    rw [htlf] at hfields
    have ht₂key : t₂.key = n.key := hfields.1.1
    have ht₂val : t₂.val = n.val := hfields.1.2
    have ht₂har : t₂.har = n.har ||| REMOVED_MASK := hfields.2.1
    have ht₂refs : t₂.refs = n.refs := hfields.2.2
    have ht₂h : t₂.height = n.height := by
      show harHeight t₂.har = _
      rw [ht₂har]
      exact harHeight_lor_mask n.har
    have ht₂p : ∀ i, (t₂.level i).ptr = (n.level i).ptr := by
      intro i
      rw [hcells i]
      by_cases hi : i < ({ n with har := n.har ||| REMOVED_MASK } : Node K V).height
      · rw [if_pos hi]
        rfl
      · rw [if_neg hi]
        rfl
    have htl : ({ n with har := n.har ||| REMOVED_MASK } : Node K V).tagLevels 1 =
        (t₂, .ok (t₂.height - 1)) := by
      have hok' : r₂ = .ok () := by simpa using hok
      unfold Node.tagLevels
      rw [htlf, hok']
      rfl
    -- the unlink run
    obtain ⟨s'', sp'', nFin, hunlink, hwf'', hsig'', hheapFin, hFk, hFv, hlen'',
        hmaxH'', hseed'', hnext''⟩ :=
      unlink_spec hwf hsp (m := t₂) ht₂h ht₂refs (ht₂key.trans rfl)
        (ht₂val.trans rfl) ht₂p prev'
        (fun j hj => by
          rw [hpspec j (by
            have hhub : n.height ≤ HEIGHT := hwf.node_hub _ hmem
            omega)]
          have := prevPair_at_key hsp hwf.sorted hj
          rw [hk] at this
          rw [this])
    have hnokey'' : spineTarget k sp'' = none := by
      rw [sigEq_spineTarget hsig'' k]
      apply spineTarget_none_of_no_key
      intro z hz
      rcases List.mem_append.mp hz with hz1 | hz2
      · have := List.mem_takeWhile_imp hz1
        simp at this
        exact ne_of_lt this
      · have := hkeys.2 z hz2
        rw [hk] at this
        exact (ne_of_lt this).symm
    refine ⟨n, l₂, s'', sp'', hsp, hk, ?_, hwf'', hsig'', hnokey'', hlen'',
      hmaxH'', hseed'', hnext''⟩
    -- run the code of remove
    simp only [SkipList.remove, Option.bind_eq_bind, hfind, Option.some_bind,
      htgt, hheapn, hsr, htl]
    rw [SkipList.setNode_setNode]
    rw [ht₁h]
    simp only [hunlink, Option.some_bind]
    rw [ht₂key, ht₂val, hk]
    rfl

/-- Invariant of the bottom-up `link_nodes` level loop: levels below `i`
already run through the new node, levels at and above do not yet; the new
node's reference count equals the number of levels already linked, its
cells below `i` hold the recorded successors and the ones above are still
null. -/
structure LinkInv [LinearOrder K] (base : SkipList K V) (lt gep : Spine K V)
    (newAddr : Addr) (hgt : Nat) (k : K) (v : V)
    (t : SkipList K V) (ltc : Spine K V) (nn : Node K V) (i : Nat) : Prop where
  scal_len : t.len = base.len
  scal_maxH : t.maxHeight = base.maxHeight
  scal_seed : t.seed = base.seed
  scal_next : t.nextAddr = base.nextAddr
  head_len : t.headLevels.length = HEIGHT
  head_tag : ∀ j, (t.headLevel j).tag = 0
  sig : ltc.map nodeSig = lt.map nodeSig
  node_new : t.heap newAddr = some nn
  nn_key : nn.key = k
  nn_val : nn.val = v
  nn_har : nn.har = hgt
  nn_refs : nn.refs = i
  nn_len : nn.levels.length = hgt
  nn_cells : ∀ j, nn.level j =
    if j < i then ⟨((spineLevel j gep).head?).map Prod.fst, 0⟩ else TPtr.null
  chains_lo : ∀ j, j < i → IsChain j (t.headLevel j).loadPtr
    (spineLevel j (ltc ++ (newAddr, nn) :: gep))
  chains_hi : ∀ j, i ≤ j → IsChain j (t.headLevel j).loadPtr
    (spineLevel j (ltc ++ gep))
  node_at : ∀ z ∈ ltc ++ gep, t.heap z.1 = some z.2
  node_har : ∀ z ∈ ltc ++ gep, z.2.har = z.2.height
  node_len2 : ∀ z ∈ ltc ++ gep, z.2.levels.length = z.2.height
  node_refs : ∀ z ∈ ltc ++ gep, z.2.refs = z.2.height
  node_tags : ∀ z ∈ ltc ++ gep, ∀ j, (z.2.level j).tag = 0
  frame : ∀ a, a ∉ (lt ++ gep).map Prod.fst → a ≠ newAddr →
    t.heap a = base.heap a

set_option maxRecDepth 4000 in
/-- One full run of the bottom-up publish loop: every own-cell and
predecessor CAS succeeds and the loop ends with the node linked at all of
its levels and its reference count equal to its height. -/
theorem linkNodesLoop_spec [LinearOrder K] {base : SkipList K V}
    {lt gep : Spine K V} {newAddr : Addr} {hgt : Nat} {k : K} {v : V}
    (prev : List (Loc × Option Addr))
    (hg1 : 1 ≤ hgt) (hgH : hgt ≤ HEIGHT)
    (hprev : ∀ j, j < hgt → prev.getD j (none, none) =
      (((spineLevel j lt).getLast?).map Prod.fst,
       ((spineLevel j gep).head?).map Prod.fst))
    (hkge : ∀ z ∈ gep, k < z.2.key)
    (hnotin : newAddr ∉ (lt ++ gep).map Prod.fst)
    (hnodup : ((lt ++ gep).map Prod.fst).Nodup) :
    ∀ (d i : Nat) (t : SkipList K V) (ltc : Spine K V) (nn : Node K V),
    i + d = hgt →
    LinkInv base lt gep newAddr hgt k v t ltc nn i →
    ∃ t' ltc' nn', linkNodesLoop t newAddr prev i hgt = some (t', .ok ()) ∧
      LinkInv base lt gep newAddr hgt k v t' ltc' nn' hgt := by
  have hg30 : hgt < 2 ^ 30 := lt_of_le_of_lt hgH (by rw [HEIGHT_eq]; norm_num)
  have hg31 : hgt < 2 ^ 31 := lt_of_le_of_lt hgH (by rw [HEIGHT_eq]; norm_num)
  intro d
  induction d with
  | zero =>
    intro i t ltc nn hid hinv
    have hieq : i = hgt := by omega
    subst hieq
    refine ⟨t, ltc, nn, ?_, hinv⟩
    rw [linkNodesLoop.eq_def]
    simp only [dif_pos (le_refl i)]
    rfl
  | succ d ih =>
    intro i t ltc nn hid hinv
    have hi : i < hgt := by omega
    have hfst : ltc.map Prod.fst = lt.map Prod.fst := sigEq_fst hinv.sig
    have hnotin' : newAddr ∉ (ltc ++ gep).map Prod.fst := by
      rw [List.map_append, hfst, ← List.map_append]
      exact hnotin
    have hnodup' : ((ltc ++ gep).map Prod.fst).Nodup := by
      rw [List.map_append, hfst, ← List.map_append]
      exact hnodup
    have hltcnd : (ltc.map Prod.fst).Nodup := by
      rw [List.map_append] at hnodup'
      exact (List.nodup_append.mp hnodup').1
    have hdisj : ∀ a ∈ ltc.map Prod.fst, a ∉ gep.map Prod.fst := by
      rw [List.map_append] at hnodup'
      intro a ha hb
      exact (List.nodup_append.mp hnodup').2.2 ha hb
    have hheight : nn.height = hgt := by
      show harHeight nn.har = hgt
      rw [hinv.nn_har]
      exact harHeight_of_lt hg30
    have hremoved : nn.removed = false := by
      show harRemoved nn.har = false
      rw [hinv.nn_har]
      exact harRemoved_of_lt hg31
    have hcelli : nn.level i = TPtr.null := by
      rw [hinv.nn_cells i, if_neg (by omega)]
    -- the recorded pair at this level
    rcases hgd : prev.getD i (none, none) with ⟨prevLoc, nextPtr⟩
    have hpair := hprev i hi
    rw [hgd] at hpair
    have hploc : prevLoc = ((spineLevel i ltc).getLast?).map Prod.fst := by
      have h1 : prevLoc = ((spineLevel i lt).getLast?).map Prod.fst := by
        have := congrArg Prod.fst hpair
        simpa using this
      rw [h1]
      exact (sigEq_getLast_fst (sigEq_spineLevel hinv.sig i)).symm
    have hnextp : nextPtr = ((spineLevel i gep).head?).map Prod.fst := by
      have := congrArg Prod.snd hpair
      simpa using this
    -- the predecessor's cell at this level
    have hchaini := hinv.chains_hi i (le_refl i)
    rw [spineLevel_append] at hchaini
    obtain ⟨cell, hcell, hcptr, hcid⟩ := cell_of_chain i _ _ hchaini
      (fun z hz => hinv.node_at z (List.mem_append_left _ (spineLevel_subset hz)))
    have hcptr' : cell.ptr = nextPtr := by rw [hnextp]; exact hcptr
    have htagc : cell.tag = 0 := by
      rcases hcid with ⟨_, hc⟩ | ⟨x, _, hxmem, hc⟩
      · rw [hc]
        exact hinv.head_tag i
      · rw [hc]
        exact hinv.node_tags x (List.mem_append_left _ (spineLevel_subset hxmem)) i
    -- the new node's own CAS
    have howncas : (nn.level i).compareExchange (nn.level i).loadPtr nextPtr =
        (⟨nextPtr, 0⟩, .ok none) := by
      rw [hcelli]
      simp [TPtr.compareExchange, TPtr.loadPtr, TPtr.null]
    have hilen : i < nn.levels.length := by rw [hinv.nn_len]; omega
    -- the refs bump after the own-cell write always succeeds
    have hrC : ∀ c : TPtr, (nn.setLevel i c).refs = i := fun _ => hinv.nn_refs
    have haddrC : ∀ c : TPtr, ((nn.setLevel i c).addRef).1 =
        { nn.setLevel i c with refs := i + 1 } := by
      intro c
      unfold Node.addRef
      rw [hrC c]
      have h32 : (i + 1) % 2 ^ 32 = i + 1 := Nat.mod_eq_of_lt (by omega)
      rw [h32]
    have htryC : i ≠ 0 → ∀ c : TPtr, (nn.setLevel i c).tryAddRef =
        ({ nn.setLevel i c with refs := i + 1 }, .ok (i + 1)) := by
      intro hi0 c
      unfold Node.tryAddRef
      rw [hrC c, if_neg hi0]
    have hh₂ : ({ nn.setLevel i ⟨nextPtr, 0⟩ with refs := i + 1 } : Node K V).height
        = hgt := by
      show harHeight nn.har = hgt
      rw [hinv.nn_har]
      exact harHeight_of_lt hg30
    rcases hcid with ⟨hlastA, hcellhead⟩ | ⟨x, hlastA, hxA, hcellx⟩
    · -- the predecessor at this level is the Head
      have hAnil : spineLevel i ltc = [] := by
        rwa [List.getLast?_eq_none_iff] at hlastA
      have hploc' : prevLoc = none := by rw [hploc, hlastA]; rfl
      subst hploc'
      have hclt : i < t.headLevels.length := by
        rw [hinv.head_len]
        omega
      rw [hlastA] at hcell
      simp only [Option.map_none'] at hcell
      have hcellA : (t.setNode newAddr
          { nn.setLevel i ⟨nextPtr, 0⟩ with refs := i + 1 }).locCell none i =
          some cell := hcell
      have hpredcas : cell.compareExchange nextPtr (some newAddr) =
          (⟨some newAddr, 0⟩, .ok cell.ptr) := by
        simp [TPtr.compareExchange, hcptr', htagc]
      have hinv' : LinkInv base lt gep newAddr hgt k v
          { t.setNode newAddr { nn.setLevel i ⟨nextPtr, 0⟩ with refs := i + 1 } with
            headLevels := t.headLevels.set i ⟨some newAddr, 0⟩ }
          ltc { nn.setLevel i ⟨nextPtr, 0⟩ with refs := i + 1 } (i + 1) := by
        refine ⟨hinv.scal_len, hinv.scal_maxH, hinv.scal_seed, hinv.scal_next,
          ?_, ?_, hinv.sig, SkipList.setNode_heap_self _ _ _, hinv.nn_key,
          hinv.nn_val, hinv.nn_har, rfl, ?_, ?_, ?_, ?_, ?_, hinv.node_har,
          hinv.node_len2, hinv.node_refs, hinv.node_tags, ?_⟩
        · show (t.headLevels.set i _).length = HEIGHT
          rw [List.length_set]
          exact hinv.head_len
        · intro j
          show ((t.headLevels.set i _).getD j TPtr.null).tag = 0
          by_cases hij : i = j
          · subst hij
            rw [getD_set_self _ _ _ _ hclt]
          · rw [getD_set_ne _ _ _ hij]
            exact hinv.head_tag j
        · show (nn.levels.set i _).length = hgt
          rw [List.length_set]
          exact hinv.nn_len
        · intro j
          by_cases hji : j = i
          · subst hji
            rw [if_pos (by omega)]
            show (nn.setLevel j ⟨nextPtr, 0⟩).level j = _
            rw [nn.level_setLevel_self j _ hilen, hnextp]
          · show (nn.setLevel i ⟨nextPtr, 0⟩).level j = _
            rw [nn.level_setLevel_ne _ (fun h => hji h.symm), hinv.nn_cells j]
            by_cases hjlt : j < i
            · rw [if_pos hjlt, if_pos (by omega)]
            · rw [if_neg hjlt, if_neg (by omega)]
        · -- chains_lo
          intro j hj
          by_cases hji : j = i
          · subst hji
            have hheadj : ({ t.setNode newAddr
                { nn.setLevel j ⟨nextPtr, 0⟩ with refs := j + 1 } with
                headLevels := t.headLevels.set j ⟨some newAddr, 0⟩ }).headLevel j =
                ⟨some newAddr, 0⟩ := by
              show (t.headLevels.set j _).getD j TPtr.null = _
              rw [getD_set_self _ _ _ _ hclt]
            rw [hheadj, spineLevel_append, hAnil, List.nil_append]
            have hcons : spineLevel j ((newAddr,
                { nn.setLevel j ⟨nextPtr, 0⟩ with refs := j + 1 }) :: gep) =
                (newAddr, { nn.setLevel j ⟨nextPtr, 0⟩ with refs := j + 1 }) ::
                  spineLevel j gep := by
              unfold spineLevel
              rw [List.filter_cons_of_pos (by simp [hh₂]; omega)]
            rw [hcons]
            refine ⟨rfl, ?_⟩
            have hc2 : ({ nn.setLevel j ⟨nextPtr, 0⟩ with refs := j + 1 } :
                Node K V).level j = ⟨nextPtr, 0⟩ := by
              show (nn.setLevel j ⟨nextPtr, 0⟩).level j = _
              exact nn.level_setLevel_self j _ hilen
            rw [hc2]
            show IsChain j nextPtr (spineLevel j gep)
            have hold := hchaini
            rw [hAnil, List.nil_append] at hold
            have hhp := isChain_head hold
            rw [hnextp, ← hhp]
            exact hold
          · have hold := hinv.chains_lo j (by omega)
            have hhead : ({ t.setNode newAddr
                { nn.setLevel i ⟨nextPtr, 0⟩ with refs := i + 1 } with
                headLevels := t.headLevels.set i ⟨some newAddr, 0⟩ }).headLevel j =
                t.headLevel j := by
              show (t.headLevels.set i _).getD j TPtr.null = _
              rw [getD_set_ne _ _ _ (fun h => hji h.symm)]
              rfl
            rw [hhead]
            refine isChain_congr ?_ hold
            rw [spineLevel_append, spineLevel_append]
            refine List.rel_append (forall₂_refl_cell j _) ?_
            unfold spineLevel
            by_cases hjh : j < hgt
            · rw [List.filter_cons_of_pos (by simp only [decide_eq_true_eq, hheight]; omega),
                List.filter_cons_of_pos (by simp only [decide_eq_true_eq, hh₂]; omega)]
              refine List.Forall₂.cons ⟨rfl, ?_⟩ (forall₂_refl_cell j _)
              show (nn.level j).ptr = ((nn.setLevel i ⟨nextPtr, 0⟩).level j).ptr
              rw [nn.level_setLevel_ne _ (fun h => hji h.symm)]
            · rw [List.filter_cons_of_neg (by simp only [decide_eq_true_eq, hheight]; omega),
                List.filter_cons_of_neg (by simp only [decide_eq_true_eq, hh₂]; omega)]
              exact forall₂_refl_cell j _
        · -- chains_hi
          intro j hj
          have hold := hinv.chains_hi j (by omega)
          have hhead : ({ t.setNode newAddr
              { nn.setLevel i ⟨nextPtr, 0⟩ with refs := i + 1 } with
              headLevels := t.headLevels.set i ⟨some newAddr, 0⟩ }).headLevel j =
              t.headLevel j := by
            show (t.headLevels.set i _).getD j TPtr.null = _
            rw [getD_set_ne _ _ _ (by omega)]
            rfl
          rw [hhead]
          exact hold
        · -- node_at
          intro z hz
          have hne : z.1 ≠ newAddr := fun he =>
            hnotin' (he ▸ List.mem_map_of_mem Prod.fst hz)
          show (t.setNode newAddr _).heap z.1 = some z.2
          rw [SkipList.setNode_heap_ne _ _ hne]
          exact hinv.node_at z hz
        · -- frame
          intro a ha hb
          show (t.setNode newAddr _).heap a = base.heap a
          rw [SkipList.setNode_heap_ne _ _ hb]
          exact hinv.frame a ha hb
      have hstep : linkNodesLoop t newAddr prev i hgt =
          linkNodesLoop
            { t.setNode newAddr { nn.setLevel i ⟨nextPtr, 0⟩ with refs := i + 1 } with
              headLevels := t.headLevels.set i ⟨some newAddr, 0⟩ }
            newAddr prev (i + 1) hgt := by
        conv_lhs => rw [linkNodesLoop.eq_def]
        simp only [dif_neg (by omega : ¬ hgt ≤ i)]
        simp only [hgd, Option.bind_eq_bind, hinv.node_new, Option.some_bind,
          hremoved, Bool.false_eq_true, if_false, howncas,
          SkipList.setNode_heap_self, SkipList.setNode_setNode]
        rcases hB : spineLevel i gep with _ | ⟨y, ys⟩
        · have hnx : nextPtr = none := by rw [hnextp, hB]; rfl
          rw [hnx] at hcellA hpredcas ⊢
          simp only [Option.pure_def, Option.bind_eq_bind, Option.some_bind,
            Bool.false_eq_true, if_false, haddrC]
          by_cases hi0 : i = 0
          · rw [if_pos hi0]
            simp only [Option.pure_def, Option.bind_eq_bind, Option.some_bind,
              Bool.false_eq_true, if_false, hcellA, hpredcas,
              SkipList.setLocCell, SkipList.setNode_setNode]
            rfl
          · rw [if_neg hi0, htryC hi0]
            simp only [Option.pure_def, Option.bind_eq_bind, Option.some_bind,
              Bool.false_eq_true, if_false, hcellA, hpredcas,
              SkipList.setLocCell, SkipList.setNode_setNode]
            rfl
        · have hy : y ∈ gep :=
            spineLevel_subset (by rw [hB]; exact List.mem_cons_self y ys)
          have hheapy : t.heap y.1 = some y.2 :=
            hinv.node_at y (List.mem_append_right _ hy)
          have hky : decide (y.2.key ≤ nn.key) = false := by
            rw [hinv.nn_key]
            simp only [decide_eq_false_iff_not]
            exact not_le.mpr (hkge y hy)
          have hnx : nextPtr = some y.1 := by rw [hnextp, hB]; rfl
          rw [hnx] at hcellA hpredcas ⊢
          simp only [Option.pure_def, Option.bind_eq_bind, hheapy,
            Option.some_bind, hky, Bool.false_and, Bool.false_eq_true, if_false,
            haddrC]
          by_cases hi0 : i = 0
          · rw [if_pos hi0]
            simp only [Option.pure_def, Option.bind_eq_bind, Option.some_bind,
              Bool.false_eq_true, if_false, hcellA, hpredcas,
              SkipList.setLocCell, SkipList.setNode_setNode]
            rfl
          · rw [if_neg hi0, htryC hi0]
            simp only [Option.pure_def, Option.bind_eq_bind, Option.some_bind,
              Bool.false_eq_true, if_false, hcellA, hpredcas,
              SkipList.setLocCell, SkipList.setNode_setNode]
            rfl
      obtain ⟨t', ltc'', nn'', hrun, hinv2⟩ := ih (i + 1) _ ltc
        { nn.setLevel i ⟨nextPtr, 0⟩ with refs := i + 1 } (by omega) hinv'
      exact ⟨t', ltc'', nn'', hstep.trans hrun, hinv2⟩
    · -- the predecessor at this level is the last node below the key
      have hxltc : x ∈ ltc := spineLevel_subset hxA
      have hploc' : prevLoc = some x.1 := by rw [hploc, hlastA]; rfl
      subst hploc'
      have hcx : i < x.2.height := by
        have := (List.mem_filter.mp hxA).2
        simpa using this
      have hcxlen : i < x.2.levels.length := by
        rw [hinv.node_len2 x (List.mem_append_left _ hxltc)]
        exact hcx
      have hxnew : x.1 ≠ newAddr := fun he =>
        hnotin' (he ▸ List.mem_map_of_mem Prod.fst (List.mem_append_left _ hxltc))
      have hheapx : t.heap x.1 = some x.2 :=
        hinv.node_at x (List.mem_append_left _ hxltc)
      have hheapxA : (t.setNode newAddr
          { nn.setLevel i ⟨nextPtr, 0⟩ with refs := i + 1 }).heap x.1 =
          some x.2 := by
        rw [SkipList.setNode_heap_ne _ _ hxnew]
        exact hheapx
      have hcellA : (t.setNode newAddr
          { nn.setLevel i ⟨nextPtr, 0⟩ with refs := i + 1 }).locCell (some x.1) i =
          some cell := by
        simp only [SkipList.locCell, hheapxA, Option.map_some', Option.some_inj]
        exact hcellx.symm
      have hpredcas : cell.compareExchange nextPtr (some newAddr) =
          (⟨some newAddr, 0⟩, .ok cell.ptr) := by
        simp [TPtr.compareExchange, hcptr', htagc]
      have hsetloc : (t.setNode newAddr
          { nn.setLevel i ⟨nextPtr, 0⟩ with refs := i + 1 }).setLocCell (some x.1) i
          ⟨some newAddr, 0⟩ =
          some ((t.setNode newAddr
            { nn.setLevel i ⟨nextPtr, 0⟩ with refs := i + 1 }).setNode x.1
            (x.2.setLevel i ⟨some newAddr, 0⟩)) := by
        simp [SkipList.setLocCell, hheapxA]
      have hltcnd2 : (ltc.map Prod.fst).Nodup := hltcnd
      have hinv' : LinkInv base lt gep newAddr hgt k v
          (SkipList.setNode
            (t.setNode newAddr { nn.setLevel i ⟨nextPtr, 0⟩ with refs := i + 1 })
            x.1 (x.2.setLevel i ⟨some newAddr, 0⟩))
          (updateCell ltc x.1 i ⟨some newAddr, 0⟩)
          { nn.setLevel i ⟨nextPtr, 0⟩ with refs := i + 1 } (i + 1) := by
        refine ⟨hinv.scal_len, hinv.scal_maxH, hinv.scal_seed, hinv.scal_next,
          hinv.head_len, hinv.head_tag, (updateCell_sig _ _ _ _).trans hinv.sig,
          ?_, hinv.nn_key, hinv.nn_val, hinv.nn_har, rfl, ?_, ?_, ?_, ?_, ?_,
          ?_, ?_, ?_, ?_, ?_⟩
        · rw [SkipList.setNode_heap_ne _ _ (fun h => hxnew h.symm)]
          exact SkipList.setNode_heap_self _ _ _
        · show (nn.levels.set i _).length = hgt
          rw [List.length_set]
          exact hinv.nn_len
        · intro j
          by_cases hji : j = i
          · subst hji
            rw [if_pos (by omega)]
            show (nn.setLevel j ⟨nextPtr, 0⟩).level j = _
            rw [nn.level_setLevel_self j _ hilen, hnextp]
          · show (nn.setLevel i ⟨nextPtr, 0⟩).level j = _
            rw [nn.level_setLevel_ne _ (fun h => hji h.symm), hinv.nn_cells j]
            by_cases hjlt : j < i
            · rw [if_pos hjlt, if_pos (by omega)]
            · rw [if_neg hjlt, if_neg (by omega)]
        · -- chains_lo
          intro j hj
          by_cases hji : j = i
          · subst hji
            obtain ⟨A₀, hA⟩ := exists_concat_of_getLast? hlastA
            have hsubl : List.Sublist ((spineLevel j ltc).map Prod.fst)
                (ltc.map Prod.fst) :=
              (List.filter_sublist ltc).map Prod.fst
            have hAnd : ((spineLevel j ltc).map Prod.fst).Nodup :=
              hltcnd2.sublist hsubl
            rw [hA, List.map_append] at hAnd
            have hxnA₀ : x.1 ∉ A₀.map Prod.fst := by
              rcases List.nodup_append.mp hAnd with ⟨_, _, hdj⟩
              intro hmem
              exact hdj hmem (by simp)
            have hA' : updateCell (spineLevel j ltc) x.1 j ⟨some newAddr, 0⟩ =
                A₀ ++ [(x.1, x.2.setLevel j ⟨some newAddr, 0⟩)] := by
              rw [hA, updateCell_append, updateCell_not_mem hxnA₀]
              have := updateCell_singleton_self x j (⟨some newAddr, 0⟩ : TPtr)
              rw [this]
            rw [hA, isChain_append_iff] at hchaini
            obtain ⟨hseg, hrest⟩ := hchaini
            have hhp := isChain_head hrest
            rw [isChainSeg_snoc] at hseg
            show IsChain j ((t.headLevel j).loadPtr)
              (spineLevel j (updateCell ltc x.1 j _ ++
                (newAddr, { nn.setLevel j ⟨nextPtr, 0⟩ with refs := j + 1 }) :: gep))
            rw [spineLevel_append, spineLevel_updateCell, hA']
            have hcons : spineLevel j ((newAddr,
                { nn.setLevel j ⟨nextPtr, 0⟩ with refs := j + 1 }) :: gep) =
                (newAddr, { nn.setLevel j ⟨nextPtr, 0⟩ with refs := j + 1 }) ::
                  spineLevel j gep := by
              unfold spineLevel
              rw [List.filter_cons_of_pos (by simp [hh₂]; omega)]
            rw [hcons, isChain_append_iff]
            constructor
            · rw [isChainSeg_snoc]
              exact ⟨hseg.1, hseg.2⟩
            · rw [chainPtr_append]
              have hcp1 : chainPtr j (chainPtr j ((t.headLevel j).loadPtr) A₀)
                  [(x.1, x.2.setLevel j ⟨some newAddr, 0⟩)] =
                  ((x.2.setLevel j ⟨some newAddr, 0⟩).level j).ptr := by
                unfold chainPtr
                simp
              rw [hcp1, x.2.level_setLevel_self j _ hcxlen]
              refine ⟨rfl, ?_⟩
              have hc2 : ({ nn.setLevel j ⟨nextPtr, 0⟩ with refs := j + 1 } :
                  Node K V).level j = ⟨nextPtr, 0⟩ := by
                show (nn.setLevel j ⟨nextPtr, 0⟩).level j = _
                exact nn.level_setLevel_self j _ hilen
              rw [hc2]
              show IsChain j nextPtr (spineLevel j gep)
              rw [hnextp, ← hhp]
              exact hrest
          · have hold := hinv.chains_lo j (by omega)
            refine isChain_congr ?_ hold
            rw [spineLevel_append, spineLevel_append, spineLevel_updateCell]
            refine List.rel_append
              (forall₂_updateCell j _ x.1 i _ (fun h => hji h.symm)) ?_
            unfold spineLevel
            by_cases hjh : j < hgt
            · rw [List.filter_cons_of_pos (by simp only [decide_eq_true_eq, hheight]; omega),
                List.filter_cons_of_pos (by simp only [decide_eq_true_eq, hh₂]; omega)]
              refine List.Forall₂.cons ⟨rfl, ?_⟩ (forall₂_refl_cell j _)
              show (nn.level j).ptr = ((nn.setLevel i ⟨nextPtr, 0⟩).level j).ptr
              rw [nn.level_setLevel_ne _ (fun h => hji h.symm)]
            · rw [List.filter_cons_of_neg (by simp only [decide_eq_true_eq, hheight]; omega),
                List.filter_cons_of_neg (by simp only [decide_eq_true_eq, hh₂]; omega)]
              exact forall₂_refl_cell j _
        · -- chains_hi
          intro j hj
          have hold := hinv.chains_hi j (by omega)
          refine isChain_congr ?_ hold
          rw [spineLevel_append, spineLevel_append, spineLevel_updateCell]
          exact List.rel_append
            (forall₂_updateCell j _ x.1 i _ (by omega)) (forall₂_refl_cell j _)
        · -- node_at
          intro z hz
          rcases List.mem_append.mp hz with hz1 | hz2
          · obtain ⟨z₀, hz₀, hcase⟩ := mem_updateCell hz1
            rcases hcase with ⟨hzz, hne⟩ | ⟨hzx, hzv⟩
            · have hzn : z₀.1 ≠ newAddr := fun he => hnotin'
                (he ▸ List.mem_map_of_mem Prod.fst (List.mem_append_left _ hz₀))
              rw [hzz, SkipList.setNode_heap_ne _ _ hne,
                SkipList.setNode_heap_ne _ _ hzn]
              exact hinv.node_at z₀ (List.mem_append_left _ hz₀)
            · have hz₀x : z₀ = x := eq_of_mem_addr hltcnd2 hz₀ hxltc hzx
              rw [hzv, hz₀x]
              show ((t.setNode newAddr _).setNode x.1
                (x.2.setLevel i ⟨some newAddr, 0⟩)).heap x.1 =
                some (x.2.setLevel i ⟨some newAddr, 0⟩)
              exact SkipList.setNode_heap_self _ _ _
          · have hzn : z.1 ≠ newAddr := fun he => hnotin'
              (he ▸ List.mem_map_of_mem Prod.fst (List.mem_append_right _ hz2))
            have hzx : z.1 ≠ x.1 := by
              intro he
              exact hdisj x.1 (List.mem_map_of_mem Prod.fst hxltc)
                (he ▸ List.mem_map_of_mem Prod.fst hz2)
            rw [SkipList.setNode_heap_ne _ _ hzx, SkipList.setNode_heap_ne _ _ hzn]
            exact hinv.node_at z (List.mem_append_right _ hz2)
        · -- node_har
          intro z hz
          rcases List.mem_append.mp hz with hz1 | hz2
          · obtain ⟨z₀, hz₀, hcase⟩ := mem_updateCell hz1
            rcases hcase with ⟨hzz, _⟩ | ⟨hzx, hzv⟩
            · rw [hzz]
              exact hinv.node_har z₀ (List.mem_append_left _ hz₀)
            · rw [hzv]
              exact hinv.node_har z₀ (List.mem_append_left _ hz₀)
          · exact hinv.node_har z (List.mem_append_right _ hz2)
        · -- node_len2
          intro z hz
          rcases List.mem_append.mp hz with hz1 | hz2
          · obtain ⟨z₀, hz₀, hcase⟩ := mem_updateCell hz1
            rcases hcase with ⟨hzz, _⟩ | ⟨hzx, hzv⟩
            · rw [hzz]
              exact hinv.node_len2 z₀ (List.mem_append_left _ hz₀)
            · rw [hzv]
              show (z₀.2.setLevel i _).levels.length = (z₀.2.setLevel i _).height
              rw [Node.setLevel_length, Node.setLevel_height]
              exact hinv.node_len2 z₀ (List.mem_append_left _ hz₀)
          · exact hinv.node_len2 z (List.mem_append_right _ hz2)
        · -- node_refs
          intro z hz
          rcases List.mem_append.mp hz with hz1 | hz2
          · obtain ⟨z₀, hz₀, hcase⟩ := mem_updateCell hz1
            rcases hcase with ⟨hzz, _⟩ | ⟨hzx, hzv⟩
            · rw [hzz]
              exact hinv.node_refs z₀ (List.mem_append_left _ hz₀)
            · rw [hzv]
              exact hinv.node_refs z₀ (List.mem_append_left _ hz₀)
          · exact hinv.node_refs z (List.mem_append_right _ hz2)
        · -- node_tags
          intro z hz j
          rcases List.mem_append.mp hz with hz1 | hz2
          · obtain ⟨z₀, hz₀, hcase⟩ := mem_updateCell hz1
            rcases hcase with ⟨hzz, _⟩ | ⟨hzx, hzv⟩
            · rw [hzz]
              exact hinv.node_tags z₀ (List.mem_append_left _ hz₀) j
            · have hz₀x : z₀ = x := eq_of_mem_addr hltcnd2 hz₀ hxltc hzx
              rw [hzv, hz₀x]
              by_cases hjc : j = i
              · rw [hjc]
                show ((x.2.setLevel i ⟨some newAddr, 0⟩).level i).tag = 0
                rw [x.2.level_setLevel_self i _ hcxlen]
              · show ((x.2.setLevel i ⟨some newAddr, 0⟩).level j).tag = 0
                rw [x.2.level_setLevel_ne _ (fun h => hjc h.symm)]
                exact hinv.node_tags x (List.mem_append_left _ hxltc) j
          · exact hinv.node_tags z (List.mem_append_right _ hz2) j
        · -- frame
          intro a ha hb
          have hax : a ≠ x.1 := by
            intro he
            apply ha
            rw [List.map_append]
            refine List.mem_append_left _ ?_
            rw [← hfst]
            exact he ▸ List.mem_map_of_mem Prod.fst hxltc
          rw [SkipList.setNode_heap_ne _ _ hax, SkipList.setNode_heap_ne _ _ hb]
          exact hinv.frame a ha hb
      have hstep : linkNodesLoop t newAddr prev i hgt =
          linkNodesLoop
            (SkipList.setNode
              (t.setNode newAddr { nn.setLevel i ⟨nextPtr, 0⟩ with refs := i + 1 })
              x.1 (x.2.setLevel i ⟨some newAddr, 0⟩))
            newAddr prev (i + 1) hgt := by
        conv_lhs => rw [linkNodesLoop.eq_def]
        simp only [dif_neg (by omega : ¬ hgt ≤ i)]
        simp only [hgd, Option.bind_eq_bind, hinv.node_new, Option.some_bind,
          hremoved, Bool.false_eq_true, if_false, howncas,
          SkipList.setNode_heap_self, SkipList.setNode_setNode]
        rcases hB : spineLevel i gep with _ | ⟨y, ys⟩
        · have hnx : nextPtr = none := by rw [hnextp, hB]; rfl
          rw [hnx] at hcellA hpredcas hsetloc ⊢
          simp only [Option.pure_def, Option.bind_eq_bind, Option.some_bind,
            Bool.false_eq_true, if_false, haddrC]
          by_cases hi0 : i = 0
          · rw [if_pos hi0]
            simp only [Option.pure_def, Option.bind_eq_bind, Option.some_bind,
              Bool.false_eq_true, if_false, hcellA, hpredcas, hsetloc,
              SkipList.setNode_setNode]
          · rw [if_neg hi0, htryC hi0]
            simp only [Option.pure_def, Option.bind_eq_bind, Option.some_bind,
              Bool.false_eq_true, if_false, hcellA, hpredcas, hsetloc,
              SkipList.setNode_setNode]
        · have hy : y ∈ gep :=
            spineLevel_subset (by rw [hB]; exact List.mem_cons_self y ys)
          have hheapy : t.heap y.1 = some y.2 :=
            hinv.node_at y (List.mem_append_right _ hy)
          have hky : decide (y.2.key ≤ nn.key) = false := by
            rw [hinv.nn_key]
            simp only [decide_eq_false_iff_not]
            exact not_le.mpr (hkge y hy)
          have hnx : nextPtr = some y.1 := by rw [hnextp, hB]; rfl
          rw [hnx] at hcellA hpredcas hsetloc ⊢
          simp only [Option.pure_def, Option.bind_eq_bind, hheapy,
            Option.some_bind, hky, Bool.false_and, Bool.false_eq_true, if_false,
            haddrC]
          by_cases hi0 : i = 0
          · rw [if_pos hi0]
            simp only [Option.pure_def, Option.bind_eq_bind, Option.some_bind,
              Bool.false_eq_true, if_false, hcellA, hpredcas, hsetloc,
              SkipList.setNode_setNode]
          · rw [if_neg hi0, htryC hi0]
            simp only [Option.pure_def, Option.bind_eq_bind, Option.some_bind,
              Bool.false_eq_true, if_false, hcellA, hpredcas, hsetloc,
              SkipList.setNode_setNode]
      obtain ⟨t', ltc'', nn'', hrun, hinv2⟩ := ih (i + 1) _
        (updateCell ltc x.1 i ⟨some newAddr, 0⟩)
        { nn.setLevel i ⟨nextPtr, 0⟩ with refs := i + 1 } (by omega) hinv'
      exact ⟨t', ltc'', nn'', hstep.trans hrun, hinv2⟩

theorem ltPart_keys_lt [LinearOrder K] {sp : Spine K V} {k : K} :
    ∀ z ∈ ltPart k sp, z.2.key < k := by
  intro z hz
  have := List.mem_takeWhile_imp hz
  simpa using this

theorem gePart_keys_gt [LinearOrder K] {sp : Spine K V} {k : K}
    (hs : sp.Pairwise (fun x y => x.2.key < y.2.key))
    (hnok : ∀ z ∈ sp, z.2.key ≠ k) :
    ∀ z ∈ gePart k sp, k < z.2.key := by
  intro z hz
  have hz' := hz
  unfold gePart at hz'
  rw [sorted_dropWhile_eq_filter k sp hs] at hz'
  have hmem := List.mem_filter.mp hz'
  have hge : ¬ z.2.key < k := by simpa using hmem.2
  have hne : z.2.key ≠ k := hnok z hmem.1
  rcases lt_trichotomy z.2.key k with h | h | h
  · exact absurd h hge
  · exact absurd h hne
  · exact h

theorem prevPair_parts [LinearOrder K] {sp : Spine K V} (k : K) (j : Nat)
    (hs : sp.Pairwise (fun x y => x.2.key < y.2.key)) :
    prevPair k j sp =
      (((spineLevel j (ltPart k sp)).getLast?).map Prod.fst,
       ((spineLevel j (gePart k sp)).head?).map Prod.fst) := by
  unfold prevPair
  rw [spineLevel_ltPart k j hs, spineLevel_gePart k j hs]

/-- The allocation and publication phase of `insert` on a state whose spine
carries no node with the key: the publish loop links the fresh node at all
of its levels on the first pass and the loop hands back `existing`
untouched.  `s₃` is the state after `gen_height` picked `hgt`. -/
theorem insert_publish [LinearOrder K] {s₂ : SkipList K V} {sp₂ : Spine K V}
    (k : K) (v : V) (hwf : WF s₂ sp₂) (hnok : ∀ z ∈ sp₂, z.2.key ≠ k)
    {prev : List (Loc × Option Addr)}
    (hpspec : ∀ j, j < HEIGHT → prev.getD j (none, none) = prevPair k j sp₂)
    {hgt : Nat} (hg1 : 1 ≤ hgt) (hgH : hgt ≤ HEIGHT)
    (s₃ : SkipList K V)
    (h3heap : s₃.heap = s₂.heap) (h3head : s₃.headLevels = s₂.headLevels)
    (h3len : s₃.len = s₂.len) (h3next : s₃.nextAddr = s₂.nextAddr)
    (h3mh1 : s₂.maxHeight ≤ s₃.maxHeight) (h3mh2 : hgt ≤ s₃.maxHeight)
    (h3mhH : s₃.maxHeight ≤ HEIGHT)
    (existing : Option Addr) {fuel : Nat} (hfuel : 1 ≤ fuel) :
    ∃ s₆ sp₆,
      insertLinkLoop
        { s₃ with
          heap := fun a' => if a' = s₃.nextAddr then
              some { key := k, val := v, har := hgt, refs := 0,
                     levels := List.replicate hgt TPtr.null }
            else s₃.heap a'
          nextAddr := s₃.nextAddr + 1
          len := s₃.len + 1 }
        k s₃.nextAddr prev 0 existing fuel = some (s₆, existing) ∧
      WF s₆ sp₆ ∧
      sp₆.map nodeSig = (ltPart k sp₂).map nodeSig ++
        (s₃.nextAddr, k, v, hgt) :: (gePart k sp₂).map nodeSig ∧
      s₆.len = s₂.len + 1 ∧ s₆.maxHeight = s₃.maxHeight ∧ s₆.seed = s₃.seed ∧
      s₆.nextAddr = s₂.nextAddr + 1 ∧
      (∀ a, (∀ z ∈ sp₂, z.1 ≠ a) → a ≠ s₂.nextAddr → s₆.heap a = s₂.heap a) := by
  have hg30 : hgt < 2 ^ 30 := lt_of_le_of_lt hgH (by rw [HEIGHT_eq]; norm_num)
  have hg31 : hgt < 2 ^ 31 := lt_of_le_of_lt hgH (by rw [HEIGHT_eq]; norm_num)
  have hsplit : ltPart k sp₂ ++ gePart k sp₂ = sp₂ := by
    unfold ltPart gePart
    exact List.takeWhile_append_dropWhile _ _
  have hmemof : ∀ z ∈ ltPart k sp₂ ++ gePart k sp₂, z ∈ sp₂ := by
    intro z hz
    rw [hsplit] at hz
    exact hz
  have hkge : ∀ z ∈ gePart k sp₂, k < z.2.key := gePart_keys_gt hwf.sorted hnok
  have hklt : ∀ z ∈ ltPart k sp₂, z.2.key < k := ltPart_keys_lt
  have hnotin : s₃.nextAddr ∉ (ltPart k sp₂ ++ gePart k sp₂).map Prod.fst := by
    intro hm
    obtain ⟨z, hz, he⟩ := List.mem_map.mp hm
    have h := hwf.fresh z (hmemof z hz)
    rw [he, h3next] at h
    exact lt_irrefl _ h
  have hnodup : ((ltPart k sp₂ ++ gePart k sp₂).map Prod.fst).Nodup := by
    rw [hsplit]
    exact hwf.nodup
  have hprevj : ∀ j, j < hgt → prev.getD j (none, none) =
      (((spineLevel j (ltPart k sp₂)).getLast?).map Prod.fst,
       ((spineLevel j (gePart k sp₂)).head?).map Prod.fst) := by
    intro j hj
    rw [hpspec j (by omega)]
    exact prevPair_parts k j hwf.sorted
  have hinv₀ : LinkInv
      { s₃ with
        heap := fun a' => if a' = s₃.nextAddr then
            some { key := k, val := v, har := hgt, refs := 0,
                   levels := List.replicate hgt TPtr.null }
          else s₃.heap a'
        nextAddr := s₃.nextAddr + 1
        len := s₃.len + 1 }
      (ltPart k sp₂) (gePart k sp₂) s₃.nextAddr hgt k v
      { s₃ with
        heap := fun a' => if a' = s₃.nextAddr then
            some { key := k, val := v, har := hgt, refs := 0,
                   levels := List.replicate hgt TPtr.null }
          else s₃.heap a'
        nextAddr := s₃.nextAddr + 1
        len := s₃.len + 1 }
      (ltPart k sp₂)
      { key := k, val := v, har := hgt, refs := 0,
        levels := List.replicate hgt TPtr.null } 0 := by
    refine ⟨rfl, rfl, rfl, rfl, ?_, ?_, rfl, by simp, rfl, rfl, rfl, rfl,
      by simp, ?_, ?_, ?_, ?_, ?_, ?_, ?_, ?_, fun a _ _ => rfl⟩
    · show s₃.headLevels.length = HEIGHT
      rw [h3head]
      exact hwf.head_len
    · intro j
      show (s₃.headLevels.getD j TPtr.null).tag = 0
      rw [h3head]
      exact hwf.head_tag j
    · -- nn_cells: every level of the fresh node is still null
      intro j
      rw [if_neg (by omega)]
      show (List.replicate hgt TPtr.null).getD j TPtr.null = TPtr.null
      exact getD_replicate_null hgt j
    · -- chains_lo: vacuous at i = 0
      intro j hj
      omega
    · -- chains_hi
      intro j _
      show IsChain j ((s₃.headLevels.getD j TPtr.null).loadPtr) _
      rw [h3head, hsplit]
      exact hwf.chains j
    · -- node_at
      intro z hz
      have hzsp := hmemof z hz
      have hne : z.1 ≠ s₃.nextAddr := by
        have h := hwf.fresh z hzsp
        rw [h3next]
        exact Nat.ne_of_lt h
      show (if z.1 = s₃.nextAddr then
          some { key := k, val := v, har := hgt, refs := 0,
                 levels := List.replicate hgt TPtr.null }
        else s₃.heap z.1) = some z.2
      rw [if_neg hne, h3heap]
      exact hwf.node_at z hzsp
    · exact fun z hz => hwf.node_har z (hmemof z hz)
    · exact fun z hz => hwf.node_len z (hmemof z hz)
    · exact fun z hz => hwf.node_refs z (hmemof z hz)
    · exact fun z hz => hwf.node_tags z (hmemof z hz)
  obtain ⟨t', ltc', nn', hrun, hinvF⟩ :=
    linkNodesLoop_spec prev hg1 hgH hprevj hkge hnotin hnodup hgt 0 _ _ _
      (by omega) hinv₀
  have hnnh : nn'.height = hgt := by
    show harHeight nn'.har = hgt
    rw [hinvF.nn_har]
    exact harHeight_of_lt hg30
  have hnnrem : nn'.removed = false := by
    show harRemoved nn'.har = false
    rw [hinvF.nn_har]
    exact harRemoved_of_lt hg31
  have hnewh : ({ key := k, val := v, har := hgt, refs := 0,
                  levels := List.replicate hgt TPtr.null } : Node K V).height
      = hgt := harHeight_of_lt hg30
  -- run `linkNodes`: the loop succeeds and the fresh node is not removed
  have hlinkNodes : SkipList.linkNodes
      { s₃ with
        heap := fun a' => if a' = s₃.nextAddr then
            some { key := k, val := v, har := hgt, refs := 0,
                   levels := List.replicate hgt TPtr.null }
          else s₃.heap a'
        nextAddr := s₃.nextAddr + 1
        len := s₃.len + 1 }
      s₃.nextAddr prev 0 (fuel - 1) = some (t', .ok ()) := by
    simp only [SkipList.linkNodes, Option.bind_eq_bind, if_true,
      Option.some_bind, hnewh, hrun, hinvF.node_new, hnnrem,
      Bool.false_eq_true, if_false, Option.pure_def]
  obtain ⟨f, rfl⟩ : ∃ f, fuel = f + 1 := ⟨fuel - 1, by omega⟩
  have hloop : insertLinkLoop
      { s₃ with
        heap := fun a' => if a' = s₃.nextAddr then
            some { key := k, val := v, har := hgt, refs := 0,
                   levels := List.replicate hgt TPtr.null }
          else s₃.heap a'
        nextAddr := s₃.nextAddr + 1
        len := s₃.len + 1 }
      k s₃.nextAddr prev 0 existing (f + 1) = some (t', existing) := by
    have hf : f + 1 - 1 = f := by omega
    rw [hf] at hlinkNodes
    simp only [insertLinkLoop, Option.bind_eq_bind, hlinkNodes,
      Option.some_bind]
  -- the final state is well-formed over the extended spine
  have hsigP : ltc'.map nodeSig = (ltPart k sp₂).map nodeSig := hinvF.sig
  have hsigM : (ltc' ++ (s₃.nextAddr, nn') :: gePart k sp₂).map nodeSig =
      (ltPart k sp₂).map nodeSig ++
        (s₃.nextAddr, k, v, hgt) :: (gePart k sp₂).map nodeSig := by
    rw [List.map_append, List.map_cons, hsigP]
    congr 2
    simp [nodeSig, hinvF.nn_key, hinvF.nn_val, hnnh]
  have hmemlt : ∀ z ∈ ltc', ∃ w ∈ ltPart k sp₂, z.1 = w.1 ∧
      z.2.key = w.2.key ∧ z.2.val = w.2.val ∧ z.2.height = w.2.height :=
    fun z hz => sig_mem hsigP hz
  have hmemge : ∀ z ∈ gePart k sp₂, z ∈ sp₂ :=
    fun z hz => hmemof z (List.mem_append_right _ hz)
  have hwfF : WF t' (ltc' ++ (s₃.nextAddr, nn') :: gePart k sp₂) := by
    refine ⟨hinvF.head_len, hinvF.head_tag, ?_, ?_, ?_, ?_, ?_, ?_, ?_, ?_,
      ?_, ?_, ?_, ?_, ?_, ?_, ?_⟩
    · -- chains
      intro j
      by_cases hj : j < hgt
      · exact hinvF.chains_lo j hj
      · have hold := hinvF.chains_hi j (by omega)
        have heq : spineLevel j (ltc' ++ (s₃.nextAddr, nn') :: gePart k sp₂) =
            spineLevel j (ltc' ++ gePart k sp₂) := by
          rw [spineLevel_append, spineLevel_append]
          congr 1
          unfold spineLevel
          rw [List.filter_cons_of_neg
            (by simp only [decide_eq_true_eq, hnnh]; omega)]
        rw [heq]
        exact hold
    · -- node_at
      intro z hz
      rcases List.mem_append.mp hz with hz1 | hz2
      · exact hinvF.node_at z (List.mem_append_left _ hz1)
      · rcases List.mem_cons.mp hz2 with hz3 | hz4
        · rw [hz3]
          exact hinvF.node_new
        · exact hinvF.node_at z (List.mem_append_right _ hz4)
    · -- node_har
      intro z hz
      rcases List.mem_append.mp hz with hz1 | hz2
      · exact hinvF.node_har z (List.mem_append_left _ hz1)
      · rcases List.mem_cons.mp hz2 with hz3 | hz4
        · rw [hz3]
          show nn'.har = nn'.height
          rw [hinvF.nn_har, hnnh]
        · exact hinvF.node_har z (List.mem_append_right _ hz4)
    · -- node_hlb
      intro z hz
      rcases List.mem_append.mp hz with hz1 | hz2
      · obtain ⟨w, hw, _, _, _, hh⟩ := hmemlt z hz1
        rw [hh]
        exact hwf.node_hlb w (hmemof w (List.mem_append_left _ hw))
      · rcases List.mem_cons.mp hz2 with hz3 | hz4
        · rw [hz3]
          show 1 ≤ nn'.height
          omega
        · exact hwf.node_hlb z (hmemge z hz4)
    · -- node_hub
      intro z hz
      rcases List.mem_append.mp hz with hz1 | hz2
      · obtain ⟨w, hw, _, _, _, hh⟩ := hmemlt z hz1
        rw [hh]
        exact hwf.node_hub w (hmemof w (List.mem_append_left _ hw))
      · rcases List.mem_cons.mp hz2 with hz3 | hz4
        · rw [hz3]
          show nn'.height ≤ HEIGHT
          omega
        · exact hwf.node_hub z (hmemge z hz4)
    · -- node_len
      intro z hz
      rcases List.mem_append.mp hz with hz1 | hz2
      · exact hinvF.node_len2 z (List.mem_append_left _ hz1)
      · rcases List.mem_cons.mp hz2 with hz3 | hz4
        · rw [hz3]
          show nn'.levels.length = nn'.height
          rw [hinvF.nn_len, hnnh]
        · exact hinvF.node_len2 z (List.mem_append_right _ hz4)
    · -- node_refs
      intro z hz
      rcases List.mem_append.mp hz with hz1 | hz2
      · exact hinvF.node_refs z (List.mem_append_left _ hz1)
      · rcases List.mem_cons.mp hz2 with hz3 | hz4
        · rw [hz3]
          show nn'.refs = nn'.height
          rw [hinvF.nn_refs, hnnh]
        · exact hinvF.node_refs z (List.mem_append_right _ hz4)
    · -- node_tags
      intro z hz
      rcases List.mem_append.mp hz with hz1 | hz2
      · exact hinvF.node_tags z (List.mem_append_left _ hz1)
      · rcases List.mem_cons.mp hz2 with hz3 | hz4
        · rw [hz3]
          intro j
          show (nn'.level j).tag = 0
          rw [hinvF.nn_cells j]
          by_cases hj : j < hgt
          · rw [if_pos hj]
          · rw [if_neg hj]
            rfl
        · exact hinvF.node_tags z (List.mem_append_right _ hz4)
    · -- sorted
      rw [List.pairwise_append]
      refine ⟨?_, ?_, ?_⟩
      · refine sigEq_sorted hsigP.symm ?_
        have hs := hwf.sorted
        rw [← hsplit] at hs
        exact (List.pairwise_append.mp hs).1
      · rw [List.pairwise_cons]
        refine ⟨?_, ?_⟩
        · intro w hw
          show nn'.key < w.2.key
          rw [hinvF.nn_key]
          exact hkge w hw
        · have hs := hwf.sorted
          rw [← hsplit] at hs
          exact (List.pairwise_append.mp hs).2.1
      · intro z hz w hw
        obtain ⟨w₀, hw₀, _, hkz, _, _⟩ := hmemlt z hz
        have hzlt : z.2.key < k := by
          rw [hkz]
          exact hklt w₀ hw₀
        rcases List.mem_cons.mp hw with hw1 | hw2
        · rw [hw1]
          show z.2.key < nn'.key
          rw [hinvF.nn_key]
          exact hzlt
        · exact lt_trans hzlt (hkge w hw2)
    · -- nodup
      rw [List.map_append, List.map_cons, List.nodup_middle]
      refine List.Nodup.cons ?_ ?_
      · intro hm
        apply hnotin
        rw [List.map_append]
        rcases List.mem_append.mp hm with hm1 | hm2
        · refine List.mem_append_left _ ?_
          rw [← sigEq_fst hsigP]
          exact hm1
        · exact List.mem_append_right _ hm2
      · rw [← List.map_append]
        have hfst2 : (ltc' ++ gePart k sp₂).map Prod.fst =
            (ltPart k sp₂ ++ gePart k sp₂).map Prod.fst := by
          rw [List.map_append, List.map_append, sigEq_fst hsigP]
        rw [hfst2]
        exact hnodup
    · -- fresh
      intro z hz
      have hnx : t'.nextAddr = s₃.nextAddr + 1 := hinvF.scal_next
      rw [hnx]
      rcases List.mem_append.mp hz with hz1 | hz2
      · obtain ⟨w, hw, ha, _, _, _⟩ := hmemlt z hz1
        rw [ha]
        have h := hwf.fresh w (hmemof w (List.mem_append_left _ hw))
        rw [h3next]
        exact Nat.lt_succ_of_lt h
      · rcases List.mem_cons.mp hz2 with hz3 | hz4
        · rw [hz3]
          show s₃.nextAddr < s₃.nextAddr + 1
          exact Nat.lt_succ_self _
        · have h := hwf.fresh z (hmemge z hz4)
          rw [h3next]
          exact Nat.lt_succ_of_lt h
    · -- len_eq
      have hl : t'.len = s₃.len + 1 := hinvF.scal_len
      rw [hl, h3len, hwf.len_eq]
      have hlen1 : ltc'.length = (ltPart k sp₂).length := sig_length hsigP
      have hlen2 : sp₂.length =
          (ltPart k sp₂).length + (gePart k sp₂).length := by
        conv_lhs => rw [← hsplit]
        rw [List.length_append]
      rw [hlen2]
      simp only [List.length_append, List.length_cons, hlen1]
      omega
    · -- maxH_lb
      have hm : t'.maxHeight = s₃.maxHeight := hinvF.scal_maxH
      rw [hm]
      have := hwf.maxH_lb
      omega
    · have hm : t'.maxHeight = s₃.maxHeight := hinvF.scal_maxH
      rw [hm]
      exact h3mhH
    · -- maxH_ge
      intro z hz
      have hm : t'.maxHeight = s₃.maxHeight := hinvF.scal_maxH
      rw [hm]
      rcases List.mem_append.mp hz with hz1 | hz2
      · obtain ⟨w, hw, _, _, _, hh⟩ := hmemlt z hz1
        rw [hh]
        exact le_trans (hwf.maxH_ge w (hmemof w (List.mem_append_left _ hw)))
          h3mh1
      · rcases List.mem_cons.mp hz2 with hz3 | hz4
        · rw [hz3]
          show nn'.height ≤ s₃.maxHeight
          omega
        · exact le_trans (hwf.maxH_ge z (hmemge z hz4)) h3mh1
  refine ⟨t', ltc' ++ (s₃.nextAddr, nn') :: gePart k sp₂, hloop, hwfF, hsigM,
    ?_, hinvF.scal_maxH, hinvF.scal_seed, ?_, ?_⟩
  · have hl : t'.len = s₃.len + 1 := hinvF.scal_len
    rw [hl, h3len]
  · have hnx : t'.nextAddr = s₃.nextAddr + 1 := hinvF.scal_next
    rw [hnx, h3next]
  · intro a ha hb
    have hframe := hinvF.frame a (by
      intro hm
      obtain ⟨z, hz, he⟩ := List.mem_map.mp hm
      exact ha z (hmemof z hz) he) (by rw [h3next]; exact hb)
    rw [hframe]
    show (if a = s₃.nextAddr then
        some { key := k, val := v, har := hgt, refs := 0,
               levels := List.replicate hgt TPtr.null }
      else s₃.heap a) = s₂.heap a
    rw [if_neg (by rw [h3next]; exact hb), h3heap]

/-- The pre-allocation replacement loop of `insert` on a well-formed
quiescent state: with no same-key target it returns at once; with one it
logically removes, tags and unlinks the target, re-searches (finding no
target), and exits remembering the target as `existing`. -/
theorem insertReplaceLoop_spec [LinearOrder K] {s : SkipList K V}
    {sp : Spine K V} (k : K) (hwf : WF s sp)
    {prev₀ : List (Loc × Option Addr)} {fuel : Nat}
    (hfuel : findFuel sp + 1 ≤ fuel)
    (hpspec : ∀ j, j < HEIGHT → prev₀.getD j (none, none) = prevPair k j sp) :
    (spineTarget k sp = none →
      insertReplaceLoop s k ⟨prev₀, spineTarget k sp⟩ none fuel =
        some (s, ⟨prev₀, none⟩, none)) ∧
    (∀ tAddr, spineTarget k sp = some tAddr → ∃ n l₂ s'' sp'' prev'',
      sp = ltPart k sp ++ (tAddr, n) :: l₂ ∧ n.key = k ∧
      insertReplaceLoop s k ⟨prev₀, spineTarget k sp⟩ none fuel =
        some (s'', ⟨prev'', none⟩, some tAddr) ∧
      WF s'' sp'' ∧
      sp''.map nodeSig = (ltPart k sp ++ l₂).map nodeSig ∧
      prev''.length = HEIGHT ∧
      (∀ j, j < HEIGHT → prev''.getD j (none, none) = prevPair k j sp'') ∧
      (∃ nF, s''.heap tAddr = some nF ∧ nF.key = n.key ∧ nF.val = n.val) ∧
      tAddr ∉ sp''.map Prod.fst ∧
      s''.len = s.len - 1 ∧ s''.maxHeight = s.maxHeight ∧
      s''.seed = s.seed ∧ s''.nextAddr = s.nextAddr) := by
  have h2 : findFuel sp = 33 * (sp.length + 2) + 2 := rfl
  obtain ⟨f, rfl⟩ : ∃ f, fuel = f + 1 := ⟨fuel - 1, by omega⟩
  constructor
  · intro hnone
    rw [hnone]
    simp only [insertReplaceLoop]
  · intro tAddr htgt
    rw [htgt]
    obtain ⟨n, l₂, hk, hsp⟩ := spineTarget_some htgt
    have hmem : (tAddr, n) ∈ sp := by rw [hsp]; simp
    have hheapn : s.heap tAddr = some n := hwf.node_at _ hmem
    have hrem : n.removed = false := wf_removed (z := (tAddr, n)) hwf hmem
    have hsr := Node.setRemoved_of_not_removed hrem
    have hkeys : (∀ w ∈ ltPart k sp, w.2.key < n.key) ∧
        (∀ w ∈ l₂, n.key < w.2.key) := by
      have h0 : (ltPart k sp ++ (tAddr, n) :: l₂).Pairwise
          (fun x y => x.2.key < y.2.key) := by
        rw [← hsp]
        exact hwf.sorted
      exact sorted_split_keys (z := (tAddr, n)) h0
    -- the removed-and-tagged version of the target
    have ht₁h : ({ n with har := n.har ||| REMOVED_MASK } : Node K V).height =
        n.height := by
      show harHeight (n.har ||| REMOVED_MASK) = harHeight n.har
      exact harHeight_lor_mask n.har
    have ht₁len : ({ n with har := n.har ||| REMOVED_MASK } : Node K V).height ≤
        ({ n with har := n.har ||| REMOVED_MASK } : Node K V).levels.length := by
      rw [ht₁h]
      show n.height ≤ n.levels.length
      rw [hwf.node_len _ hmem]
    have ht₁tags : ∀ l, l < ({ n with har := n.har ||| REMOVED_MASK } : Node K V).height →
        (({ n with har := n.har ||| REMOVED_MASK } : Node K V).level l).tag = 0 := by
      intro l _
      exact hwf.node_tags _ hmem l
    rcases htlf : Node.tagLevelsFrom
        ({ n with har := n.har ||| REMOVED_MASK } : Node K V) 1
        (({ n with har := n.har ||| REMOVED_MASK } : Node K V).height)
      with ⟨t₂, r₂⟩
    obtain ⟨hok, hcells, hlen₂⟩ := Node.tagLevelsFrom_ok 1 _ _ ht₁len ht₁tags
    rw [htlf] at hok hcells hlen₂
    have hfields := Node.tagLevelsFrom_fields 1
      ({ n with har := n.har ||| REMOVED_MASK } : Node K V).height
      { n with har := n.har ||| REMOVED_MASK }
    rw [htlf] at hfields
    have ht₂key : t₂.key = n.key := hfields.1.1
    have ht₂val : t₂.val = n.val := hfields.1.2
    have ht₂har : t₂.har = n.har ||| REMOVED_MASK := hfields.2.1
    have ht₂refs : t₂.refs = n.refs := hfields.2.2
    have ht₂h : t₂.height = n.height := by
      show harHeight t₂.har = _
      rw [ht₂har]
      exact harHeight_lor_mask n.har
    have ht₂p : ∀ i, (t₂.level i).ptr = (n.level i).ptr := by
      intro i
      rw [hcells i]
      by_cases hi : i < ({ n with har := n.har ||| REMOVED_MASK } : Node K V).height
      · rw [if_pos hi]
        rfl
      · rw [if_neg hi]
        rfl
    have htl : ({ n with har := n.har ||| REMOVED_MASK } : Node K V).tagLevels 1 =
        (t₂, .ok (t₂.height - 1)) := by
      have hok' : r₂ = .ok () := by simpa using hok
      unfold Node.tagLevels
      rw [htlf, hok']
      rfl
    have htrt : n.tryRemoveAndTag = (t₂, .ok (t₂.key, t₂.val)) := by
      simp only [Node.tryRemoveAndTag, hsr, htl]
    -- the unlink run
    obtain ⟨s'', sp'', nFin, hunlink, hwf'', hsig'', hheapFin, hFk, hFv, hlen'',
        hmaxH'', hseed'', hnext''⟩ :=
      unlink_spec hwf hsp (m := t₂) ht₂h ht₂refs (ht₂key.trans rfl)
        (ht₂val.trans rfl) ht₂p prev₀
        (fun j hj => by
          rw [hpspec j (by
            have hhub : n.height ≤ HEIGHT := hwf.node_hub _ hmem
            omega)]
          have hpp := prevPair_at_key hsp hwf.sorted hj
          rw [hk] at hpp
          rw [hpp])
    have hnokey'' : spineTarget k sp'' = none := by
      rw [sigEq_spineTarget hsig'' k]
      apply spineTarget_none_of_no_key
      intro z hz
      rcases List.mem_append.mp hz with hz1 | hz2
      · have := List.mem_takeWhile_imp hz1
        simp at this
        exact ne_of_lt this
      · have := hkeys.2 z hz2
        rw [hk] at this
        exact (ne_of_lt this).symm
    -- the re-search
    have hlsp : sp.length = (ltPart k sp).length + 1 + l₂.length := by
      conv_lhs => rw [hsp]
      rw [List.length_append, List.length_cons]
      omega
    have hlsp'' : sp''.length = (ltPart k sp).length + l₂.length := by
      have h1 := sig_length hsig''
      rw [List.length_append] at h1
      exact h1
    have h2b : findFuel sp'' = 33 * (sp''.length + 2) + 2 := rfl
    have hffle : findFuel sp'' ≤ f := by omega
    obtain ⟨prev'', hfind'', hplen'', hpspec''⟩ := find_spec k hwf'' hffle
    rw [hnokey''] at hfind''
    obtain ⟨f₂, rfl⟩ : ∃ f₂, f = f₂ + 1 := ⟨f - 1, by omega⟩
    have hrec : insertReplaceLoop s'' k ⟨prev'', none⟩ (some tAddr) (f₂ + 1) =
        some (s'', ⟨prev'', none⟩, some tAddr) := by
      simp only [insertReplaceLoop]
    have htna : tAddr ∉ sp''.map Prod.fst := by
      have hfst'' : sp''.map Prod.fst = (ltPart k sp ++ l₂).map Prod.fst :=
        sigEq_fst hsig''
      rw [hfst'']
      have hnd := hwf.nodup
      rw [hsp, List.map_append, List.map_cons, List.nodup_middle,
        List.nodup_cons] at hnd
      intro hm
      exact hnd.1 (by rwa [List.map_append] at hm)
    refine ⟨n, l₂, s'', sp'', prev'', hsp, hk, ?_, hwf'', hsig'', hplen'',
      hpspec'', ⟨nFin, hheapFin, hFk, hFv⟩, htna, hlen'', hmaxH'', hseed'',
      hnext''⟩
    simp only [insertReplaceLoop, Option.bind_eq_bind, hheapn,
      Option.some_bind, htrt, SkipList.setNode_heap_self, ht₂h, hunlink,
      hfind'', hrec]

theorem genHeight_bounds (s : SkipList K V) :
    1 ≤ (s.genHeight).1 ∧ (s.genHeight).1 ≤ HEIGHT := by
  have hH : HEIGHT = 32 := HEIGHT_eq
  set h₀ := min HEIGHT (trailingZeros64 (xorshift64 s.seed) + 1) with hh₀
  have h₀pos : 1 ≤ h₀ := by
    have : 1 ≤ HEIGHT := by omega
    omega
  have h₀le : h₀ ≤ HEIGHT := Nat.min_le_left _ _
  have hcap : (s.genHeight).1 = genHeightCap s.headLevels h₀ := rfl
  have hle := genHeightCap_le s.headLevels h₀
  have hlo := genHeightCap_lower s.headLevels h₀
  omega

theorem no_key_of_spineTarget_none [LinearOrder K] {sp : Spine K V} {k : K}
    (hs : sp.Pairwise (fun x y => x.2.key < y.2.key))
    (h : spineTarget k sp = none) : ∀ z ∈ sp, z.2.key ≠ k := by
  intro z hz hzk
  have hzge : z ∈ gePart k sp := by
    unfold gePart
    rw [sorted_dropWhile_eq_filter k sp hs]
    refine List.mem_filter.mpr ⟨hz, ?_⟩
    simp [hzk]
  have hsge : (gePart k sp).Pairwise (fun x w => x.2.key < w.2.key) := by
    unfold gePart
    rw [sorted_dropWhile_eq_filter k sp hs]
    exact hs.sublist (List.filter_sublist sp)
  unfold spineTarget at h
  rcases hB : gePart k sp with _ | ⟨y, ys⟩
  · rw [hB] at hzge
    simp at hzge
  · rw [hB] at h hzge hsge
    rcases List.mem_cons.mp hzge with hzy | hzys
    · rw [hzy] at hzk
      simp only [hzk, eq_self_iff_true, if_true] at h
      exact Option.noConfusion h
    · have hyk : ¬ y.2.key < k := by
        have hy : y ∈ gePart k sp := by
          rw [hB]
          exact List.mem_cons_self y ys
        unfold gePart at hy
        rw [sorted_dropWhile_eq_filter k sp hs] at hy
        have := (List.mem_filter.mp hy).2
        simpa using this
      have := (List.pairwise_cons.mp hsge).1 z hzys
      rw [hzk] at this
      exact hyk this

theorem ltPart_cons_of_lt [LinearOrder K] {z : Addr × Node K V} {l : Spine K V}
    {k : K} (h : z.2.key < k) : ltPart k (z :: l) = z :: ltPart k l := by
  unfold ltPart
  rw [List.takeWhile_cons_of_pos (by simpa using h)]

theorem ltPart_cons_of_ge [LinearOrder K] {z : Addr × Node K V} {l : Spine K V}
    {k : K} (h : ¬ z.2.key < k) : ltPart k (z :: l) = [] := by
  unfold ltPart
  rw [List.takeWhile_cons_of_neg (by simpa using h)]

theorem gePart_cons_of_lt [LinearOrder K] {z : Addr × Node K V} {l : Spine K V}
    {k : K} (h : z.2.key < k) : gePart k (z :: l) = gePart k l := by
  unfold gePart
  rw [List.dropWhile_cons_of_pos (by simpa using h)]

theorem gePart_cons_of_ge [LinearOrder K] {z : Addr × Node K V} {l : Spine K V}
    {k : K} (h : ¬ z.2.key < k) : gePart k (z :: l) = z :: l := by
  unfold gePart
  rw [List.dropWhile_cons_of_neg (by simpa using h)]

theorem ltPart_split [LinearOrder K] {k : K} :
    ∀ {A B : Spine K V}, (∀ z ∈ A, z.2.key < k) → (∀ z ∈ B, ¬ z.2.key < k) →
    ltPart k (A ++ B) = A ∧ gePart k (A ++ B) = B
  | [], B, _, hB => by
    simp only [List.nil_append]
    cases B with
    | nil => exact ⟨rfl, rfl⟩
    | cons b bs =>
      exact ⟨ltPart_cons_of_ge (hB b (List.mem_cons_self b bs)),
        gePart_cons_of_ge (hB b (List.mem_cons_self b bs))⟩
  | a :: as, B, hA, hB => by
    have ha := hA a (List.mem_cons_self a as)
    have ih := ltPart_split (fun z hz => hA z (List.mem_cons_of_mem a hz)) hB
    rw [List.cons_append, ltPart_cons_of_lt ha, gePart_cons_of_lt ha]
    exact ⟨by rw [ih.1], ih.2⟩

/-- `get` on a well-formed quiescent state returns the target entry. -/
theorem get_spec [LinearOrder K] {s : SkipList K V} {sp : Spine K V} (k : K)
    (hwf : WF s sp) {fuel : Nat} (hfuel : findFuel sp ≤ fuel) :
    (spineTarget k sp = none → s.get k fuel = some (s, none)) ∧
    (∀ a, spineTarget k sp = some a → ∃ n l₂,
      sp = ltPart k sp ++ (a, n) :: l₂ ∧ n.key = k ∧
      s.get k fuel = some (s, some (k, n.val))) := by
  obtain ⟨prev', hfind, hplen, hpspec⟩ := find_spec k hwf hfuel
  constructor
  · intro hnone
    by_cases he : s.isEmpty = true
    · simp [SkipList.get, he]
    · have he' : s.isEmpty = false := by
        revert he
        cases s.isEmpty <;> simp
      rw [hnone] at hfind
      simp only [SkipList.get, he', Bool.false_eq_true, if_false,
        Option.bind_eq_bind, hfind, Option.some_bind]
  · intro a htgt
    obtain ⟨n, l₂, hk, hsp⟩ := spineTarget_some htgt
    have hmem : (a, n) ∈ sp := by rw [hsp]; simp
    have hpos : 0 < sp.length := by
      rw [hsp, List.length_append, List.length_cons]
      omega
    have hne : s.isEmpty = false := by
      show decide (s.len < 1) = false
      rw [hwf.len_eq]
      simp only [decide_eq_false_iff_not]
      omega
    have hheapn : s.heap a = some n := hwf.node_at _ hmem
    refine ⟨n, l₂, hsp, hk, ?_⟩
    rw [htgt] at hfind
    simp only [SkipList.get, hne, Bool.false_eq_true, if_false,
      Option.bind_eq_bind, hfind, Option.some_bind, hheapn, hk]

/-- `insert` on a well-formed quiescent state with fuel for its searches:
the fresh node is published between the keys below `k` and the rest of the
spine; an existing same-key node is first removed, unlinked and handed
back as the old entry. -/
theorem insert_spec [LinearOrder K] {s : SkipList K V} {sp : Spine K V}
    (k : K) (v : V) (hwf : WF s sp) {fuel : Nat}
    (hfuel : findFuel sp + 2 ≤ fuel) :
    (spineTarget k sp = none → ∃ s' sp' hgt,
      s.insert k v fuel = some (s', none) ∧
      WF s' sp' ∧ 1 ≤ hgt ∧ hgt ≤ HEIGHT ∧
      sp'.map nodeSig = (ltPart k sp).map nodeSig ++
        (s.nextAddr, k, v, hgt) :: (gePart k sp).map nodeSig ∧
      s'.len = s.len + 1 ∧ s'.nextAddr = s.nextAddr + 1) ∧
    (∀ tAddr, spineTarget k sp = some tAddr → ∃ n l₂ s' sp' hgt,
      sp = ltPart k sp ++ (tAddr, n) :: l₂ ∧ n.key = k ∧
      s.insert k v fuel = some (s', some (k, n.val)) ∧
      WF s' sp' ∧ 1 ≤ hgt ∧ hgt ≤ HEIGHT ∧
      sp'.map nodeSig = (ltPart k sp).map nodeSig ++
        (s.nextAddr, k, v, hgt) :: l₂.map nodeSig ∧
      s'.len = s.len ∧ s'.nextAddr = s.nextAddr + 1) := by
  have h2 : findFuel sp = 33 * (sp.length + 2) + 2 := rfl
  obtain ⟨f, rfl⟩ : ∃ f, fuel = f + 1 := ⟨fuel - 1, by omega⟩
  obtain ⟨prev₀, hfind, hplen, hpspec⟩ :=
    find_spec k hwf (show findFuel sp ≤ f + 1 by omega)
  obtain ⟨hrlA, hrlB⟩ :=
    insertReplaceLoop_spec k hwf (show findFuel sp + 1 ≤ f + 1 by omega) hpspec
  constructor
  · -- no same-key node on the spine
    intro hnone
    have hnok : ∀ z ∈ sp, z.2.key ≠ k :=
      no_key_of_spineTarget_none hwf.sorted hnone
    rw [hnone] at hfind
    have hrl := hrlA hnone
    rw [hnone] at hrl
    rcases hgen : s.genHeight with ⟨hgt, s₃⟩
    have h1 : (s.genHeight).1 = hgt := by rw [hgen]
    have h3 : (s.genHeight).2 = s₃ := by rw [hgen]
    have hg1 : 1 ≤ hgt := by rw [← h1]; exact (genHeight_bounds s).1
    have hgH : hgt ≤ HEIGHT := by rw [← h1]; exact (genHeight_bounds s).2
    have h3heap : s₃.heap = s.heap := by rw [← h3]; exact s.genHeight_heap
    have h3head : s₃.headLevels = s.headLevels := by
      rw [← h3]
      exact s.genHeight_headLevels
    have h3len : s₃.len = s.len := by rw [← h3]; exact s.genHeight_len
    have h3next : s₃.nextAddr = s.nextAddr := by
      rw [← h3]
      exact s.genHeight_nextAddr
    have h3max : s₃.maxHeight = max s.maxHeight hgt := by
      rw [← h3, ← h1]
      exact s.genHeight_maxHeight
    have h3mh1 : s.maxHeight ≤ s₃.maxHeight := by
      rw [h3max]
      exact Nat.le_max_left _ _
    have h3mh2 : hgt ≤ s₃.maxHeight := by
      rw [h3max]
      exact Nat.le_max_right _ _
    have h3mhH : s₃.maxHeight ≤ HEIGHT := by
      rw [h3max]
      exact max_le hwf.maxH_ub hgH
    obtain ⟨s₆, sp₆, hloop, hwf₆, hsig₆, hlen₆, _, _, hnext₆, hframe₆⟩ :=
      insert_publish k v hwf hnok hpspec hg1 hgH s₃ h3heap h3head h3len
        h3next h3mh1 h3mh2 h3mhH none (show (1:Nat) ≤ f + 1 by omega)
    have hnn : Node.new k v hgt 0 =
        some { key := k, val := v, har := hgt, refs := 0,
               levels := List.replicate hgt TPtr.null } := by
      unfold Node.new
      rw [if_pos ⟨hgH, hg1⟩]
    refine ⟨s₆, sp₆, hgt, ?_, hwf₆, hg1, hgH, ?_, hlen₆, hnext₆⟩
    · simp only [SkipList.insert, Option.bind_eq_bind, hfind, Option.some_bind,
        hrl, hgen, hnn, hloop]
    · rw [← h3next]
      exact hsig₆
  · -- a same-key node is replaced
    intro tAddr htgt
    obtain ⟨n, l₂, s'', sp'', prev'', hsp, hk, hrl, hwf'', hsig'', hplen'',
      hpspec'', ⟨nF, hheapF, hFk, hFv⟩, htna, hlen'', hmaxH'', hseed'',
      hnext''⟩ := hrlB tAddr htgt
    rw [htgt] at hfind hrl
    have hkeys : (∀ w ∈ ltPart k sp, w.2.key < n.key) ∧
        (∀ w ∈ l₂, n.key < w.2.key) := by
      have h0 : (ltPart k sp ++ (tAddr, n) :: l₂).Pairwise
          (fun x y => x.2.key < y.2.key) := by
        rw [← hsp]
        exact hwf.sorted
      exact sorted_split_keys (z := (tAddr, n)) h0
    have hnok'' : ∀ z ∈ sp'', z.2.key ≠ k := by
      intro z hz
      obtain ⟨w, hw, _, hkey, _, _⟩ := sig_mem hsig'' hz
      rw [hkey]
      rcases List.mem_append.mp hw with hw1 | hw2
      · exact ne_of_lt (by rw [← hk]; exact hkeys.1 w hw1)
      · exact (ne_of_lt (by rw [← hk]; exact hkeys.2 w hw2)).symm
    rcases hgen : s''.genHeight with ⟨hgt, s₃⟩
    have h1 : (s''.genHeight).1 = hgt := by rw [hgen]
    have h3 : (s''.genHeight).2 = s₃ := by rw [hgen]
    have hg1 : 1 ≤ hgt := by rw [← h1]; exact (genHeight_bounds s'').1
    have hgH : hgt ≤ HEIGHT := by rw [← h1]; exact (genHeight_bounds s'').2
    have h3heap : s₃.heap = s''.heap := by rw [← h3]; exact s''.genHeight_heap
    have h3head : s₃.headLevels = s''.headLevels := by
      rw [← h3]
      exact s''.genHeight_headLevels
    have h3len : s₃.len = s''.len := by rw [← h3]; exact s''.genHeight_len
    have h3next : s₃.nextAddr = s''.nextAddr := by
      rw [← h3]
      exact s''.genHeight_nextAddr
    have h3max : s₃.maxHeight = max s''.maxHeight hgt := by
      rw [← h3, ← h1]
      exact s''.genHeight_maxHeight
    have h3mh1 : s''.maxHeight ≤ s₃.maxHeight := by
      rw [h3max]
      exact Nat.le_max_left _ _
    have h3mh2 : hgt ≤ s₃.maxHeight := by
      rw [h3max]
      exact Nat.le_max_right _ _
    have h3mhH : s₃.maxHeight ≤ HEIGHT := by
      rw [h3max]
      refine max_le ?_ hgH
      rw [hmaxH'']
      exact hwf.maxH_ub
    obtain ⟨s₆, sp₆, hloop, hwf₆, hsig₆, hlen₆, _, _, hnext₆, hframe₆⟩ :=
      insert_publish k v hwf'' hnok'' hpspec'' hg1 hgH s₃ h3heap h3head h3len
        h3next h3mh1 h3mh2 h3mhH (some tAddr) (show (1:Nat) ≤ f + 1 by omega)
    have hl2ge : ∀ z ∈ l₂, ¬ z.2.key < k := by
      intro z hz
      have hlt := hkeys.2 z hz
      rw [hk] at hlt
      exact not_lt.mpr (le_of_lt hlt)
    have hsplit2 := ltPart_split (k := k) (A := ltPart k sp) (B := l₂)
      ltPart_keys_lt hl2ge
    have hlt'' : (ltPart k sp'').map nodeSig = (ltPart k sp).map nodeSig := by
      rw [sigEq_ltPart hsig'' k, hsplit2.1]
    have hge'' : (gePart k sp'').map nodeSig = l₂.map nodeSig := by
      rw [sigEq_gePart hsig'' k, hsplit2.2]
    have hmem : (tAddr, n) ∈ sp := by rw [hsp]; simp
    have htfresh : tAddr < s.nextAddr := hwf.fresh _ hmem
    have hheap₆ : s₆.heap tAddr = some nF := by
      rw [hframe₆ tAddr
        (fun z hz he => htna (he ▸ List.mem_map_of_mem Prod.fst hz))
        (by rw [hnext'']; exact Nat.ne_of_lt htfresh)]
      exact hheapF
    have hnn : Node.new k v hgt 0 =
        some { key := k, val := v, har := hgt, refs := 0,
               levels := List.replicate hgt TPtr.null } := by
      unfold Node.new
      rw [if_pos ⟨hgH, hg1⟩]
    refine ⟨n, l₂, s₆, sp₆, hgt, hsp, hk, ?_, hwf₆, hg1, hgH, ?_, ?_, ?_⟩
    · have heq : s.insert k v (f + 1) = some (s₆, some (nF.key, nF.val)) := by
        simp only [SkipList.insert, Option.bind_eq_bind, hfind,
          Option.some_bind, hrl, hgen, hnn, hloop, hheap₆]
      rw [hFk, hk, hFv] at heq
      exact heq
    · rw [hsig₆, hlt'', hge'', h3next, hnext'']
    · rw [hlen₆, hlen'']
      have hl := hwf.len_eq
      have hpos : 0 < sp.length := by
        rw [hsp, List.length_append, List.length_cons]
        omega
      omega
    · rw [hnext₆, hnext'']
theorem wf_new (K V : Type) [LinearOrder K] (seed : Nat) :
    WF (SkipList.new K V seed) [] := by
  refine ⟨?_, ?_, ?_, ?_, ?_, ?_, ?_, ?_, ?_, ?_, ?_, ?_, ?_, ?_, ?_, ?_, ?_⟩
  · show (List.replicate HEIGHT TPtr.null).length = HEIGHT
    exact List.length_replicate _ _
  · intro i
    show ((SkipList.new K V seed).headLevel i).tag = 0
    rw [headLevel_new]
    rfl
  · intro i
    show IsChain i ((SkipList.new K V seed).headLevel i).loadPtr (spineLevel i [])
    rw [headLevel_new]
    show (TPtr.null.loadPtr) = none
    rfl
  · exact fun z hz => absurd hz (List.not_mem_nil z)
  · exact fun z hz => absurd hz (List.not_mem_nil z)
  · exact fun z hz => absurd hz (List.not_mem_nil z)
  · exact fun z hz => absurd hz (List.not_mem_nil z)
  · exact fun z hz => absurd hz (List.not_mem_nil z)
  · exact fun z hz => absurd hz (List.not_mem_nil z)
  · exact fun z hz => absurd hz (List.not_mem_nil z)
  · exact List.Pairwise.nil
  · simp
  · exact fun z hz => absurd hz (List.not_mem_nil z)
  · rfl
  · exact le_refl 1
  · show 1 ≤ HEIGHT
    rw [HEIGHT_eq]
    norm_num
  · exact fun z hz => absurd hz (List.not_mem_nil z)

theorem map_decomp {α β : Type} (f : α → β) :
    ∀ (L : List β) (l : List α) (m : β) (R : List β),
    l.map f = L ++ m :: R →
    ∃ A z B, l = A ++ z :: B ∧ A.map f = L ∧ f z = m ∧ B.map f = R
  | [], l, m, R => by
    intro h
    cases l with
    | nil => simp at h
    | cons x xs =>
      rw [List.map_cons, List.nil_append] at h
      injection h with h1 h2
      exact ⟨[], x, xs, rfl, rfl, h1, h2⟩
  | b :: L', l, m, R => by
    intro h
    cases l with
    | nil => simp at h
    | cons x xs =>
      rw [List.map_cons, List.cons_append] at h
      injection h with h1 h2
      obtain ⟨A, z, B, hd, hA, hz, hB⟩ := map_decomp f L' xs m R h2
      refine ⟨x :: A, z, B, ?_, ?_, hz, hB⟩
      · rw [hd]
        rfl
      · rw [List.map_cons, hA, h1]

/-- A spine whose signatures split as keys-below / one key-`k` node / keys
above is located by the abstract search: the middle node is the target. -/
theorem sig_shape_target [LinearOrder K] {sp' Lsp R : Spine K V}
    {a : Addr} {k : K} {v : V} {h : Nat}
    (hsig : sp'.map nodeSig =
      Lsp.map nodeSig ++ (a, k, v, h) :: R.map nodeSig)
    (hL : ∀ w ∈ Lsp, w.2.key < k)
    (hR : ∀ w ∈ R, k < w.2.key) :
    ∃ A z B, sp' = A ++ z :: B ∧ ltPart k sp' = A ∧ gePart k sp' = z :: B ∧
      z.1 = a ∧ z.2.key = k ∧ z.2.val = v ∧ spineTarget k sp' = some a := by
  obtain ⟨A, z, B, hdec, hAsig, hzsig, hBsig⟩ :=
    map_decomp nodeSig (Lsp.map nodeSig) sp' (a, k, v, h) (R.map nodeSig) hsig
  have hcomp : z.1 = a ∧ z.2.key = k ∧ z.2.val = v ∧ z.2.height = h := by
    have h0 := hzsig
    simp only [nodeSig, Prod.mk.injEq] at h0
    exact h0
  obtain ⟨hz1, hzk, hzv, _⟩ := hcomp
  have hA : ∀ w ∈ A, w.2.key < k := by
    intro w hw
    obtain ⟨w₀, hw₀, _, hkey, _, _⟩ := sig_mem hAsig hw
    rw [hkey]
    exact hL w₀ hw₀
  have hB : ∀ w ∈ B, k < w.2.key := by
    intro w hw
    obtain ⟨w₀, hw₀, _, hkey, _, _⟩ := sig_mem hBsig hw
    rw [hkey]
    exact hR w₀ hw₀
  have hzcons : ∀ w ∈ z :: B, ¬ w.2.key < k := by
    intro w hw
    rcases List.mem_cons.mp hw with h1 | h2
    · rw [h1, hzk]
      exact lt_irrefl k
    · exact not_lt.mpr (le_of_lt (hB w h2))
  have hsplit := ltPart_split (k := k) (A := A) (B := z :: B) hA hzcons
  refine ⟨A, z, B, hdec, ?_, ?_, hz1, hzk, hzv, ?_⟩
  · rw [hdec]
    exact hsplit.1
  · rw [hdec]
    exact hsplit.2
  · unfold spineTarget
    rw [hdec, hsplit.2]
    simp only [hzk, eq_self_iff_true, if_true, hz1]

/-- C1.  Replace semantics: on any quiescent well-formed state, after
`insert(k,v₁)` a second `insert(k,v₂)` hands back the entry `(k, v₁)`
stored by the first (the old node is logically removed and unlinked), and
`get(k)` then returns `(k, v₂)`. -/
theorem insert_replace_semantics [LinearOrder K] {s : SkipList K V}
    {sp : Spine K V} (k : K) (v₁ v₂ : V) (hwf : WF s sp) {fuel : Nat}
    (hfuel : findFuel sp + 35 ≤ fuel) :
    ∃ s₁ r₁ s₂, s.insert k v₁ fuel = some (s₁, r₁) ∧
      s₁.insert k v₂ fuel = some (s₂, some (k, v₁)) ∧
      s₂.get k fuel = some (s₂, some (k, v₂)) := by
  have h2 : findFuel sp = 33 * (sp.length + 2) + 2 := rfl
  have hstep1 : ∃ (s₁ : SkipList K V) (sp₁ : Spine K V) (hgt₁ : Nat)
      (R₁ : Spine K V) (r₁ : Option (K × V)),
      s.insert k v₁ fuel = some (s₁, r₁) ∧ WF s₁ sp₁ ∧
      sp₁.map nodeSig = (ltPart k sp).map nodeSig ++
        (s.nextAddr, k, v₁, hgt₁) :: R₁.map nodeSig ∧
      (∀ w ∈ R₁, k < w.2.key) ∧ sp₁.length ≤ sp.length + 1 := by
    rcases hc : spineTarget k sp with _ | tAddr
    · obtain ⟨s₁, sp₁, hgt₁, hins, hwf₁, _, _, hsig₁, hlen₁, _⟩ :=
        (insert_spec k v₁ hwf (show findFuel sp + 2 ≤ fuel by omega)).1 hc
      refine ⟨s₁, sp₁, hgt₁, gePart k sp, none, hins, hwf₁, hsig₁, ?_, ?_⟩
      · exact gePart_keys_gt hwf.sorted
          (no_key_of_spineTarget_none hwf.sorted hc)
      · have he : sp₁.length = sp.length + 1 := by
          rw [← hwf₁.len_eq, hlen₁, hwf.len_eq]
        omega
    · obtain ⟨n, l₂, s₁, sp₁, hgt₁, hsp, hk, hins, hwf₁, _, _, hsig₁,
        hlen₁, _⟩ :=
        (insert_spec k v₁ hwf (show findFuel sp + 2 ≤ fuel by omega)).2
          tAddr hc
      refine ⟨s₁, sp₁, hgt₁, l₂, some (k, n.val), hins, hwf₁, hsig₁, ?_, ?_⟩
      · intro w hw
        have hkk := (sorted_split_keys (z := (tAddr, n))
          (by rw [← hsp]; exact hwf.sorted)).2 w hw
        rwa [hk] at hkk
      · have he : sp₁.length = sp.length := by
          rw [← hwf₁.len_eq, hlen₁, hwf.len_eq]
        omega
  obtain ⟨s₁, sp₁, hgt₁, R₁, r₁, hins₁, hwf₁, hsig₁, hR₁, hlen₁⟩ := hstep1
  obtain ⟨A, z, B, hdec, hltA, hgeB, hz1, hzk, hzv, htgt₁⟩ :=
    sig_shape_target hsig₁ ltPart_keys_lt hR₁
  have e1 : findFuel sp₁ = 33 * (sp₁.length + 2) + 2 := rfl
  have hfuel₁ : findFuel sp₁ + 2 ≤ fuel := by omega
  obtain ⟨n₂, l₂', s₂, sp₂, hgt₂, hsp₂dec, hk₂, hins₂, hwf₂, _, _, hsig₂,
    hlen₂, _⟩ := (insert_spec k v₂ hwf₁ hfuel₁).2 (s.nextAddr) htgt₁
  have hl₂keys : ∀ w ∈ l₂', k < w.2.key := by
    intro w hw
    have hkk := (sorted_split_keys (z := (s.nextAddr, n₂))
      (by rw [← hsp₂dec]; exact hwf₁.sorted)).2 w hw
    rwa [hk₂] at hkk
  have hval₂ : n₂.val = v₁ := by
    have hd := hsp₂dec
    rw [hltA] at hd
    rw [hdec] at hd
    have hcc := List.append_cancel_left hd
    injection hcc with hz2 hB2
    rw [hz2] at hzv
    exact hzv
  rw [hval₂] at hins₂
  obtain ⟨A₂, z₂, B₂, hdec₂, hltA₂, hgeB₂, hz1₂, hzk₂, hzv₂, htgt₂⟩ :=
    sig_shape_target hsig₂ ltPart_keys_lt hl₂keys
  have e2 : findFuel sp₂ = 33 * (sp₂.length + 2) + 2 := rfl
  have hlsp₂ : sp₂.length = sp₁.length := by
    rw [← hwf₂.len_eq, hlen₂, hwf₁.len_eq]
  have hfuel₂ : findFuel sp₂ ≤ fuel := by omega
  obtain ⟨n₃, l₃, hdec₃, hk₃, hget⟩ := (get_spec k hwf₂ hfuel₂).2 _ htgt₂
  have hval₃ : n₃.val = v₂ := by
    have hd := hdec₃
    rw [hltA₂] at hd
    rw [hdec₂] at hd
    have hcc := List.append_cancel_left hd
    injection hcc with hz2 hB2
    rw [hz2] at hzv₂
    exact hzv₂
  rw [hval₃] at hget
  exact ⟨s₁, r₁, s₂, hins₁, hins₂, hget⟩

/-- Witness for C1: a fresh list, `insert 1 10; insert 1 20; get 1`. -/
theorem insert_replace_semantics_witness :
    ∃ s₁ r₁ s₂, (SkipList.new Nat Nat 0).insert 1 10 103 = some (s₁, r₁) ∧
      s₁.insert 1 20 103 = some (s₂, some (1, 10)) ∧
      s₂.get 1 103 = some (s₂, some (1, 20)) :=
  insert_replace_semantics 1 10 20 (wf_new Nat Nat 0) (by decide)

/-- C2.  Round trip: on a quiescent well-formed state without the key,
`insert(k,v)` then `remove(k)` returns `(k, v)`, after which `get(k)` is
`None` and a second `remove(k)` is `None`. -/
theorem insert_remove_round_trip [LinearOrder K] {s : SkipList K V}
    {sp : Spine K V} (k : K) (v : V) (hwf : WF s sp) {fuel : Nat}
    (hfuel : findFuel sp + 35 ≤ fuel) (habs : spineTarget k sp = none) :
    ∃ s₁ s₂, s.insert k v fuel = some (s₁, none) ∧
      s₁.remove k fuel = some (s₂, some (k, v)) ∧
      s₂.get k fuel = some (s₂, none) ∧
      s₂.remove k fuel = some (s₂, none) := by
  have h2 : findFuel sp = 33 * (sp.length + 2) + 2 := rfl
  obtain ⟨s₁, sp₁, hgt₁, hins, hwf₁, _, _, hsig₁, hlen₁, _⟩ :=
    (insert_spec k v hwf (show findFuel sp + 2 ≤ fuel by omega)).1 habs
  have hRk : ∀ w ∈ gePart k sp, k < w.2.key :=
    gePart_keys_gt hwf.sorted (no_key_of_spineTarget_none hwf.sorted habs)
  obtain ⟨A, z, B, hdec, hltA, hgeB, hz1, hzk, hzv, htgt₁⟩ :=
    sig_shape_target hsig₁ ltPart_keys_lt hRk
  have e1 : findFuel sp₁ = 33 * (sp₁.length + 2) + 2 := rfl
  have hlsp₁ : sp₁.length = sp.length + 1 := by
    rw [← hwf₁.len_eq, hlen₁, hwf.len_eq]
  have hfuel₁ : findFuel sp₁ ≤ fuel := by omega
  obtain ⟨n, l₂, s₂, sp₂, hsp₂, hk₂, hrem, hwf₂, hsig₂, hnone₂, hlen₂, _,
    _, _⟩ := (remove_spec k hwf₁ hfuel₁).2 (s.nextAddr) htgt₁
  have hval : n.val = v := by
    have hd := hsp₂
    rw [hltA] at hd
    rw [hdec] at hd
    have hcc := List.append_cancel_left hd
    injection hcc with hz2 hB2
    rw [hz2] at hzv
    exact hzv
  rw [hval] at hrem
  have e2 : findFuel sp₂ = 33 * (sp₂.length + 2) + 2 := rfl
  have hlsp₂ : sp₂.length = sp₁.length - 1 := by
    rw [← hwf₂.len_eq, hlen₂, hwf₁.len_eq]
  have hfuel₂ : findFuel sp₂ ≤ fuel := by omega
  exact ⟨s₁, s₂, hins, hrem, (get_spec k hwf₂ hfuel₂).1 hnone₂,
    (remove_spec k hwf₂ hfuel₂).1 hnone₂⟩

/-- Witness for C2: a fresh list, `insert 5 55; remove 5; get 5;
remove 5`. -/
theorem insert_remove_round_trip_witness :
    ∃ s₁ s₂, (SkipList.new Nat Nat 0).insert 5 55 103 = some (s₁, none) ∧
      s₁.remove 5 103 = some (s₂, some (5, 55)) ∧
      s₂.get 5 103 = some (s₂, none) ∧
      s₂.remove 5 103 = some (s₂, none) :=
  insert_remove_round_trip 5 55 (wf_new Nat Nat 0) (by decide) rfl

/-- An operation of a single-threaded session. -/
inductive Op (K V : Type) where
  | ins (k : K) (v : V)
  | del (k : K)

/-- Fuel that always suffices for one operation on a quiescent state
(`len` equals the spine length there). -/
def opFuel (s : SkipList K V) : Nat := 33 * (s.len + 2) + 37

/-- Run one operation, keeping the final state. -/
def runOp [LinearOrder K] (s : SkipList K V) : Op K V → Option (SkipList K V)
  | .ins k v => (s.insert k v (opFuel s)).map Prod.fst
  | .del k => (s.remove k (opFuel s)).map Prod.fst

/-- Run a session of operations. -/
def runOps [LinearOrder K] (s : SkipList K V) :
    List (Op K V) → Option (SkipList K V)
  | [] => some s
  | op :: ops => do
    let s₁ ← runOp s op
    runOps s₁ ops

/-- Walk the level-0 chain from a cell value, counting the nodes whose
removed flag is clear. -/
def chainCount (s : SkipList K V) : Option Addr → Nat → Option Nat
  | none, _ => some 0
  | some _, 0 => none
  | some a, fuel + 1 => do
    let n ← s.heap a
    let c ← chainCount s ((n.level 0).ptr) fuel
    pure (if n.removed then c else c + 1)

/-- The number of level-0 nodes with `removed() == false`, read from the
Head's level-0 cell. -/
def level0Count (s : SkipList K V) (fuel : Nat) : Option Nat :=
  chainCount s ((s.headLevel 0).loadPtr) fuel

theorem chainCount_spec (s : SkipList K V) :
    ∀ (L : Spine K V) (p : Option Addr) (fuel : Nat), IsChain 0 p L →
    (∀ z ∈ L, s.heap z.1 = some z.2) →
    (∀ z ∈ L, z.2.removed = false) →
    L.length ≤ fuel → chainCount s p fuel = some L.length
  | [], p, fuel, hch, _, _, _ => by
    have hp : p = none := hch
    rw [hp]
    cases fuel <;> rfl
  | z :: L', p, fuel, hch, hheap, hrem, hlen => by
    obtain ⟨hp, hch'⟩ := hch
    obtain ⟨f, rfl⟩ : ∃ f, fuel = f + 1 := by
      refine ⟨fuel - 1, ?_⟩
      rw [List.length_cons] at hlen
      omega
    rw [hp]
    have hr := chainCount_spec s L' ((z.2.level 0).ptr) f hch'
      (fun w hw => hheap w (List.mem_cons_of_mem z hw))
      (fun w hw => hrem w (List.mem_cons_of_mem z hw))
      (by rw [List.length_cons] at hlen; omega)
    simp only [chainCount, Option.bind_eq_bind,
      hheap z (List.mem_cons_self z L'), Option.some_bind, hr,
      hrem z (List.mem_cons_self z L'), Bool.false_eq_true, if_false,
      Option.pure_def, List.length_cons]

theorem level0Count_of_wf [LinearOrder K] {s : SkipList K V} {sp : Spine K V}
    (hwf : WF s sp) : level0Count s (s.len + 1) = some s.len := by
  have hsp0 : spineLevel 0 sp = sp :=
    spineLevel_zero (fun z hz => hwf.node_hlb z hz)
  have hch : IsChain 0 ((s.headLevel 0).loadPtr) sp := by
    have hc := hwf.chains 0
    rwa [hsp0] at hc
  have hcount := chainCount_spec s sp ((s.headLevel 0).loadPtr) (s.len + 1)
    hch hwf.node_at (fun z hz => wf_removed hwf hz)
    (by rw [hwf.len_eq]; omega)
  unfold level0Count
  rw [hcount, hwf.len_eq]

theorem isEmpty_iff_len_zero (s : SkipList K V) :
    s.isEmpty = true ↔ s.len = 0 := by
  show decide (s.len < 1) = true ↔ s.len = 0
  simp [Nat.lt_one_iff]

theorem runOps_wf [LinearOrder K] :
    ∀ (ops : List (Op K V)) (s : SkipList K V) (sp : Spine K V), WF s sp →
    ∃ s' sp', runOps s ops = some s' ∧ WF s' sp'
  | [], s, sp, hwf => ⟨s, sp, rfl, hwf⟩
  | op :: ops, s, sp, hwf => by
    have h2 : findFuel sp = 33 * (sp.length + 2) + 2 := rfl
    have hfuel : findFuel sp + 2 ≤ opFuel s := by
      show findFuel sp + 2 ≤ 33 * (s.len + 2) + 37
      rw [hwf.len_eq]
      omega
    cases op with
    | ins k v =>
      rcases hc : spineTarget k sp with _ | tAddr
      · obtain ⟨s₁, sp₁, hgt₁, hins, hwf₁, _, _, _, _, _⟩ :=
          (insert_spec k v hwf hfuel).1 hc
        obtain ⟨s', sp', hrun, hwf'⟩ := runOps_wf ops s₁ sp₁ hwf₁
        refine ⟨s', sp', ?_, hwf'⟩
        simp only [runOps, runOp, Option.bind_eq_bind, hins,
          Option.map_some', Option.some_bind]
        exact hrun
      · obtain ⟨n, l₂, s₁, sp₁, hgt₁, _, _, hins, hwf₁, _, _, _, _, _⟩ :=
          (insert_spec k v hwf hfuel).2 tAddr hc
        obtain ⟨s', sp', hrun, hwf'⟩ := runOps_wf ops s₁ sp₁ hwf₁
        refine ⟨s', sp', ?_, hwf'⟩
        simp only [runOps, runOp, Option.bind_eq_bind, hins,
          Option.map_some', Option.some_bind]
        exact hrun
    | del k =>
      have hfuel' : findFuel sp ≤ opFuel s := by omega
      rcases hc : spineTarget k sp with _ | tAddr
      · have hrm := (remove_spec k hwf hfuel').1 hc
        obtain ⟨s', sp', hrun, hwf'⟩ := runOps_wf ops s sp hwf
        refine ⟨s', sp', ?_, hwf'⟩
        simp only [runOps, runOp, Option.bind_eq_bind, hrm,
          Option.map_some', Option.some_bind]
        exact hrun
      · obtain ⟨n, l₂, s₁, sp₁, _, _, hrm, hwf₁, _, _, _, _, _, _⟩ :=
          (remove_spec k hwf hfuel').2 tAddr hc
        obtain ⟨s', sp', hrun, hwf'⟩ := runOps_wf ops s₁ sp₁ hwf₁
        refine ⟨s', sp', ?_, hwf'⟩
        simp only [runOps, runOp, Option.bind_eq_bind, hrm,
          Option.map_some', Option.some_bind]
        exact hrun

/-- C9.  After any single-threaded session of inserts and removes from a
fresh list, the operations all succeed, the length counter equals the
number of level-0 nodes whose removed flag is clear, and `is_empty()`
holds exactly when the counter is zero. -/
theorem len_counts_unremoved_level0 [LinearOrder K]
    (ops : List (Op K V)) (seed : Nat) :
    ∃ s', runOps (SkipList.new K V seed) ops = some s' ∧
      level0Count s' (s'.len + 1) = some s'.len ∧
      (s'.isEmpty = true ↔ s'.len = 0) := by
  obtain ⟨s', sp', hrun, hwf'⟩ :=
    runOps_wf ops (SkipList.new K V seed) [] (wf_new K V seed)
  exact ⟨s', hrun, level0Count_of_wf hwf', isEmpty_iff_len_zero s'⟩

end Skippy